import Mathlib

/-!
# pidigits.c : the n-th decimal digits of pi (Bellard 1997, refactored)

A shallow embedding of `src/pidigits.c`.

* C `int` values are Lean `Int`s; every `int` operation that may leave the
  32-bit range is followed by `wrap32` (two's complement wrap-around).
* `mul_mod` works on `long long`: its operands are `int`s, so the product is
  below `2^62` and is not wrapped.
* C `/` and `%` truncate towards zero: `Int.tdiv` and `Int.tmod`.
* `x & 1` is the low bit of the two's complement representation, `x % 2` on
  `Int` (Euclidean remainder); `x >> 1` is the arithmetic shift, `x / 2` on
  `Int` (floor division).
* A quotient of two `int`s is an `int` again and is not wrapped.
* A loop is a structurally recursive function with a fuel argument; `none`
  means that the fuel ran out or that the C code traps (division by zero).
* Floating point is not modelled. The two `double` expressions of `main` that
  are cast to `int` are parameters (`FloatOps`), with `exactOps` their values
  without rounding error; the accumulator `sum` is an exact fraction (`Frac`).
  `(int) sqrt(n)` in `is_prime` is the integer square root, which the correctly
  rounded `double` square root gives for every non-negative `int`.
-/

namespace PiDigits

/-! ## Machine integers -/

/-- Smallest value of a 32-bit `int`. -/
def INT_MIN : Int := -2147483648

/-- Largest value of a 32-bit `int`. -/
def INT_MAX : Int := 2147483647

/-- Two's complement wrap-around of an `int` result to 32 bits. -/
def wrap32 (x : Int) : Int := (x + 2147483648) % 4294967296 - 2147483648

/-- The value is representable as a 32-bit `int`. -/
def inInt (x : Int) : Prop := INT_MIN ≤ x ∧ x ≤ INT_MAX

instance (x : Int) : Decidable (inInt x) := by
  unfold inInt; exact inferInstance

/-- Low bit test `(x & 1) != 0`. -/
def lowBit (x : Int) : Bool := x % 2 != 0

/-- Arithmetic right shift `x >> 1`. -/
def asr1 (x : Int) : Int := x / 2

/-! ## `mul_mod` (line 37) -/

/-- The macro `mul_mod(a, b, m)`, that is `((long long)(a) * (long long)(b)) % (m)`;
the remainder by zero traps. -/
def mul_mod (a b m : Int) : Option Int :=
  if m = 0 then none else some (Int.tmod (a * b) m)

/-! ## `inv_mod` (lines 63-91) -/

/-- The `do ... while (u != 0)` loop of `inv_mod`; the state is `u v c a`,
the result is the final `a`. -/
def inv_mod_loop : Nat → Int → Int → Int → Int → Option Int
  | 0, _, _, _, _ => none
  | fuel + 1, u, v, c, a =>
    if u = 0 then none
    else
      let q := Int.tdiv v u
      let c1 := wrap32 (a - wrap32 (q * c))
      let u1 := wrap32 (v - wrap32 (q * u))
      if u1 ≠ 0 then inv_mod_loop fuel u1 u c1 c else some c

/-- The function `inv_mod(x, y)`: the loop, then `a %= y; if (a < 0) a = y + a;`. -/
def inv_mod (x y : Int) : Option Int :=
  match inv_mod_loop (x.natAbs + 1) x y 1 0 with
  | none => none
  | some a =>
    if y = 0 then none
    else
      let a1 := Int.tmod a y
      some (if a1 < 0 then wrap32 (y + a1) else a1)

/-! ## `inv_mod2` (lines 94-153) -/

/-- The body of the inner `do` loop of `inv_mod2` (lines 119-128). -/
def inv_mod2_body (v t1 t3 : Int) : Int × Int :=
  if !lowBit t1 then (asr1 t1, asr1 t3)
  else (asr1 (wrap32 (t1 + v)), asr1 t3)

/-- The inner loop of `inv_mod2` entered at the label `Y4`, that is at its
condition `while ((t3 & 1) == 0)`. -/
def inv_mod2_Y4 : Nat → Int → Int → Int → Option (Int × Int)
  | 0, _, _, _ => none
  | fuel + 1, v, t1, t3 =>
    if !lowBit t3 then
      inv_mod2_Y4 fuel v (inv_mod2_body v t1 t3).1 (inv_mod2_body v t1 t3).2
    else some (t1, t3)

/-- The outer `do ... while (t3 != 0)` loop of `inv_mod2`, entered at the label
`Y4`; the result is the final `u1`. -/
def inv_mod2_loop : Nat → Int → Int → Int → Int → Int → Int → Int → Option Int
  | 0, _, _, _, _, _, _, _ => none
  | fuel + 1, v, u1, u3, v1, v3, t1, t3 =>
    match inv_mod2_Y4 (t3.natAbs + 1) v t1 t3 with
    | none => none
    | some (s1, s3) =>
      let u1n := if s3 ≥ 0 then s1 else u1
      let u3n := if s3 ≥ 0 then s3 else u3
      let v1n := if s3 ≥ 0 then v1 else wrap32 (v - s1)
      let v3n := if s3 ≥ 0 then v3 else wrap32 (-s3)
      let r1 := wrap32 (u1n - v1n)
      let r3 := wrap32 (u3n - v3n)
      let r1n := if r1 < 0 then wrap32 (r1 + v) else r1
      if r3 ≠ 0 then
        inv_mod2_loop fuel v u1n u3n v1n v3n (inv_mod2_body v r1n r3).1 (inv_mod2_body v r1n r3).2
      else some u1n

/-- The function `inv_mod2(u, v)`: an odd `u` jumps to `Y4` with `t1 = 0`,
`t3 = -v`; an even `u` falls into the loop body with `t1 = 1`, `t3 = u`. -/
def inv_mod2 (u v : Int) : Option Int :=
  if lowBit u then
    inv_mod2_loop (u.natAbs + v.natAbs + 2) v 1 u v v 0 (wrap32 (-v))
  else
    inv_mod2_loop (u.natAbs + v.natAbs + 2) v 1 u v v (inv_mod2_body v 1 u).1 (inv_mod2_body v 1 u).2

/-! ## `pow_mod` (lines 156-174) -/

/-- The `while (1)` loop of `pow_mod`; the state is `r aa b`. -/
def pow_mod_loop : Nat → Int → Int → Int → Int → Option Int
  | 0, _, _, _, _ => none
  | fuel + 1, r, aa, b, m =>
    match (if lowBit b then mul_mod r aa m else some r) with
    | none => none
    | some r1 =>
      if asr1 b = 0 then some r1
      else
        match mul_mod aa aa m with
        | none => none
        | some aa1 => pow_mod_loop fuel r1 aa1 (asr1 b) m

/-- The function `pow_mod(a, b, m)`. A negative `b` never reaches zero under
`b >>= 1`: the C loop does not end, and the result is `none`. -/
def pow_mod (a b m : Int) : Option Int :=
  pow_mod_loop (b.natAbs + 1) 1 a b m

/-! ## `is_prime` and `next_prime` (lines 177-197) -/

/-- The value of `(int) sqrt(n)`: the greatest `r` with `r * r <= n`. For
`0 <= n < 2^31` the correctly rounded double square root truncates to exactly
this integer. For a negative `n` the C value is the cast of a NaN, which the
language leaves open; the embedding takes 0 there. -/
def isqrt (n : Int) : Int :=
  (Nat.findGreatest (fun r => r * r ≤ n.toNat) n.toNat : Nat)

/-- The loop `for (i = 3; i <= r; i += 2) if (n % i == 0) return 0;` followed by
`return 1`. -/
def is_prime_loop : Nat → Int → Int → Int → Option Bool
  | 0, _, _, _ => none
  | fuel + 1, n, r, i =>
    if i ≤ r then
      if Int.tmod n i = 0 then some false
      else is_prime_loop fuel n r (wrap32 (i + 2))
    else some true

/-- The function `is_prime(n)`. -/
def is_prime (n : Int) : Option Bool :=
  if Int.tmod n 2 = 0 then some false
  else is_prime_loop ((isqrt n).toNat + 1) n (isqrt n) 3

/-- The loop `while (!is_prime(++n));` of `next_prime`, then `return n`. -/
def next_prime_loop : Nat → Int → Option Int
  | 0, _ => none
  | fuel + 1, n =>
    match is_prime (wrap32 (n + 1)) with
    | none => none
    | some true => some (wrap32 (n + 1))
    | some false => next_prime_loop fuel (wrap32 (n + 1))

/-- The function `next_prime(n)`. -/
def next_prime (n : Int) : Option Int :=
  next_prime_loop (n.natAbs + 2) n

/-! ## The macro `DIVN` (lines 42-59) -/

/-- The loop `while (kq >= a) kq -= a;` of `DIVN`. -/
def DIVN_reduce : Nat → Int → Int → Option Int
  | 0, _, _ => none
  | fuel + 1, a, kq =>
    if kq ≥ a then DIVN_reduce fuel a (wrap32 (kq - a)) else some kq

/-- The loop `do { t /= a; v += vinc; } while (t % a == 0);` of `DIVN`; the
result is the pair `(t, v)`. -/
def DIVN_strip : Nat → Int → Int → Int → Int → Option (Int × Int)
  | 0, _, _, _, _ => none
  | fuel + 1, a, vinc, t, v =>
    if a = 0 then none
    else if Int.tmod (Int.tdiv t a) a = 0 then
      DIVN_strip fuel a vinc (Int.tdiv t a) (wrap32 (v + vinc))
    else some (Int.tdiv t a, wrap32 (v + vinc))

/-- The macro `DIVN(t, a, v, vinc, kq, kqinc)`; the result is the triple of the
updated `(t, v, kq)`. -/
def DIVN (t a v vinc kq kqinc : Int) : Option (Int × Int × Int) :=
  if wrap32 (kq + kqinc) ≥ a then
    match DIVN_reduce ((wrap32 (kq + kqinc)).natAbs + 1) a (wrap32 (kq + kqinc)) with
    | none => none
    | some kq2 =>
      if kq2 = 0 then
        match DIVN_strip (t.natAbs + 1) a vinc t v with
        | none => none
        | some (t2, v2) => some (t2, v2, kq2)
      else some (t, v, kq2)
  else some (t, v, wrap32 (kq + kqinc))

/-! ## `main` (lines 228-335) -/

/-- The values of the two floating-point expressions of `main` whose result is
cast to `int`: `truncLen n` stands for `(int) ((n + 20) * log(10) / log(13.5))`
and `logRatio x a` for `(int) (log(x) / log(a))`. -/
structure FloatOps where
  truncLen : Int → Int
  logRatio : Int → Int → Int

/-- The two expressions of `FloatOps` without rounding error:
`floor ((n + 20) * ln 10 / ln 13.5)` is the greatest `N` with
`13.5^N <= 10^(n+20)`, where `n + 20` is an `int` sum, and `floor (ln x / ln a)`
the greatest `e` with `a^e <= x`. The `double` quotient of the program can fall
one below `logRatio x a` when `x` is an exact power of `a` (`log(243) / log(3)`
is 4.999999999999999 and is cast to 4); statements about the value of `vmax`
therefore take the computed quotient as a hypothesis on an arbitrary `FloatOps`. -/
def exactOps : FloatOps where
  truncLen := fun n =>
    (Nat.findGreatest (fun N => 27 ^ N ≤ 2 ^ N * 10 ^ (wrap32 (n + 20)).toNat)
      (wrap32 (n + 20)).toNat : Nat)
  logRatio := fun x a =>
    (Nat.findGreatest (fun e => a.toNat ^ e ≤ x.toNat) x.toNat : Nat)

/-- The variables of the `k` loop of `main` that live across iterations. -/
structure Inner where
  num : Int
  den : Int
  kq1 : Int
  kq2 : Int
  kq3 : Int
  kq4 : Int
  v : Int
  s : Int
  deriving DecidableEq, Repr

/-- The loop `av = 1; for (i = 0; i < vmax; i++) av *= a;` run `cnt` times. -/
def av_loop (a : Int) : Nat → Int
  | 0 => 1
  | cnt + 1 => wrap32 (av_loop a cnt * a)

/-- The loop `for (i = v; i < vmax; i++) t = mul_mod(t, a, av);` run `cnt`
times. -/
def restore_loop (a av : Int) : Nat → Int → Option Int
  | 0, t => some t
  | cnt + 1, t =>
    match mul_mod t a av with
    | none => none
    | some t1 => restore_loop a av cnt t1

/-- The fold of lines 307-318, taken when `v > 0`; the result is the new `s`. -/
def fold_term (a av vmax k : Int) (num den v s : Int) : Option Int :=
  match (if a ≠ 2 then inv_mod2 den av else inv_mod den av) with
  | none => none
  | some t0 =>
    match mul_mod t0 num av with
    | none => none
    | some t1 =>
      match restore_loop a av (vmax - v).toNat t1 with
      | none => none
      | some t2 =>
        match mul_mod t2 (wrap32 (wrap32 (25 * k) - 3)) av with
        | none => none
        | some t3 =>
          some (if wrap32 (s + t3) ≥ av then wrap32 (wrap32 (s + t3) - av) else wrap32 (s + t3))

/-- The four `DIVN` steps of one iteration of the `k` loop (lines 286-305); the
result is the new `(num, den, kq1, kq2, kq3, kq4, v)` with `s` unchanged. -/
def strip_step (a av k : Int) (st : Inner) : Option Inner :=
  match DIVN (wrap32 (2 * k)) a st.v (-1) st.kq1 2 with
  | none => none
  | some (ta, va, kq1) =>
    match mul_mod st.num ta av with
    | none => none
    | some numa =>
      match DIVN (wrap32 (wrap32 (2 * k) - 1)) a va (-1) st.kq2 2 with
      | none => none
      | some (tb, vb, kq2) =>
        match mul_mod numa tb av with
        | none => none
        | some numb =>
          match DIVN (wrap32 (3 * wrap32 (wrap32 (3 * k) - 1))) a vb 1 st.kq3 9 with
          | none => none
          | some (tc, vc, kq3) =>
            match mul_mod st.den tc av with
            | none => none
            | some denc =>
              match DIVN (wrap32 (wrap32 (3 * k) - 2)) a vc 1 st.kq4 3 with
              | none => none
              | some (td, vd, kq4) =>
                match mul_mod denc (if a ≠ 2 then wrap32 (td * 2) else td) av with
                | none => none
                | some dend =>
                  some { num := numb, den := dend, kq1 := kq1, kq2 := kq2, kq3 := kq3,
                         kq4 := kq4, v := if a ≠ 2 then vd else wrap32 (vd + 1), s := st.s }

/-- One iteration of the `k` loop (lines 286-318). -/
def inner_step (a av vmax k : Int) (st : Inner) : Option Inner :=
  match strip_step a av k st with
  | none => none
  | some st1 =>
    if st1.v > 0 then
      match fold_term a av vmax k st1.num st1.den st1.v st1.s with
      | none => none
      | some s1 => some { st1 with s := s1 }
    else some st1

/-- The loop `for (k = 1; k <= N; k++)` from the current `k`. -/
def inner_loop : Nat → Int → Int → Int → Int → Int → Inner → Option Inner
  | 0, _, _, _, _, _, _ => none
  | fuel + 1, a, av, vmax, N, k, st =>
    if k ≤ N then
      match inner_step a av vmax k st with
      | none => none
      | some st1 => inner_loop fuel a av vmax N (wrap32 (k + 1)) st1
    else some st

/-- The value of `vmax` after lines 254-257. -/
def vmax_of (ops : FloatOps) (n N a : Int) : Int :=
  if a = 2 then wrap32 (ops.logRatio (wrap32 (3 * N)) a + wrap32 (N - n))
  else ops.logRatio (wrap32 (3 * N)) a

/-- The state of the `k` loop at its start (lines 266-282). -/
def inner_init (n a av : Int) : Option Inner :=
  if a = 2 then
    some { num := 1, den := 1, kq1 := 0, kq2 := -1, kq3 := -3, kq4 := -2,
           v := wrap32 (-n), s := 0 }
  else
    match pow_mod 2 n av with
    | none => none
    | some p =>
      some { num := p, den := 1, kq1 := 0, kq2 := -1, kq3 := -3, kq4 := -2, v := 0, s := 0 }

/-- The value of `s` after line 322 for the prime `a` with modulus `av`. -/
def prime_sum (n N a av vmax : Int) : Option Int :=
  match inner_init n a av with
  | none => none
  | some st0 =>
    match inner_loop (N.toNat + 1) a av vmax N 1 st0 with
    | none => none
    | some st =>
      match pow_mod 5 (wrap32 (n - 1)) av with
      | none => none
      | some t => mul_mod st.s t av

/-- The accumulator `sum`, kept as an exact fraction `num / den` instead of a
`double`. -/
structure Frac where
  num : Int
  den : Int
  deriving DecidableEq, Repr

/-- The rational number a fraction stands for. -/
def Frac.toRat (x : Frac) : Rat := (x.num : Rat) / (x.den : Rat)

/-- The value of `sum + (double) s / av`, without rounding. -/
def Frac.addQuot (x : Frac) (s av : Int) : Frac :=
  { num := x.num * av + s * x.den, den := x.den * av }

/-- The value of `fmod(x, 1.0)`, that is `x` minus its integer part (rounded
towards zero), without rounding. -/
def fmod1 (x : Frac) : Frac := { num := Int.tmod x.num x.den, den := x.den }

/-- The value of `(long long) (sum * 1e10)`, without rounding. -/
def digits_of (x : Frac) : Int := Int.tdiv (x.num * 10000000000) x.den

/-- The body of the prime loop (lines 254-323) for the prime `a`: the new value
of `sum`. The progress bar of lines 324-325 only prints. -/
def prime_pass (ops : FloatOps) (n N a : Int) (sum : Frac) : Option Frac :=
  if a = 2 ∧ vmax_of ops n N a ≤ 0 then some sum
  else
    match prime_sum n N a (av_loop a (vmax_of ops n N a).toNat) (vmax_of ops n N a) with
    | none => none
    | some s => some (fmod1 (sum.addQuot s (av_loop a (vmax_of ops n N a).toNat)))

/-- The loop `for (a = 2; a <= 3 * N; a = next_prime(a))` from the current `a`;
the result is the final `sum` and the final `a`. -/
def sweep (ops : FloatOps) (n N : Int) : Nat → Int → Frac → Option (Frac × Int)
  | 0, _, _ => none
  | fuel + 1, a, sum =>
    if a ≤ wrap32 (3 * N) then
      match prime_pass ops n N a sum with
      | none => none
      | some sum1 =>
        match next_prime a with
        | none => none
        | some a1 => sweep ops n N fuel a1 sum1
    else some (sum, a)

/-- What a run of `main` prints: the usage text (exit status 1), or the ten
digits of line 328 and the prime of line 333 (exit status 0). -/
inductive Outcome where
  | usage : Outcome
  | report (digits : Int) (largest : Int) : Outcome
  deriving DecidableEq, Repr

/-- The function `main` on `n = atoi(argv[1])`, a program argument being present
(no argument, or a non-numeric one for which `atoi` gives 0, prints the usage
text as well). -/
def main (ops : FloatOps) (n : Int) : Option Outcome :=
  if n ≤ 0 then some Outcome.usage
  else
    match sweep ops n (ops.truncLen n) ((wrap32 (3 * ops.truncLen n)).toNat + 1) 2
        { num := 0, den := 1 } with
    | none => none
    | some (sum, a) => some (Outcome.report (digits_of sum) a)

/-! ## Specification-side definitions and loop invariants -/

/-- Brute force in the words of the spec (section 8): start from 1 and multiply by
`b`, `e` times, reducing modulo `m` after each step. -/
def pow_brute (b m : Int) : Nat → Int
  | 0 => 1
  | e + 1 => (pow_brute b m e * b) % m

/-- Invariant of the loop of `inv_mod(x, y)`: the cofactors `c` and `a` have opposite
signs and `|c| * v + |a| * u = y`. -/
def CofactorInv (y u v c a : Int) : Prop :=
  (0 ≤ c ∧ a ≤ 0 ∧ c * v - a * u = y) ∨ (c ≤ 0 ∧ 0 ≤ a ∧ a * u - c * v = y)

/-- What holds of the variables of `inv_mod2(u, v)` at the label `Y4`. -/
structure Y4Inv (u v u1 u3 v1 v3 t1 t3 : Int) : Prop where
  u1_nonneg : 0 ≤ u1
  u1_lt : u1 < v
  v1_pos : 0 < v1
  v1_le : v1 ≤ v
  t1_nonneg : 0 ≤ t1
  t1_lt : t1 < v
  u3_pos : 0 < u3
  u3_le : u3 ≤ 2147483647
  v3_pos : 0 < v3
  v3_le : v3 ≤ 2147483647
  v3_odd : v3 % 2 = 1
  u3_odd : u3 % 2 = 1 ∨ 0 < t3
  t3_ne : t3 ≠ 0
  t3_lt_u3 : 0 < t3 → t3 < u3
  t3_lt_v3 : t3 < 0 → -t3 < v3
  cop_pos : 0 < t3 → IsCoprime t3 v3
  cop_neg : t3 < 0 → IsCoprime u3 t3
  cong_u : v ∣ u1 * u - u3
  cong_v : v ∣ v1 * u - v3
  cong_t : v ∣ t1 * u - t3


/-- The part of `m` that is free of the prime `p`: `m` divided by the largest power of
`p` that divides it. -/
def pfree (p m : Nat) : Nat := m / p ^ m.factorization p

/-- The product of the numerator terms of the first `k` iterations,
`(2 * 1) * (2 * 1 - 1) * ... * (2 * k) * (2 * k - 1)`. -/
def numProd : Nat → Nat
  | 0 => 1
  | k + 1 => numProd k * (2 * (k + 1)) * (2 * (k + 1) - 1)

/-- The product of the denominator terms of the first `k` iterations,
`3 * (3 * 1 - 1) * (3 * 1 - 2) * ... * 3 * (3 * k - 1) * (3 * k - 2)`. -/
def denProd : Nat → Nat
  | 0 => 1
  | k + 1 => denProd k * (3 * (3 * (k + 1) - 1)) * (3 * (k + 1) - 2)

/-- A phase counter of `DIVN` after `k` iterations, for the term `x` of iteration `k`:
the counter is `x mod p`, or still its initial value `x` before the first iteration. -/
def PhaseInv (p : Nat) (k : Nat) (kq x : Int) : Prop :=
  kq = x % (p : Int) ∨ (k = 0 ∧ kq = x)

/-- What holds of the variables of the `k` loop of `main` after `k` iterations for the
prime `p`, the position `n` and the modulus `p ^ vmax` (all but `s`). -/
structure InnerInv (p : Nat) (n : Int) (vmax : Nat) (k : Nat) (st : Inner) : Prop where
  kq1 : PhaseInv p k st.kq1 (2 * (k : Int))
  kq2 : PhaseInv p k st.kq2 (2 * (k : Int) - 1)
  kq3 : PhaseInv p k st.kq3 (3 * (3 * (k : Int) - 1))
  kq4 : PhaseInv p k st.kq4 (3 * (k : Int) - 2)
  v : st.v = (if p = 2 then (k : Int) - n else 0) + ((Nat.choose (3 * k) k).factorization p : Nat)
  num : st.num = ((if p = 2 then 1 else 2 ^ n.toNat : Int) * (pfree p (numProd k) : Nat))
    % (p : Int) ^ vmax
  den : st.den = (((pfree p (denProd k) : Nat) : Int) * (if p = 2 then 1 else 2 ^ k : Int))
    % (p : Int) ^ vmax

/-- How one iteration of the `k` loop changes `s`: the fold of lines 307-318 when `v > 0`,
nothing otherwise. `st1` is the state after the four `DIVN` steps of iteration `k`. -/
def FoldRel (p : Nat) (vmax : Nat) (k : Nat) (st1 : Inner) (s s1 : Int) : Prop :=
  (st1.v ≤ 0 → s1 = s) ∧
  (0 < st1.v → ∃ r, 0 ≤ r ∧ r < (p : Int) ^ vmax ∧ (st1.den * r) % (p : Int) ^ vmax = 1 ∧
    (25 * k ≤ 2147483647 → 0 ≤ s → s < (p : Int) ^ vmax → (p : Int) ^ vmax ≤ 1073741824 →
      0 ≤ s1 ∧ s1 < (p : Int) ^ vmax ∧
      s1 ≡ s + r * st1.num * (p : Int) ^ ((vmax : Int) - st1.v).toNat * (25 * (k : Int) - 3)
        [ZMOD (p : Int) ^ vmax]))

/-- The state of the `k` loop of `main` after `j` complete iterations (that is, on
entry to iteration `j + 1`): the loop of lines 266-319 run with the bound `j` in
place of `N`. -/
def inner_state (n a av vmax : Int) (j : Nat) : Option Inner :=
  inner_init n a av >>= fun st0 => inner_loop (j + 1) a av vmax (j : Int) 1 st0

/-- The prime loop of `main` (lines 252-326) from the current `a`, with a record of
the values of `a` for which the body has run, in order: `sweep` with the list of
these values as its result. A trap in the body ends the loop without a result. -/
def sweep_values (ops : FloatOps) (n N : Int) : Nat → Int → Frac → Option (List Int)
  | 0, _, _ => none
  | fuel + 1, a, sum =>
    if a ≤ wrap32 (3 * N) then
      match prime_pass ops n N a sum with
      | none => none
      | some sum1 =>
        match next_prime a with
        | none => none
        | some a1 =>
          match sweep_values ops n N fuel a1 sum1 with
          | none => none
          | some l => some (a :: l)
    else some []

/-- Brute-force factor extraction in the words of the spec: divide `t` by `a` as
long as `a` divides it, at most `fuel` times; the result is what is left of `t` and
the number of divisions. -/
def strip_brute (a : Nat) : Nat → Nat → Nat × Nat
  | 0, t => (t, 0)
  | fuel + 1, t =>
    if a ∣ t then ((strip_brute a fuel (t / a)).1, (strip_brute a fuel (t / a)).2 + 1)
    else (t, 0)

/-- The rational `x` is integral at the prime `p`: some multiple of `x` by a natural number
that `p` does not divide is an integer. -/
def PInt (p : Nat) (x : Rat) : Prop :=
  ∃ (b : Nat) (a : Int), ¬ p ∣ b ∧ x * (b : Rat) = (a : Rat)

/-- The term of index `k` of the series behind `main` (file header, lines 10-12), scaled by
`2^n`: `2^n * (25k - 3) / (binomial(3k, k) * 2^k)`. -/
def scaledTerm (n : Int) (k : Nat) : Rat :=
  (2 : Rat) ^ n.toNat * (25 * (k : Rat) - 3) / ((Nat.choose (3 * k) k : Rat) * 2 ^ k)

/-- The sum of the scaled terms of index `1..j`. -/
def scaledSum (n : Int) : Nat → Rat
  | 0 => 0
  | j + 1 => scaledSum n j + scaledTerm n (j + 1)

/-- The exponent that the `k` loop holds in `v` after the four `DIVN` steps of iteration
`k`: the exponent of `p` in `binomial(3k, k)`, plus `k - n` for `p = 2`. -/
def termExp (p : Nat) (n : Int) (k : Nat) : Int :=
  (if p = 2 then (k : Int) - n else 0) + ((Nat.choose (3 * k) k).factorization p : Nat)

/-- The numerator that the `k` loop holds in `num` (before reduction modulo `av`). -/
def termNum (p : Nat) (n : Int) (k : Nat) : Int :=
  (if p = 2 then 1 else 2 ^ n.toNat : Int) * (pfree p (numProd k) : Nat)

/-- The denominator that the `k` loop holds in `den` (before reduction modulo `av`). -/
def termDen (p : Nat) (k : Nat) : Nat :=
  pfree p (denProd k) * (if p = 2 then 1 else 2 ^ k)

/-! ## Helper lemmas: machine integers, `pow_mod` -/

theorem wrap32_of_inInt {x : Int} (h1 : -2147483648 ≤ x) (h2 : x ≤ 2147483647) : wrap32 x = x := by
  unfold wrap32; omega

theorem lowBit_natCast (e : Nat) : lowBit (e : Int) = (e % 2 != 0) := by
  unfold lowBit
  rcases Nat.mod_two_eq_zero_or_one e with h | h
  · have : ((e : Int)) % 2 = 0 := by omega
    simp [h, this]
  · have : ((e : Int)) % 2 = 1 := by omega
    simp [h, this]

theorem asr1_natCast (e : Nat) : asr1 (e : Int) = ((e / 2 : Nat) : Int) := by
  unfold asr1; simp

theorem mul_mod_nonneg {a b m : Int} (ha : 0 ≤ a) (hb : 0 ≤ b) (hm : 0 < m) :
    mul_mod a b m = some ((a * b) % m) := by
  unfold mul_mod
  rw [if_neg (by omega), Int.tmod_eq_emod (mul_nonneg ha hb) (le_of_lt hm)]

theorem pow_mod_loop_spec (m : Int) (hm : 0 < m) :
    ∀ (fuel e : Nat) (r aa : Int), 0 ≤ r → 0 ≤ aa → 1 ≤ e → e < fuel →
      pow_mod_loop fuel r aa (e : Int) m = some ((r * aa ^ e) % m) := by
  intro fuel
  induction fuel with
  | zero => intro e r aa _ _ _ h; omega
  | succ fuel ih =>
    intro e r aa hr haa he hlt
    unfold pow_mod_loop
    rw [lowBit_natCast, asr1_natCast]
    have hsplit : e = 2 * (e / 2) + e % 2 := (Nat.div_add_mod e 2).symm
    rcases Nat.mod_two_eq_zero_or_one e with h | h
    · -- even exponent, at least 2
      have he2 : 1 ≤ e / 2 := by omega
      simp only [h, bne_self_eq_false, Bool.false_eq_true, if_false]
      have hne : ¬ (((e / 2 : Nat) : Int) = 0) := by omega
      simp only [hne, if_false]
      rw [mul_mod_nonneg haa haa hm]
      simp only
      rw [ih (e / 2) r _ hr (Int.emod_nonneg _ (by omega)) he2 (by omega)]
      congr 1
      have hpow : aa ^ e = (aa * aa) ^ (e / 2) := by
        conv_lhs => rw [hsplit, h]
        rw [add_zero, pow_mul, pow_two]
      rw [hpow]
      apply Int.ModEq.mul_left
      exact (Int.mod_modEq _ _).pow _
    · simp only [h]
      have h10 : ((1 : Nat) != 0) = true := by decide
      simp only [h10, if_true]
      rw [mul_mod_nonneg hr haa hm]
      simp only
      by_cases hz : e / 2 = 0
      · have he1 : e = 1 := by omega
        simp [hz, he1]
      · have hne : ¬ (((e / 2 : Nat) : Int) = 0) := by omega
        simp only [hne, if_false]
        rw [mul_mod_nonneg haa haa hm]
        simp only
        rw [ih (e / 2) _ _ (Int.emod_nonneg _ (by omega)) (Int.emod_nonneg _ (by omega))
          (by omega) (by omega)]
        congr 1
        have hpow : aa ^ e = (aa * aa) ^ (e / 2) * aa := by
          conv_lhs => rw [hsplit, h]
          rw [pow_add, pow_mul, pow_two, pow_one]
        rw [hpow]
        have h1 : (r * aa % m) ≡ r * aa [ZMOD m] := Int.mod_modEq _ _
        have h2 : (aa * aa % m) ^ (e / 2) ≡ (aa * aa) ^ (e / 2) [ZMOD m] := (Int.mod_modEq _ _).pow _
        have := h1.mul h2
        calc (r * aa % m * (aa * aa % m) ^ (e / 2)) % m = (r * aa * (aa * aa) ^ (e / 2)) % m := this
          _ = _ := by ring_nf

theorem pow_mod_zero_exp (a m : Int) : pow_mod a 0 m = some 1 := by
  simp [pow_mod, pow_mod_loop, lowBit, asr1]

theorem pow_mod_pos_exp (a b m : Int) (ha : 0 ≤ a) (hb : 1 ≤ b) (hm : 1 ≤ m) :
    pow_mod a b m = some (a ^ b.toNat % m) := by
  obtain ⟨e, rfl⟩ := Int.eq_ofNat_of_zero_le (by omega : 0 ≤ b)
  unfold pow_mod
  rw [pow_mod_loop_spec m (by omega) _ e 1 a (by omega) ha (by omega) (by simp)]
  simp

theorem pow_brute_eq (b m : Int) (hm : 1 < m) (e : Nat) : pow_brute b m e = b ^ e % m := by
  induction e with
  | zero => simp [pow_brute]; rw [Int.emod_eq_of_lt (by omega) hm]
  | succ e ih =>
    simp only [pow_brute, ih, pow_succ]
    exact (Int.mod_modEq _ _).mul_right _

/-! ## Helper lemmas: `inv_mod` -/

theorem tmod_neg_arg (r y : Int) : Int.tmod (-r) y = -Int.tmod r y := by
  rw [Int.tmod_def, Int.tmod_def, Int.neg_tdiv]; ring

theorem tmod_bounds (r y : Int) (hy : 0 < y) :
    -y < Int.tmod r y ∧ Int.tmod r y < y ∧ (0 ≤ r → 0 ≤ Int.tmod r y) ∧
      (r ≤ 0 → Int.tmod r y ≤ 0) := by
  have hlt := Int.tmod_lt_of_pos r hy
  rcases le_or_lt 0 r with h | h
  · have := Int.tmod_nonneg y h
    refine ⟨by omega, hlt, fun _ => this, fun h0 => ?_⟩
    have : r = 0 := by omega
    simp [this]
  · have h1 := tmod_neg_arg r y
    have h2 := Int.tmod_lt_of_pos (-r) hy
    have h3 := Int.tmod_nonneg y (by omega : 0 ≤ -r)
    refine ⟨by omega, hlt, fun h0 => by omega, fun _ => by omega⟩

theorem inv_mod_loop_spec (x y : Int) (hy : 2 ≤ y) (hyM : y ≤ 2147483647) :
    ∀ (fuel : Nat) (u v c a : Int), 0 < u → 0 < v → u ≤ 2147483647 → v ≤ 2147483647 →
      IsCoprime u v → y ∣ c * x - u → y ∣ a * x - v → CofactorInv y u v c a →
      u.toNat < fuel →
      ∃ r, inv_mod_loop fuel u v c a = some r ∧ y ∣ r * x - 1 ∧ -y ≤ r ∧ r ≤ y := by
  intro fuel
  induction fuel with
  | zero => intro u v c a _ _ _ _ _ _ _ _ h; omega
  | succ fuel ih =>
    intro u v c a hu hv huM hvM hg hc ha hinv hfuel
    unfold inv_mod_loop
    rw [if_neg (by omega)]
    have hq : Int.tdiv v u = v / u := Int.tdiv_eq_ediv (by omega) (by omega)
    simp only [hq]
    have hq0 : 0 ≤ v / u := Int.ediv_nonneg (by omega) (by omega)
    have hdm : u * (v / u) + v % u = v := Int.ediv_add_emod v u
    have hr0 : 0 ≤ v % u := Int.emod_nonneg _ (by omega)
    have hrlt : v % u < u := Int.emod_lt_of_pos _ hu
    have hqu : v / u * u = v - v % u := by linarith [mul_comm u (v / u)]
    -- bounds on the cofactor products
    have hqcu : (v / u * c) * u = c * (v - v % u) := by rw [← hqu]; ring
    have hbound : -y ≤ v / u * c ∧ v / u * c ≤ y ∧ -y ≤ a - v / u * c ∧ a - v / u * c ≤ y ∧
        -y ≤ c ∧ c ≤ y := by
      rcases hinv with ⟨h1, h2, h3⟩ | ⟨h1, h2, h3⟩
      · have hqc0 : 0 ≤ v / u * c := mul_nonneg hq0 h1
        have e1 : (v / u * c - a) * u = y - c * (v % u) := by
          have : (v / u * c - a) * u = (v / u * c) * u - a * u := by ring
          rw [this, hqcu]; linarith
        have e2 : 0 ≤ c * (v % u) := mul_nonneg h1 hr0
        have e3 : (v / u * c - a) * u ≤ y := by linarith
        have e4 : 0 ≤ v / u * c - a := by linarith
        have e5 : v / u * c - a ≤ y := by nlinarith
        have e6 : c * v ≤ y := by nlinarith
        have e7 : c ≤ y := by nlinarith
        refine ⟨by linarith, by linarith, by linarith, by linarith, by linarith, e7⟩
      · have hqc0 : v / u * c ≤ 0 := mul_nonpos_of_nonneg_of_nonpos hq0 h1
        have e1 : (a - v / u * c) * u = y + c * (v % u) := by
          have : (a - v / u * c) * u = a * u - (v / u * c) * u := by ring
          rw [this, hqcu]; linarith
        have e2 : c * (v % u) ≤ 0 := mul_nonpos_of_nonpos_of_nonneg h1 hr0
        have e3 : (a - v / u * c) * u ≤ y := by linarith
        have e4 : 0 ≤ a - v / u * c := by linarith
        have e5 : a - v / u * c ≤ y := by nlinarith
        have e6 : -(c * v) ≤ y := by nlinarith
        have e7 : -c ≤ y := by nlinarith
        refine ⟨by linarith, by linarith, by linarith, by linarith, by linarith, by linarith⟩
    obtain ⟨b1, b2, b3, b4, b5, b6⟩ := hbound
    rw [wrap32_of_inInt (x := v / u * c) (by omega) (by omega)]
    rw [wrap32_of_inInt (x := a - v / u * c) (by omega) (by omega)]
    rw [wrap32_of_inInt (x := v / u * u) (by rw [hqu]; omega) (by rw [hqu]; omega)]
    have hu1 : v - v / u * u = v % u := by rw [hqu]; ring
    rw [hu1, wrap32_of_inInt (x := v % u) (by omega) (by omega)]
    by_cases hz : v % u = 0
    · -- the loop ends: u divides v, hence u = 1
      simp only [hz, ne_eq, not_true_eq_false, if_false]
      refine ⟨c, rfl, ?_, b5, b6⟩
      have hdvd : u ∣ v := Int.dvd_of_emod_eq_zero hz
      have hunit : IsUnit u := hg.isUnit_of_dvd' (dvd_refl u) hdvd
      have : u = 1 := by
        rcases Int.isUnit_iff.1 hunit with h | h
        · exact h
        · omega
      rw [this] at hc
      exact hc
    · simp only [ne_eq, hz, not_false_eq_true, if_true]
      apply ih (v % u) u (a - v / u * c) c (by omega) hu (by omega) huM
      · have h1 : IsCoprime (v + u * (-(v / u))) u := hg.symm.add_mul_left_left _
        have h2 : v + u * (-(v / u)) = v % u := by linarith
        rw [h2] at h1
        exact h1
      · have : (a - v / u * c) * x - v % u = (a * x - v) - v / u * (c * x - u) := by
          rw [← hu1]; ring
        rw [this]
        exact Int.dvd_sub ha (Dvd.dvd.mul_left hc _)
      · exact hc
      · rcases hinv with ⟨h1, h2, h3⟩ | ⟨h1, h2, h3⟩
        · right
          refine ⟨by linarith [mul_nonneg hq0 h1], h1, ?_⟩
          rw [← hu1]; linarith [show c * (v - v / u * u) - (a - v / u * c) * u = c * v - a * u by ring]
        · left
          refine ⟨by linarith [mul_nonpos_of_nonneg_of_nonpos hq0 h1], h1, ?_⟩
          rw [← hu1]; linarith [show (a - v / u * c) * u - c * (v - v / u * u) = a * u - c * v by ring]
      · omega


theorem inv_mod_spec (x y : Int) (hx : 1 ≤ x) (hxM : x ≤ 2147483647) (hy : 2 ≤ y)
    (hyM : y ≤ 2147483647) (hg : Int.gcd x y = 1) :
    ∃ r, inv_mod x y = some r ∧ 0 ≤ r ∧ r < y ∧ (x * r) % y = 1 := by
  obtain ⟨r, hr, hdvd, hlo, hhi⟩ := inv_mod_loop_spec x y hy hyM (x.natAbs + 1) x y 1 0
    (by omega) (by omega) hxM hyM (Int.gcd_eq_one_iff_coprime.1 hg) (by simp) (by simp)
    (Or.inl ⟨by omega, le_refl _, by ring⟩) (by omega)
  unfold inv_mod
  rw [hr]
  simp only
  rw [if_neg (by omega)]
  have hmod : Int.tmod r y ≡ r [ZMOD y] := by
    have := Int.tmod_add_tdiv r y
    have h2 : r - Int.tmod r y = y * r.tdiv y := by linarith
    exact (Int.modEq_iff_dvd.2 ⟨_, h2⟩)
  have hlt : Int.tmod r y < y := Int.tmod_lt_of_pos _ (by omega)
  have hgt : -y < Int.tmod r y := (tmod_bounds r y (by omega)).1
  have hone : r * x ≡ 1 [ZMOD y] := (Int.modEq_iff_dvd.2 hdvd).symm
  have h1y : (1 : Int) % y = 1 := Int.emod_eq_of_lt (by omega) (by omega)
  by_cases hneg : Int.tmod r y < 0
  · rw [if_pos hneg, wrap32_of_inInt (by omega) (by omega)]
    refine ⟨_, rfl, by omega, by omega, ?_⟩
    have h3 : y + Int.tmod r y ≡ r [ZMOD y] := by
      have : y + Int.tmod r y ≡ 0 + r [ZMOD y] := Int.ModEq.add (by simp [Int.ModEq]) hmod
      simpa using this
    have : x * (y + Int.tmod r y) ≡ 1 [ZMOD y] := by
      calc x * (y + Int.tmod r y) ≡ x * r [ZMOD y] := h3.mul_left _
        _ ≡ 1 [ZMOD y] := by rw [mul_comm]; exact hone
    rw [← h1y]; exact this
  · rw [if_neg hneg]
    refine ⟨_, rfl, by omega, hlt, ?_⟩
    have : x * (Int.tmod r y) ≡ 1 [ZMOD y] := by
      calc x * (Int.tmod r y) ≡ x * r [ZMOD y] := hmod.mul_left _
        _ ≡ 1 [ZMOD y] := by rw [mul_comm]; exact hone
    rw [← h1y]; exact this

/-! ## Helper lemmas: `inv_mod2` -/

theorem isCoprime_two_of_odd (v : Int) (hv : v % 2 = 1) : IsCoprime v 2 :=
  ⟨1, -(v / 2), by omega⟩

theorem dvd_half_of_odd {v z : Int} (hv : v % 2 = 1) (h : v ∣ 2 * z) : v ∣ z :=
  (isCoprime_two_of_odd v hv).dvd_of_dvd_mul_left h

theorem inv_mod2_body_spec (u v t1 t3 : Int) (hvodd : v % 2 = 1) (hvle : v ≤ 1073741824)
    (h0 : 0 ≤ t1) (h1 : t1 < v) (heven : t3 % 2 = 0) (hc : v ∣ t1 * u - t3) :
    (inv_mod2_body v t1 t3).2 = t3 / 2 ∧ 0 ≤ (inv_mod2_body v t1 t3).1 ∧
      (inv_mod2_body v t1 t3).1 < v ∧ v ∣ (inv_mod2_body v t1 t3).1 * u - t3 / 2 := by
  unfold inv_mod2_body lowBit asr1
  rcases Int.emod_two_eq_zero_or_one t1 with h | h
  · simp only [h, bne_self_eq_false, Bool.not_false, if_true]
    refine ⟨trivial, by omega, by omega, ?_⟩
    apply dvd_half_of_odd hvodd
    have : 2 * (t1 / 2 * u - t3 / 2) = t1 * u - t3 := by
      have e1 : 2 * (t1 / 2) = t1 := by omega
      have e3 : 2 * (t3 / 2) = t3 := by omega
      calc 2 * (t1 / 2 * u - t3 / 2) = (2 * (t1 / 2)) * u - 2 * (t3 / 2) := by ring
        _ = _ := by rw [e1, e3]
    rw [this]; exact hc
  · have hb : ((1 : Int) != 0) = true := by decide
    simp only [h, hb, Bool.not_true, Bool.false_eq_true, if_false]
    rw [wrap32_of_inInt (by omega) (by omega)]
    refine ⟨trivial, by omega, by omega, ?_⟩
    apply dvd_half_of_odd hvodd
    have : 2 * ((t1 + v) / 2 * u - t3 / 2) = (t1 * u - t3) + v * u := by
      have e1 : 2 * ((t1 + v) / 2) = t1 + v := by omega
      have e3 : 2 * (t3 / 2) = t3 := by omega
      calc 2 * ((t1 + v) / 2 * u - t3 / 2) = (2 * ((t1 + v) / 2)) * u - 2 * (t3 / 2) := by ring
        _ = (t1 + v) * u - t3 := by rw [e1, e3]
        _ = _ := by ring
    rw [this]; exact dvd_add hc (dvd_mul_right v u)

theorem inv_mod2_Y4_spec (u v : Int) (hvodd : v % 2 = 1) (hvle : v ≤ 1073741824) :
    ∀ (fuel : Nat) (t1 t3 : Int), t3 ≠ 0 → 0 ≤ t1 → t1 < v → v ∣ t1 * u - t3 →
      t3.natAbs < fuel →
      ∃ s1 s3, inv_mod2_Y4 fuel v t1 t3 = some (s1, s3) ∧ s3 % 2 = 1 ∧ 0 ≤ s1 ∧ s1 < v ∧
        v ∣ s1 * u - s3 ∧ s3 ∣ t3 ∧ (0 < t3 → 0 < s3 ∧ s3 ≤ t3) ∧
        (t3 < 0 → s3 < 0 ∧ t3 ≤ s3) := by
  intro fuel
  induction fuel with
  | zero => intro t1 t3 _ _ _ _ h; omega
  | succ fuel ih =>
    intro t1 t3 hne h0 h1 hc hfuel
    unfold inv_mod2_Y4
    rcases Int.emod_two_eq_zero_or_one t3 with h | h
    · have hlb : lowBit t3 = false := by simp [lowBit, h]
      simp only [hlb, Bool.not_false, if_true]
      obtain ⟨e2, e0, e1, ec⟩ := inv_mod2_body_spec u v t1 t3 hvodd hvle h0 h1 h hc
      rw [e2]
      obtain ⟨s1, s3, hs, hodd, hs0, hs1, hsc, hdvd, hpos, hneg⟩ :=
        ih (inv_mod2_body v t1 t3).1 (t3 / 2) (by omega) e0 e1 ec (by omega)
      refine ⟨s1, s3, hs, hodd, hs0, hs1, hsc, ?_, ?_, ?_⟩
      · have : t3 = t3 / 2 * 2 := by omega
        rw [this]; exact Dvd.dvd.mul_right hdvd 2
      · intro hp
        have := hpos (by omega)
        omega
      · intro hn
        have := hneg (by omega)
        omega
    · have hlb : lowBit t3 = true := by simp [lowBit, h]
      simp only [hlb, Bool.not_true, Bool.false_eq_true, if_false]
      exact ⟨t1, t3, rfl, h, h0, h1, hc, dvd_refl _, fun hp => ⟨hp, le_refl _⟩,
        fun hn => ⟨hn, le_refl _⟩⟩

/-- The end of one pass of the outer loop of `inv_mod2` (lines 145-150), given what the
next pass does. -/
theorem inv_mod2_tail_spec (u v : Int) (hv : 3 ≤ v) (hvodd : v % 2 = 1)
    (hvle : v ≤ 1073741824) (fuel : Nat)
    (ih : ∀ (u1 u3 v1 v3 t1 t3 : Int), Y4Inv u v u1 u3 v1 v3 t1 t3 →
      (u3 + v3).toNat < fuel →
      ∃ r, inv_mod2_loop fuel v u1 u3 v1 v3 t1 t3 = some r ∧ 0 ≤ r ∧ r < v ∧ v ∣ r * u - 1)
    (u1 u3 v1 v3 : Int) (hu1 : 0 ≤ u1) (hu1v : u1 < v) (hv1 : 0 < v1) (hv1v : v1 ≤ v)
    (hu3 : 0 < u3) (hu3M : u3 ≤ 2147483647) (hv3 : 0 < v3) (hv3M : v3 ≤ 2147483647)
    (hu3odd : u3 % 2 = 1) (hv3odd : v3 % 2 = 1) (hcop : IsCoprime u3 v3)
    (hcu : v ∣ u1 * u - u3) (hcv : v ∣ v1 * u - v3) (hfuel : (u3 + v3).toNat < fuel) :
    ∃ r, (if wrap32 (u3 - v3) ≠ 0 then
        inv_mod2_loop fuel v u1 u3 v1 v3
          (inv_mod2_body v (if wrap32 (u1 - v1) < 0 then wrap32 (wrap32 (u1 - v1) + v)
            else wrap32 (u1 - v1)) (wrap32 (u3 - v3))).1
          (inv_mod2_body v (if wrap32 (u1 - v1) < 0 then wrap32 (wrap32 (u1 - v1) + v)
            else wrap32 (u1 - v1)) (wrap32 (u3 - v3))).2
      else some u1) = some r ∧ 0 ≤ r ∧ r < v ∧ v ∣ r * u - 1 := by
  rw [wrap32_of_inInt (x := u1 - v1) (by omega) (by omega),
    wrap32_of_inInt (x := u3 - v3) (by omega) (by omega)]
  by_cases hr3 : u3 - v3 = 0
  · simp only [hr3, ne_eq, not_true_eq_false, if_false]
    refine ⟨u1, rfl, hu1, hu1v, ?_⟩
    have heq : v3 = u3 := by omega
    rw [heq] at hcop
    have hunit : IsUnit u3 := hcop.isUnit_of_dvd' (dvd_refl _) (dvd_refl _)
    have : u3 = 1 := by
      rcases Int.isUnit_iff.1 hunit with h | h
      · exact h
      · omega
    rw [this] at hcu
    exact hcu
  · simp only [ne_eq, hr3, not_false_eq_true, if_true]
    -- the reduced difference r1n of the cofactors
    obtain ⟨r1n, hr1n, hr1n0, hr1nv, hr1nc⟩ : ∃ r1n,
        (if u1 - v1 < 0 then wrap32 (u1 - v1 + v) else u1 - v1) = r1n ∧ 0 ≤ r1n ∧ r1n < v ∧
          v ∣ r1n * u - (u3 - v3) := by
      by_cases hneg : u1 - v1 < 0
      · rw [if_pos hneg, wrap32_of_inInt (by omega) (by omega)]
        refine ⟨_, rfl, by omega, by omega, ?_⟩
        have : (u1 - v1 + v) * u - (u3 - v3) = (u1 * u - u3) - (v1 * u - v3) + v * u := by ring
        rw [this]
        exact dvd_add (dvd_sub hcu hcv) (dvd_mul_right v u)
      · rw [if_neg hneg]
        refine ⟨_, rfl, by omega, by omega, ?_⟩
        have : (u1 - v1) * u - (u3 - v3) = (u1 * u - u3) - (v1 * u - v3) := by ring
        rw [this]
        exact dvd_sub hcu hcv
    rw [hr1n]
    have heven : (u3 - v3) % 2 = 0 := by omega
    obtain ⟨e2, e0, e1, ec⟩ := inv_mod2_body_spec u v r1n (u3 - v3) hvodd hvle hr1n0 hr1nv heven hr1nc
    rw [e2]
    have hhalf : (u3 - v3) / 2 * 2 = u3 - v3 := by omega
    have hdvd : (u3 - v3) / 2 ∣ u3 - v3 := ⟨2, hhalf.symm⟩
    apply ih
    · refine ⟨hu1, hu1v, hv1, hv1v, e0, e1, hu3, hu3M, hv3, hv3M, hv3odd, Or.inl hu3odd,
        by omega, by omega, by omega, ?_, ?_, hcu, hcv, ec⟩
      · intro _
        have h1 : IsCoprime (u3 + v3 * (-1)) v3 := hcop.add_mul_left_left _
        have h2 : u3 + v3 * (-1) = u3 - v3 := by ring
        rw [h2] at h1
        exact h1.of_isCoprime_of_dvd_left hdvd
      · intro _
        have h1 : IsCoprime u3 (-v3 + u3 * 1) := hcop.neg_right.add_mul_left_right _
        have h2 : -v3 + u3 * 1 = u3 - v3 := by ring
        rw [h2] at h1
        exact h1.of_isCoprime_of_dvd_right hdvd
    · exact hfuel

theorem inv_mod2_loop_spec (u v : Int) (hv : 3 ≤ v) (hvodd : v % 2 = 1)
    (hvle : v ≤ 1073741824) :
    ∀ (fuel : Nat) (u1 u3 v1 v3 t1 t3 : Int), Y4Inv u v u1 u3 v1 v3 t1 t3 →
      (u3 + v3).toNat < fuel →
      ∃ r, inv_mod2_loop fuel v u1 u3 v1 v3 t1 t3 = some r ∧ 0 ≤ r ∧ r < v ∧
        v ∣ r * u - 1 := by
  intro fuel
  induction fuel with
  | zero => intro u1 u3 v1 v3 t1 t3 _ h; omega
  | succ fuel ih =>
    intro u1 u3 v1 v3 t1 t3 I hfuel
    unfold inv_mod2_loop
    obtain ⟨s1, s3, hs, hodd, hs0, hs1, hsc, hdvd, hpos, hneg⟩ :=
      inv_mod2_Y4_spec u v hvodd hvle (t3.natAbs + 1) t1 t3 I.t3_ne I.t1_nonneg I.t1_lt
        I.cong_t (by omega)
    rw [hs]
    simp only
    have hI1 := I.u1_nonneg; have hI2 := I.u1_lt; have hI3 := I.u3_pos; have hI4 := I.u3_le
    have hI5 := I.v1_pos; have hI6 := I.v1_le; have hI7 := I.v3_pos; have hI8 := I.v3_le
    have hI9 := I.v3_odd
    rcases lt_or_gt_of_ne I.t3_ne with htneg | htpos
    · -- t3 < 0 : the v side is replaced
      obtain ⟨hs3neg, hs3ge⟩ := hneg htneg
      have hv3lt := I.t3_lt_v3 htneg
      have hcase : ¬ (s3 ≥ 0) := by omega
      simp only [hcase, if_false]
      rw [wrap32_of_inInt (x := v - s1) (by omega) (by omega),
        wrap32_of_inInt (x := -s3) (by omega) (by omega)]
      have hu3odd : u3 % 2 = 1 := by
        rcases I.u3_odd with h | h
        · exact h
        · omega
      have hcop : IsCoprime u3 (-s3) :=
        ((I.cop_neg htneg).of_isCoprime_of_dvd_right hdvd).neg_right
      have hcv : v ∣ (v - s1) * u - -s3 := by
        have : (v - s1) * u - -s3 = v * u - (s1 * u - s3) := by ring
        rw [this]; exact dvd_sub (dvd_mul_right v u) hsc
      exact inv_mod2_tail_spec u v hv hvodd hvle fuel ih u1 u3 (v - s1) (-s3) hI1 hI2
        (by omega) (by omega) hI3 hI4 (by omega) (by omega) hu3odd (by omega) hcop I.cong_u hcv
        (by omega)
    · obtain ⟨hs3pos, hs3le⟩ := hpos htpos
      have hu3lt := I.t3_lt_u3 htpos
      have hcase : s3 ≥ 0 := by omega
      simp only [hcase, if_true]
      have hcop : IsCoprime s3 v3 := (I.cop_pos htpos).of_isCoprime_of_dvd_left hdvd
      exact inv_mod2_tail_spec u v hv hvodd hvle fuel ih s1 s3 v1 v3 hs0 hs1
        hI5 hI6 hs3pos (by omega) hI7 hI8 hodd hI9 hcop hsc I.cong_v (by omega)


theorem inv_mod2_spec (u v : Int) (hu : 1 ≤ u) (huM : u ≤ 2147483647) (hv : 3 ≤ v)
    (hvle : v ≤ 1073741824) (hvodd : v % 2 = 1) (hg : Int.gcd u v = 1) :
    ∃ r, inv_mod2 u v = some r ∧ 0 ≤ r ∧ r < v ∧ (u * r) % v = 1 := by
  have hcop : IsCoprime u v := Int.gcd_eq_one_iff_coprime.1 hg
  have key : ∃ r, inv_mod2 u v = some r ∧ 0 ≤ r ∧ r < v ∧ v ∣ r * u - 1 := by
    unfold inv_mod2
    rcases Int.emod_two_eq_zero_or_one u with h | h
    · -- even u : fall into the loop body with t1 = 1, t3 = u
      have hlb : lowBit u = false := by simp [lowBit, h]
      simp only [hlb, Bool.false_eq_true, if_false]
      obtain ⟨e2, e0, e1, ec⟩ := inv_mod2_body_spec u v 1 u hvodd hvle (by omega) (by omega) h
        (by simp)
      rw [e2]
      have hhalf : u / 2 * 2 = u := by omega
      apply inv_mod2_loop_spec u v hv hvodd hvle
      · refine ⟨by omega, by omega, by omega, by omega, e0, e1, by omega, huM, by omega,
          by omega, hvodd, Or.inr (by omega), by omega, by omega, by omega, ?_, by omega,
          by simp, by simp, ec⟩
        intro _
        exact hcop.of_isCoprime_of_dvd_left ⟨2, hhalf.symm⟩
      · omega
    · -- odd u : jump to Y4 with t1 = 0, t3 = -v; the first pass only sets t1, t3
      have hlb : lowBit u = true := by simp [lowBit, h]
      simp only [hlb, if_true]
      rw [wrap32_of_inInt (x := -v) (by omega) (by omega)]
      have hfu : u.natAbs + v.natAbs + 2 = (u.natAbs + v.natAbs + 1) + 1 := rfl
      rw [hfu]
      unfold inv_mod2_loop
      have hY4 : inv_mod2_Y4 ((-v).natAbs + 1) v 0 (-v) = some (0, -v) := by
        unfold inv_mod2_Y4
        have : lowBit (-v) = true := by
          have : (-v) % 2 = 1 := by omega
          simp [lowBit, this]
        simp [this]
      rw [hY4]
      simp only
      have hcase : ¬ (-v ≥ 0) := by omega
      simp only [hcase, if_false]
      have e1 : v - 0 = v := by ring
      have e2 : - -v = v := by ring
      rw [e1, e2, wrap32_of_inInt (x := v) (by omega) (by omega)]
      exact inv_mod2_tail_spec u v hv hvodd hvle _
        (fun u1 u3 v1 v3 t1 t3 I hf => inv_mod2_loop_spec u v hv hvodd hvle _ u1 u3 v1 v3 t1 t3 I hf)
        1 u v v (by omega) (by omega) (by omega) (by omega) (by omega) huM (by omega) (by omega)
        h hvodd hcop (by simp) (by simp) (by omega)
  obtain ⟨r, hr, h0, h1, hd⟩ := key
  refine ⟨r, hr, h0, h1, ?_⟩
  have hone : r * u ≡ 1 [ZMOD v] := (Int.modEq_iff_dvd.2 hd).symm
  have h1v : (1 : Int) % v = 1 := Int.emod_eq_of_lt (by omega) (by omega)
  rw [mul_comm, ← h1v]
  exact hone

/-! ## Helper lemmas: `is_prime` and `next_prime` -/

theorem isqrt_natCast (N : Nat) : isqrt (N : Int) = (Nat.sqrt N : Int) := by
  unfold isqrt
  simp only [Int.toNat_ofNat]
  congr 1
  apply le_antisymm
  · apply Nat.le_sqrt.2
    exact Nat.findGreatest_spec (P := fun r => r * r ≤ N) (Nat.zero_le N) (by simp)
  · exact Nat.le_findGreatest (Nat.sqrt_le_self N) (Nat.sqrt_le N)

theorem is_prime_loop_spec (N : Nat) (hN : 3 ≤ N) (hNM : N ≤ 2147483647) (hodd : N % 2 = 1) :
    ∀ (fuel I : Nat), 3 ≤ I → I % 2 = 1 → (∀ d, 2 ≤ d → d < I → ¬ d ∣ N) →
      Nat.sqrt N + 2 - I < fuel →
      is_prime_loop fuel (N : Int) (Nat.sqrt N : Int) (I : Int) = some (decide (Nat.Prime N)) := by
  have hsq : Nat.sqrt N < N := Nat.sqrt_lt_self (by omega)
  intro fuel
  induction fuel with
  | zero => intro I _ _ _ h; omega
  | succ fuel ih =>
    intro I hI hIodd hno hfuel
    unfold is_prime_loop
    by_cases hle : I ≤ Nat.sqrt N
    · have hle2 : (I : Int) ≤ (Nat.sqrt N : Int) := by exact_mod_cast hle
      rw [if_pos hle2]
      have htm : Int.tmod (N : Int) (I : Int) = ((N % I : Nat) : Int) := by
        rw [Int.tmod_eq_emod (by omega) (by omega)]; simp
      rw [htm]
      by_cases hdiv : N % I = 0
      · have h0 : ((N % I : Nat) : Int) = 0 := by exact_mod_cast hdiv
        rw [if_pos h0]
        have hnp : ¬ Nat.Prime N := by
          intro hp
          have hd : I ∣ N := Nat.dvd_of_mod_eq_zero hdiv
          rcases (Nat.dvd_prime hp).1 hd with h | h <;> omega
        simp [hnp]
      · have h0 : ¬ (((N % I : Nat) : Int) = 0) := by exact_mod_cast hdiv
        rw [if_neg h0]
        have hw : wrap32 ((I : Int) + 2) = ((I + 2 : Nat) : Int) := by
          rw [wrap32_of_inInt (by omega) (by omega)]; simp
        rw [hw]
        apply ih (I + 2) (by omega) (by omega) _ (by omega)
        intro d hd2 hdlt hdvd
        by_cases hdI : d < I
        · exact hno d hd2 hdI hdvd
        · by_cases hdeq : d = I
          · subst hdeq
            exact hdiv (Nat.mod_eq_zero_of_dvd hdvd)
          · have hd1 : d = I + 1 := by omega
            have h2 : 2 ∣ d := by omega
            have := Nat.dvd_trans h2 hdvd
            omega
    · have hle2 : ¬ ((I : Int) ≤ (Nat.sqrt N : Int)) := by exact_mod_cast hle
      rw [if_neg hle2]
      have hp : Nat.Prime N := by
        rw [Nat.prime_def_le_sqrt]
        refine ⟨by omega, fun m hm2 hms hdvd => hno m hm2 (by omega) hdvd⟩
      simp [hp]

/-- For an `int` n >= 3, `is_prime(n)` tells whether n is prime. -/
theorem is_prime_spec (n : Int) (hn : 3 ≤ n) (hnM : n ≤ 2147483647) :
    is_prime n = some (decide (Nat.Prime n.toNat)) := by
  obtain ⟨N, rfl⟩ := Int.eq_ofNat_of_zero_le (by omega : 0 ≤ n)
  simp only [Int.toNat_ofNat]
  have hN : 3 ≤ N := by omega
  unfold is_prime
  have htm : Int.tmod (N : Int) 2 = ((N % 2 : Nat) : Int) := by
    rw [Int.tmod_eq_emod (by omega) (by omega)]; simp
  rw [htm]
  rcases Nat.mod_two_eq_zero_or_one N with h | h
  · have h0 : ((N % 2 : Nat) : Int) = 0 := by exact_mod_cast h
    rw [if_pos h0]
    have hnp : ¬ Nat.Prime N := by
      intro hp
      have hd : 2 ∣ N := Nat.dvd_of_mod_eq_zero h
      rcases (Nat.dvd_prime hp).1 hd with h' | h' <;> omega
    simp [hnp]
  · have h0 : ¬ (((N % 2 : Nat) : Int) = 0) := by
      have : N % 2 ≠ 0 := by omega
      exact_mod_cast this
    rw [if_neg h0, isqrt_natCast]
    have h3 : ((3 : Nat) : Int) = 3 := rfl
    rw [← h3]
    apply is_prime_loop_spec N hN (by omega) h _ 3 (le_refl _) (by decide)
    · intro d hd2 hdlt hdvd
      have hd : d = 2 := by omega
      subst hd
      omega
    · simp only [Int.toNat_ofNat]
      omega

theorem next_prime_loop_spec :
    ∀ (fuel n : Nat), 2 ≤ n →
      (∃ P, Nat.Prime P ∧ n < P ∧ P ≤ 2147483647 ∧ P - n ≤ fuel) →
      ∃ p : Nat, next_prime_loop fuel (n : Int) = some (p : Int) ∧ Nat.Prime p ∧ n < p ∧
        ∀ q, Nat.Prime q → n < q → p ≤ q := by
  intro fuel
  induction fuel with
  | zero =>
    intro n _ h
    obtain ⟨P, _, h1, _, h2⟩ := h
    omega
  | succ fuel ih =>
    intro n hn h
    obtain ⟨P, hP, hnP, hPM, hPf⟩ := h
    rw [next_prime_loop]
    have hw : wrap32 ((n : Int) + 1) = ((n + 1 : Nat) : Int) := by
      rw [wrap32_of_inInt (by omega) (by omega)]; simp
    rw [hw, is_prime_spec _ (by omega) (by omega)]
    simp only [Int.toNat_ofNat]
    by_cases hp : Nat.Prime (n + 1)
    · simp only [hp, decide_True]
      exact ⟨n + 1, rfl, hp, by omega, fun q _ hq => by omega⟩
    · simp only [hp, decide_False]
      have hne : P ≠ n + 1 := fun h => hp (h ▸ hP)
      obtain ⟨p, hp1, hp2, hp3, hp4⟩ := ih (n + 1) (by omega) ⟨P, hP, by omega, hPM, by omega⟩
      refine ⟨p, hp1, hp2, by omega, fun q hq hnq => hp4 q hq ?_⟩
      have : q ≠ n + 1 := fun h => hp (h ▸ hq)
      omega

/-- For an `int` m >= 2 below some prime that is an `int`, `next_prime(m)` returns the
least prime greater than m. -/
theorem next_prime_spec (m : Int) (h2 : 2 ≤ m)
    (hbig : ∃ P : Nat, Nat.Prime P ∧ m < P ∧ P ≤ 2147483647) :
    ∃ p : Nat, next_prime m = some (p : Int) ∧ Nat.Prime p ∧ m < p ∧
      ∀ q : Nat, Nat.Prime q → m < q → p ≤ q := by
  obtain ⟨n, rfl⟩ := Int.eq_ofNat_of_zero_le (by omega : 0 ≤ m)
  have hn : 2 ≤ n := by omega
  have hex : ∃ P, Nat.Prime P ∧ n < P ∧ P ≤ 2147483647 ∧ P - n ≤ (n : Int).natAbs + 2 := by
    obtain ⟨P, hP, h1, h2⟩ := Nat.exists_prime_lt_and_le_two_mul n (by omega)
    by_cases hle : P ≤ 2147483647
    · exact ⟨P, hP, h1, hle, by simp; omega⟩
    · obtain ⟨Q, hQ, hQ1, hQ2⟩ := hbig
      have hQ1n : n < Q := by exact_mod_cast hQ1
      exact ⟨Q, hQ, hQ1n, hQ2, by simp; omega⟩
  obtain ⟨p, hp1, hp2, hp3, hp4⟩ := next_prime_loop_spec _ n hn hex
  refine ⟨p, hp1, hp2, by exact_mod_cast hp3, fun q hq hmq => hp4 q hq (by exact_mod_cast hmq)⟩

/-- For an `int` m >= 2 with `2 * m <= INT_MAX`, `next_prime(m)` returns the least prime
greater than m. -/
theorem next_prime_spec_small (m : Int) (h2 : 2 ≤ m) (hM : 2 * m ≤ 2147483647) :
    ∃ p : Nat, next_prime m = some (p : Int) ∧ Nat.Prime p ∧ m < p ∧
      ∀ q : Nat, Nat.Prime q → m < q → p ≤ q := by
  apply next_prime_spec m h2
  obtain ⟨P, hP, h1, h2⟩ := Nat.exists_prime_lt_and_le_two_mul m.toNat (by omega)
  exact ⟨P, hP, by omega, by omega⟩

theorem int_max_prime : Nat.Prime 2147483647 := by
  have h : (mersenne 31).Prime := lucas_lehmer_sufficiency _ (by norm_num) (by norm_num)
  have e : mersenne 31 = 2147483647 := by norm_num [mersenne]
  rw [e] at h
  exact h

/-- For an `int` m with `2 <= m < INT_MAX`, `next_prime(m)` returns the least prime
greater than m (`INT_MAX = 2^31 - 1` is itself prime, so `++n` does not overflow). -/
theorem next_prime_spec_int (m : Int) (h2 : 2 ≤ m) (hM : m < 2147483647) :
    ∃ p : Nat, next_prime m = some (p : Int) ∧ Nat.Prime p ∧ m < p ∧
      ∀ q : Nat, Nat.Prime q → m < q → p ≤ q :=
  next_prime_spec m h2 ⟨2147483647, int_max_prime, by exact_mod_cast hM, le_refl _⟩

/-! ## Helper lemmas: `main` -/

theorem main_nonpos (ops : FloatOps) (n : Int) (h : n ≤ 0) : main ops n = some Outcome.usage := by
  unfold main
  rw [if_pos h]

theorem main_pos_ne_usage (ops : FloatOps) (n : Int) (h : 0 < n) :
    main ops n ≠ some Outcome.usage := by
  unfold main
  rw [if_neg (by omega)]
  cases sweep ops n (ops.truncLen n) ((wrap32 (3 * ops.truncLen n)).toNat + 1) 2
    { num := 0, den := 1 } with
  | none => simp
  | some p => simp

theorem sweep_skipped (ops : FloatOps) (n N : Int) (fuel : Nat) (sum : Frac)
    (h : wrap32 (3 * N) < 2) : sweep ops n N (fuel + 1) 2 sum = some (sum, 2) := by
  unfold sweep
  rw [if_neg (by omega)]

/-! ## Helper lemmas: the macro `DIVN` -/

theorem DIVN_reduce_spec (a : Int) (ha : 1 ≤ a) :
    ∀ (fuel : Nat) (kq : Int), 0 ≤ kq → kq ≤ 2147483647 → kq.toNat < fuel →
      DIVN_reduce fuel a kq = some (kq % a) := by
  intro fuel
  induction fuel with
  | zero => intro kq _ _ h; omega
  | succ fuel ih =>
    intro kq h0 hM hf
    rw [DIVN_reduce]
    by_cases hge : kq ≥ a
    · rw [if_pos hge, wrap32_of_inInt (by omega) (by omega),
        ih (kq - a) (by omega) (by omega) (by omega), Int.emod_sub_cancel]
    · rw [if_neg hge, Int.emod_eq_of_lt h0 (by omega)]

theorem tdiv_natCast (T p : Nat) : Int.tdiv (T : Int) (p : Int) = ((T / p : Nat) : Int) := by
  rw [Int.tdiv_eq_ediv (by omega) (by omega)]; simp

theorem tmod_natCast (T p : Nat) : Int.tmod (T : Int) (p : Int) = ((T % p : Nat) : Int) := by
  rw [Int.tmod_eq_emod (by omega) (by omega)]; simp

theorem factorization_mul_prime (p T1 : Nat) (hp : p.Prime) (hT1 : 1 ≤ T1) :
    (p * T1).factorization p = T1.factorization p + 1 := by
  rw [Nat.factorization_mul hp.ne_zero (by omega)]
  simp [hp.factorization_self, add_comm]

theorem DIVN_strip_spec (p : Nat) (hp : p.Prime) (vinc : Int)
    (hvinc : vinc = 1 ∨ vinc = -1) :
    ∀ (fuel T j : Nat) (v : Int), 1 ≤ T → p ∣ T → T * 2 ^ j < 2147483648 →
      -(1073741824 + (j : Int)) ≤ v → v ≤ 1073741824 + (j : Int) → T < fuel →
      DIVN_strip fuel (p : Int) vinc (T : Int) v =
        some (((T / p ^ T.factorization p : Nat) : Int), v + vinc * (T.factorization p : Nat)) ∧
        j + T.factorization p ≤ 31 := by
  have hp2 := hp.two_le
  intro fuel
  induction fuel with
  | zero => intro T j v _ _ _ _ _ h; omega
  | succ fuel ih =>
    intro T j v hT hdvd hj hv1 hv2 hf
    obtain ⟨T1, rfl⟩ := hdvd
    have hT1 : 1 ≤ T1 := by
      rcases Nat.eq_zero_or_pos T1 with h | h
      · subst h; simp at hT
      · exact h
    have hjlt : j < 31 := by
      by_contra hcon
      have h1 : 2 ^ 31 ≤ 2 ^ j := Nat.pow_le_pow_right (by omega) (by omega)
      have h2 : 1 * 2 ^ j ≤ p * T1 * 2 ^ j := Nat.mul_le_mul_right _ hT
      omega
    have hfac := factorization_mul_prime p T1 hp hT1
    have hdiv : p * T1 / p = T1 := Nat.mul_div_cancel_left T1 (by omega)
    have hquot : p * T1 / p ^ (p * T1).factorization p = T1 / p ^ T1.factorization p := by
      rw [hfac, pow_succ, mul_comm (p ^ _) p, ← Nat.div_div_eq_div_mul, hdiv]
    rw [DIVN_strip]
    have hpne : ¬ ((p : Int) = 0) := by omega
    rw [if_neg hpne, tdiv_natCast, hdiv, tmod_natCast]
    rw [wrap32_of_inInt (by rcases hvinc with h | h <;> omega) (by rcases hvinc with h | h <;> omega)]
    by_cases hd1 : T1 % p = 0
    · have hc : ((T1 % p : Nat) : Int) = 0 := by exact_mod_cast hd1
      rw [if_pos hc]
      have hsmall : T1 * 2 ^ (j + 1) < 2147483648 := by
        have : T1 * 2 ^ (j + 1) ≤ p * T1 * 2 ^ j := by
          rw [pow_succ]
          calc T1 * (2 ^ j * 2) = 2 * T1 * 2 ^ j := by ring
            _ ≤ p * T1 * 2 ^ j := by
              apply Nat.mul_le_mul_right
              exact Nat.mul_le_mul_right _ hp2
        omega
      have hlt : T1 < p * T1 := by nlinarith
      obtain ⟨h1, h2⟩ := ih T1 (j + 1) (v + vinc) hT1 (Nat.dvd_of_mod_eq_zero hd1) hsmall
        (by rcases hvinc with h | h <;> push_cast <;> omega)
        (by rcases hvinc with h | h <;> push_cast <;> omega) (by omega)
      rw [h1, hquot, hfac]
      refine ⟨?_, by omega⟩
      congr 2
      push_cast
      ring
    · have hc : ¬ (((T1 % p : Nat) : Int) = 0) := by exact_mod_cast hd1
      rw [if_neg hc]
      have hnd : ¬ p ∣ T1 := fun h => hd1 (Nat.mod_eq_zero_of_dvd h)
      have hz : T1.factorization p = 0 := Nat.factorization_eq_zero_of_not_dvd hnd
      rw [hquot, hfac, hz]
      simp
      omega

/-- The macro `DIVN` when the phase counter is in step with the term: the term loses every
factor `p`, `v` moves by `vinc` for each factor, and the counter becomes `T mod p`. -/
theorem DIVN_spec (p : Nat) (hp : p.Prime) (T : Nat) (v vinc kq kqinc : Int)
    (hvinc : vinc = 1 ∨ vinc = -1) (hT : 1 ≤ T) (hTM : T ≤ 2147483647)
    (hk1 : 1 ≤ kq + kqinc) (hkM : kq + kqinc ≤ 2147483647)
    (hsync : (kq + kqinc) % (p : Int) = ((T % p : Nat) : Int))
    (hv1 : -1073741824 ≤ v) (hv2 : v ≤ 1073741824) :
    DIVN (T : Int) (p : Int) v vinc kq kqinc =
      some (((T / p ^ T.factorization p : Nat) : Int), v + vinc * (T.factorization p : Nat),
        ((T % p : Nat) : Int)) ∧ T.factorization p ≤ 31 := by
  have hp2 := hp.two_le
  unfold DIVN
  rw [wrap32_of_inInt (x := kq + kqinc) (by omega) (by omega)]
  by_cases hge : kq + kqinc ≥ (p : Int)
  · rw [if_pos hge, DIVN_reduce_spec (p : Int) (by omega) _ _ (by omega) hkM (by omega), hsync]
    simp only
    by_cases hz : T % p = 0
    · have hc : ((T % p : Nat) : Int) = 0 := by exact_mod_cast hz
      rw [if_pos hc]
      obtain ⟨h1, h2⟩ := DIVN_strip_spec p hp vinc hvinc (Int.natAbs (T : Int) + 1) T 0 v hT
        (Nat.dvd_of_mod_eq_zero hz) (by omega) (by simpa using hv1) (by simpa using hv2)
        (by simp)
      rw [h1]
      simp only
      exact ⟨trivial, by omega⟩
    · have hc : ¬ (((T % p : Nat) : Int) = 0) := by exact_mod_cast hz
      rw [if_neg hc]
      have hnd : ¬ p ∣ T := fun h => hz (Nat.mod_eq_zero_of_dvd h)
      have hz0 : T.factorization p = 0 := Nat.factorization_eq_zero_of_not_dvd hnd
      rw [hz0]
      simp
  · rw [if_neg hge]
    have hlt : kq + kqinc < (p : Int) := by omega
    have he : (kq + kqinc) % (p : Int) = kq + kqinc := Int.emod_eq_of_lt (by omega) hlt
    rw [he] at hsync
    have hz : T % p ≠ 0 := by
      intro h
      rw [h] at hsync
      simp at hsync
      omega
    have hnd : ¬ p ∣ T := fun h => hz (Nat.mod_eq_zero_of_dvd h)
    have hz0 : T.factorization p = 0 := Nat.factorization_eq_zero_of_not_dvd hnd
    rw [hz0, hsync]
    simp

/-! ## Helper lemmas: the products of the stripped terms -/

theorem numProd_eq (k : Nat) : numProd k = (2 * k).factorial := by
  induction k with
  | zero => rfl
  | succ k ih =>
    rw [numProd, ih]
    have h1 : 2 * (k + 1) = (2 * k + 1) + 1 := by ring
    have h2 : 2 * (k + 1) - 1 = 2 * k + 1 := by omega
    rw [h2, h1, Nat.factorial_succ, Nat.factorial_succ]
    ring

theorem denProd_mul_factorial (k : Nat) : denProd k * k.factorial = (3 * k).factorial := by
  induction k with
  | zero => rfl
  | succ k ih =>
    have h1 : 3 * (k + 1) = ((3 * k + 1) + 1) + 1 := by ring
    have h2 : 3 * (k + 1) - 1 = 3 * k + 2 := by omega
    have h3 : 3 * (k + 1) - 2 = 3 * k + 1 := by omega
    rw [denProd, h2, h3, h1, Nat.factorial_succ, Nat.factorial_succ, Nat.factorial_succ,
      Nat.factorial_succ, ← ih]
    ring

theorem denProd_eq_choose_mul (k : Nat) : denProd k = Nat.choose (3 * k) k * numProd k := by
  have h1 := Nat.choose_mul_factorial_mul_factorial (show k ≤ 3 * k by omega)
  have h2 : 3 * k - k = 2 * k := by omega
  rw [h2, ← denProd_mul_factorial, ← numProd_eq] at h1
  have hpos : 0 < k.factorial := Nat.factorial_pos k
  have : Nat.choose (3 * k) k * numProd k * k.factorial = denProd k * k.factorial := by
    rw [← h1]; ring
  exact (Nat.eq_of_mul_eq_mul_right hpos this).symm

theorem numProd_pos (k : Nat) : 0 < numProd k := by
  rw [numProd_eq]; exact Nat.factorial_pos _

theorem denProd_pos (k : Nat) : 0 < denProd k := by
  rw [denProd_eq_choose_mul]
  exact Nat.mul_pos (Nat.choose_pos (by omega)) (numProd_pos k)

theorem choose_factorization_add (p k : Nat) :
    (Nat.choose (3 * k) k).factorization p + (numProd k).factorization p =
      (denProd k).factorization p := by
  rw [denProd_eq_choose_mul, Nat.factorization_mul (Nat.choose_pos (by omega)).ne'
    (numProd_pos k).ne']
  rfl

theorem pfree_mul (p a b : Nat) : pfree p (a * b) = pfree p a * pfree p b :=
  Nat.ordCompl_mul a b p

theorem pfree_pos (p m : Nat) (hm : 0 < m) : 0 < pfree p m :=
  Nat.ordCompl_pos p hm.ne'

theorem pfree_not_dvd (p m : Nat) (hp : p.Prime) (hm : 0 < m) : ¬ p ∣ pfree p m :=
  Nat.not_dvd_ordCompl hp hm.ne'

/-! ## Helper lemmas: the four `DIVN` steps of an iteration -/

theorem phase_sync (p k : Nat) (kq x inc : Int) (T : Nat) (h : PhaseInv p k kq x)
    (hT : (T : Int) = x + inc) : (kq + inc) % (p : Int) = ((T % p : Nat) : Int) := by
  rw [Int.natCast_mod, hT]
  rcases h with h | ⟨_, h⟩
  · rw [h, Int.emod_add_emod]
  · rw [h]

theorem phase_bounds (p k : Nat) (hp : 2 ≤ p) (kq x inc : Int) (h : PhaseInv p k kq x)
    (hinc : 2 ≤ inc) (hx : 1 ≤ x + inc) (hx0 : k = 0 → x ≤ 0) :
    1 ≤ kq + inc ∧ kq + inc ≤ (p : Int) + inc := by
  rcases h with h | ⟨hk, h⟩
  · have h1 : 0 ≤ x % (p : Int) := Int.emod_nonneg _ (by omega)
    have h2 : x % (p : Int) < p := Int.emod_lt_of_pos _ (by omega)
    omega
  · subst hk
    rw [h]
    have := hx0 rfl
    constructor
    · exact hx
    · omega

theorem phase_next (p k : Nat) (T : Nat) (x : Int) (hT : (T : Int) = x) :
    PhaseInv p (k + 1) ((T % p : Nat) : Int) x := by
  left
  rw [Int.natCast_mod, hT]

theorem strip_step_eval (p : Nat) (hp : p.Prime) (hpM : p ≤ 2147483638) (av : Int)
    (hav : 0 < av) (k : Nat) (hk : 3 * (3 * (k + 1) - 1) ≤ 2147483647) (st : Inner)
    (h1 : PhaseInv p k st.kq1 (2 * (k : Int)))
    (h2 : PhaseInv p k st.kq2 (2 * (k : Int) - 1))
    (h3 : PhaseInv p k st.kq3 (3 * (3 * (k : Int) - 1)))
    (h4 : PhaseInv p k st.kq4 (3 * (k : Int) - 2))
    (hnum : 0 ≤ st.num) (hden : 0 ≤ st.den)
    (hv1 : -1073741700 ≤ st.v) (hv2 : st.v ≤ 1073741700) :
    strip_step (p : Int) av ((k + 1 : Nat) : Int) st =
      some { num := (st.num * (pfree p (2 * (k + 1)) : Nat) % av)
                * (pfree p (2 * (k + 1) - 1) : Nat) % av,
             den := (st.den * (pfree p (3 * (3 * (k + 1) - 1)) : Nat) % av)
                * (if p = 2 then ((pfree p (3 * (k + 1) - 2) : Nat) : Int)
                    else (pfree p (3 * (k + 1) - 2) : Nat) * 2) % av,
             kq1 := ((2 * (k + 1) % p : Nat) : Int),
             kq2 := (((2 * (k + 1) - 1) % p : Nat) : Int),
             kq3 := (((3 * (3 * (k + 1) - 1)) % p : Nat) : Int),
             kq4 := (((3 * (k + 1) - 2) % p : Nat) : Int),
             v := if p = 2 then
                 st.v + -1 * ((2 * (k + 1)).factorization p : Nat)
                   + -1 * ((2 * (k + 1) - 1).factorization p : Nat)
                   + 1 * ((3 * (3 * (k + 1) - 1)).factorization p : Nat)
                   + 1 * ((3 * (k + 1) - 2).factorization p : Nat) + 1
               else
                 st.v + -1 * ((2 * (k + 1)).factorization p : Nat)
                   + -1 * ((2 * (k + 1) - 1).factorization p : Nat)
                   + 1 * ((3 * (3 * (k + 1) - 1)).factorization p : Nat)
                   + 1 * ((3 * (k + 1) - 2).factorization p : Nat),
             s := st.s } := by
  have hp2 := hp.two_le
  have e1 : wrap32 (2 * ((k + 1 : Nat) : Int)) = ((2 * (k + 1) : Nat) : Int) := by
    rw [wrap32_of_inInt (by omega) (by omega)]; push_cast; ring
  have e2 : wrap32 (((2 * (k + 1) : Nat) : Int) - 1) = ((2 * (k + 1) - 1 : Nat) : Int) := by
    rw [wrap32_of_inInt (by omega) (by omega)]; omega
  have e3a : wrap32 (3 * ((k + 1 : Nat) : Int)) = ((3 * (k + 1) : Nat) : Int) := by
    rw [wrap32_of_inInt (by omega) (by omega)]; push_cast; ring
  have e3b : wrap32 (((3 * (k + 1) : Nat) : Int) - 1) = ((3 * (k + 1) - 1 : Nat) : Int) := by
    rw [wrap32_of_inInt (by omega) (by omega)]; omega
  have e3 : wrap32 (3 * ((3 * (k + 1) - 1 : Nat) : Int)) =
      ((3 * (3 * (k + 1) - 1) : Nat) : Int) := by
    rw [wrap32_of_inInt (by omega) (by omega)]; push_cast; ring
  have e4 : wrap32 (((3 * (k + 1) : Nat) : Int) - 2) = ((3 * (k + 1) - 2 : Nat) : Int) := by
    rw [wrap32_of_inInt (by omega) (by omega)]; omega
  -- the four uses of DIVN
  have b1 := phase_bounds p k hp2 _ _ 2 h1 (by omega) (by omega) (by intro h; omega)
  have b2 := phase_bounds p k hp2 _ _ 2 h2 (by omega) (by omega) (by intro h; omega)
  have b3 := phase_bounds p k hp2 _ _ 9 h3 (by omega) (by omega) (by intro h; omega)
  have b4 := phase_bounds p k hp2 _ _ 3 h4 (by omega) (by omega) (by intro h; omega)
  obtain ⟨d1, f1⟩ := DIVN_spec p hp (2 * (k + 1)) st.v (-1) st.kq1 2 (Or.inr rfl) (by omega)
    (by omega) b1.1 (by omega) (phase_sync p k _ _ 2 _ h1 (by push_cast; ring))
    (by omega) (by omega)
  obtain ⟨d2, f2⟩ := DIVN_spec p hp (2 * (k + 1) - 1)
    (st.v + -1 * ((2 * (k + 1)).factorization p : Nat)) (-1) st.kq2 2 (Or.inr rfl) (by omega)
    (by omega) b2.1 (by omega) (phase_sync p k _ _ 2 _ h2 (by omega))
    (by omega) (by omega)
  obtain ⟨d3, f3⟩ := DIVN_spec p hp (3 * (3 * (k + 1) - 1))
    (st.v + -1 * ((2 * (k + 1)).factorization p : Nat)
      + -1 * ((2 * (k + 1) - 1).factorization p : Nat)) 1 st.kq3 9 (Or.inl rfl) (by omega)
    (by omega) b3.1 (by omega) (phase_sync p k _ _ 9 _ h3 (by omega))
    (by omega) (by omega)
  obtain ⟨d4, f4⟩ := DIVN_spec p hp (3 * (k + 1) - 2)
    (st.v + -1 * ((2 * (k + 1)).factorization p : Nat)
      + -1 * ((2 * (k + 1) - 1).factorization p : Nat)
      + 1 * ((3 * (3 * (k + 1) - 1)).factorization p : Nat)) 1 st.kq4 3 (Or.inl rfl) (by omega)
    (by omega) b4.1 (by omega) (phase_sync p k _ _ 3 _ h4 (by omega))
    (by omega) (by omega)
  unfold strip_step
  rw [e1, d1]
  simp only
  rw [mul_mod_nonneg hnum (Int.natCast_nonneg _) hav]
  simp only
  rw [e2, d2]
  simp only
  rw [mul_mod_nonneg (Int.emod_nonneg _ hav.ne') (Int.natCast_nonneg _) hav]
  simp only
  rw [e3a, e3b, e3, d3]
  simp only
  rw [mul_mod_nonneg hden (Int.natCast_nonneg _) hav]
  simp only
  rw [e4, d4]
  simp only
  unfold pfree
  have hfree4 : (3 * (k + 1) - 2) / p ^ (3 * (k + 1) - 2).factorization p ≤ 3 * (k + 1) - 2 :=
    Nat.div_le_self _ _
  generalize (3 * (k + 1) - 2) / p ^ (3 * (k + 1) - 2).factorization p = q4 at hfree4 ⊢
  by_cases hp2' : p = 2
  · have hc : ¬ ((p : Int) ≠ 2) := by simp [hp2']
    simp only [hc, if_false]
    rw [mul_mod_nonneg (Int.emod_nonneg _ hav.ne') (Int.natCast_nonneg _) hav]
    simp only [if_pos hp2']
    rw [wrap32_of_inInt (by omega) (by omega)]
  · have hc : (p : Int) ≠ 2 := by exact_mod_cast hp2'
    simp only [hc, ne_eq, not_false_eq_true, if_true]
    rw [wrap32_of_inInt (by omega) (by omega)]
    rw [mul_mod_nonneg (Int.emod_nonneg _ hav.ne')
      (mul_nonneg (Int.natCast_nonneg _) (by norm_num)) hav]
    simp only [if_neg hp2']

theorem emod_mul_emod_left (x y m : Int) : (x % m * y) % m = (x * y) % m :=
  (Int.mod_modEq x m).mul_right y

theorem emod_mul3 (x y z m : Int) : ((x % m * y) % m * z) % m = (x * (y * z)) % m := by
  rw [emod_mul_emod_left, mul_assoc, emod_mul_emod_left]

theorem numProd_factorization_succ (p k : Nat) :
    (numProd (k + 1)).factorization p = (numProd k).factorization p
      + (2 * (k + 1)).factorization p + (2 * (k + 1) - 1).factorization p := by
  rw [numProd, Nat.factorization_mul (Nat.mul_ne_zero (numProd_pos k).ne' (by omega)) (by omega),
    Nat.factorization_mul (numProd_pos k).ne' (by omega)]
  rfl

theorem denProd_factorization_succ (p k : Nat) :
    (denProd (k + 1)).factorization p = (denProd k).factorization p
      + (3 * (3 * (k + 1) - 1)).factorization p + (3 * (k + 1) - 2).factorization p := by
  rw [denProd, Nat.factorization_mul (Nat.mul_ne_zero (denProd_pos k).ne' (by omega)) (by omega),
    Nat.factorization_mul (denProd_pos k).ne' (by omega)]
  rfl

theorem choose_factorization_succ (p k : Nat) :
    ((Nat.choose (3 * (k + 1)) (k + 1)).factorization p : Int) =
      (Nat.choose (3 * k) k).factorization p
      - (2 * (k + 1)).factorization p - (2 * (k + 1) - 1).factorization p
      + (3 * (3 * (k + 1) - 1)).factorization p + (3 * (k + 1) - 2).factorization p := by
  have h1 := choose_factorization_add p k
  have h2 := choose_factorization_add p (k + 1)
  have h3 := numProd_factorization_succ p k
  have h4 := denProd_factorization_succ p k
  omega

theorem choose_factorization_lt (p k : Nat) (hp : p.Prime) (hk : 3 * k < 2147483648) :
    (Nat.choose (3 * k) k).factorization p < 31 := by
  rcases Nat.eq_zero_or_pos k with h | h
  · subst h; simp
  · have h1 : (Nat.choose (3 * k) k).factorization p ≤ Nat.log p (3 * k) :=
      Nat.factorization_choose_le_log
    have h2 : Nat.log p (3 * k) < 31 := by
      apply Nat.log_lt_of_lt_pow (by omega)
      calc 3 * k < 2 ^ 31 := by norm_num; omega
        _ ≤ p ^ 31 := Nat.pow_le_pow_left hp.two_le 31
    omega

theorem inner_v_bounds (p : Nat) (hp : p.Prime) (n : Int) (vmax k : Nat) (st : Inner)
    (hn : p = 2 → 0 ≤ n ∧ n ≤ 1000000000) (hk : 3 * k < 2147483648)
    (I : InnerInv p n vmax k st) : -1000000000 ≤ st.v ∧ st.v ≤ 1000000000 := by
  have h := choose_factorization_lt p k hp hk
  rw [I.v]
  by_cases h2 : p = 2
  · have := hn h2
    rw [if_pos h2]
    omega
  · rw [if_neg h2]
    omega

theorem strip_step_inv (p : Nat) (hp : p.Prime) (hpM : p ≤ 2147483638) (n : Int)
    (vmax k : Nat) (hn : p = 2 → 0 ≤ n ∧ n ≤ 1000000000)
    (hk : 3 * (3 * (k + 1) - 1) ≤ 2147483647) (st : Inner) (I : InnerInv p n vmax k st) :
    ∃ st1, strip_step (p : Int) ((p : Int) ^ vmax) ((k + 1 : Nat) : Int) st = some st1 ∧
      InnerInv p n vmax (k + 1) st1 ∧ st1.s = st.s := by
  have hav : (0 : Int) < (p : Int) ^ vmax := by
    have := hp.pos
    positivity
  have hvb := inner_v_bounds p hp n vmax k st hn (by omega) I
  have hnum : 0 ≤ st.num := by rw [I.num]; exact Int.emod_nonneg _ hav.ne'
  have hden : 0 ≤ st.den := by rw [I.den]; exact Int.emod_nonneg _ hav.ne'
  refine ⟨_, strip_step_eval p hp hpM _ hav k hk st I.kq1 I.kq2 I.kq3 I.kq4 hnum hden
    (by omega) (by omega), ?_, rfl⟩
  refine ⟨phase_next p k _ _ (by push_cast; ring), phase_next p k _ _ (by omega),
    phase_next p k _ _ (by omega), phase_next p k _ _ (by omega), ?_, ?_, ?_⟩
  · -- the exponent
    have hc := choose_factorization_succ p k
    simp only
    rw [I.v]
    by_cases h2 : p = 2
    · simp only [if_pos h2]
      rw [h2] at hc ⊢
      push_cast at hc ⊢
      omega
    · simp only [if_neg h2]
      omega
  · -- the numerator
    simp only
    rw [I.num, emod_mul3, numProd, pfree_mul p (numProd k * (2 * (k + 1))) (2 * (k + 1) - 1),
      pfree_mul p (numProd k) (2 * (k + 1))]
    congr 1
    push_cast
    ring
  · -- the denominator
    simp only
    rw [I.den, emod_mul3, denProd,
      pfree_mul p (denProd k * (3 * (3 * (k + 1) - 1))) (3 * (k + 1) - 2),
      pfree_mul p (denProd k) (3 * (3 * (k + 1) - 1))]
    congr 1
    by_cases h2 : p = 2
    · simp only [if_pos h2]
      push_cast
      ring
    · simp only [if_neg h2]
      push_cast
      ring

/-! ## Helper lemmas: the fold of an iteration -/

theorem isCoprime_emod_left (x m : Int) (h : IsCoprime x m) : IsCoprime (x % m) m := by
  have h1 : IsCoprime (x + m * (-(x / m))) m := h.add_mul_left_left _
  have h2 : x + m * (-(x / m)) = x % m := by
    have := Int.emod_add_ediv x m
    linarith
  rw [h2] at h1
  exact h1

theorem isCoprime_pfree (p m : Nat) (hp : p.Prime) (hm : 0 < m) :
    IsCoprime ((pfree p m : Nat) : Int) (p : Int) :=
  Nat.isCoprime_iff_coprime.2 (Nat.coprime_ordCompl hp hm.ne').symm

theorem isCoprime_two_pow (p k : Nat) (hp : p.Prime) (h2 : p ≠ 2) :
    IsCoprime ((2 : Int) ^ k) (p : Int) := by
  have h : Nat.Coprime 2 p := (Nat.coprime_primes Nat.prime_two hp).2 (Ne.symm h2)
  have : IsCoprime ((2 : Nat) : Int) (p : Int) := Nat.isCoprime_iff_coprime.2 h
  exact IsCoprime.pow_left this

/-- The argument `den` of the modular inverse: reduced, not zero, coprime to the modulus. -/
theorem inner_den_coprime (p : Nat) (hp : p.Prime) (n : Int) (vmax k : Nat) (hvmax : 1 ≤ vmax)
    (st : Inner) (I : InnerInv p n vmax k st) :
    1 ≤ st.den ∧ st.den < (p : Int) ^ vmax ∧ Int.gcd st.den ((p : Int) ^ vmax) = 1 := by
  have hp2 := hp.two_le
  have hav : (0 : Int) < (p : Int) ^ vmax := by
    have := hp.pos
    positivity
  have hav2 : (2 : Int) ≤ (p : Int) ^ vmax := by
    calc (2 : Int) ≤ (p : Int) ^ 1 := by simpa using (by exact_mod_cast hp2 : (2 : Int) ≤ p)
      _ ≤ (p : Int) ^ vmax := pow_le_pow_right₀ (by exact_mod_cast hp.one_le) hvmax
  have hcop : IsCoprime st.den ((p : Int) ^ vmax) := by
    rw [I.den]
    apply isCoprime_emod_left
    apply IsCoprime.pow_right
    apply IsCoprime.mul_left (isCoprime_pfree p _ hp (denProd_pos k))
    by_cases h2 : p = 2
    · rw [if_pos h2]; exact isCoprime_one_left
    · rw [if_neg h2]; exact isCoprime_two_pow p k hp h2
  have h0 : 0 ≤ st.den := by rw [I.den]; exact Int.emod_nonneg _ hav.ne'
  have hlt : st.den < (p : Int) ^ vmax := by rw [I.den]; exact Int.emod_lt_of_pos _ hav
  refine ⟨?_, hlt, Int.gcd_eq_one_iff_coprime.2 hcop⟩
  by_contra hcon
  have hz : st.den = 0 := by omega
  rw [hz] at hcop
  have := isCoprime_zero_left.1 hcop
  rcases Int.isUnit_iff.1 this with h | h <;> omega

theorem restore_loop_spec (a av : Int) (ha : 0 ≤ a) (hav : 0 < av) :
    ∀ (cnt : Nat) (t : Int), 0 ≤ t → t < av →
      ∃ t1, restore_loop a av cnt t = some t1 ∧ 0 ≤ t1 ∧ t1 < av ∧
        t1 ≡ t * a ^ cnt [ZMOD av] := by
  intro cnt
  induction cnt with
  | zero =>
    intro t h0 h1
    exact ⟨t, rfl, h0, h1, by simp [Int.ModEq]⟩
  | succ cnt ih =>
    intro t h0 h1
    rw [restore_loop, mul_mod_nonneg h0 ha hav]
    simp only
    obtain ⟨t1, e1, b0, b1, hc⟩ := ih (t * a % av) (Int.emod_nonneg _ hav.ne')
      (Int.emod_lt_of_pos _ hav)
    refine ⟨t1, e1, b0, b1, hc.trans ?_⟩
    have : t * a % av * a ^ cnt ≡ t * a * a ^ cnt [ZMOD av] :=
      (Int.mod_modEq _ _).mul_right _
    rw [pow_succ]
    calc t * a % av * a ^ cnt ≡ t * a * a ^ cnt [ZMOD av] := this
      _ = t * (a ^ cnt * a) := by ring

theorem inverse_exists (p : Nat) (av den : Int) (hav2 : 2 ≤ av)
    (havM : av ≤ 2147483647) (hodd : p ≠ 2 → av % 2 = 1 ∧ av ≤ 1073741824)
    (hden1 : 1 ≤ den) (hden2 : den < av) (hg : Int.gcd den av = 1) :
    ∃ r, (if (p : Int) ≠ 2 then inv_mod2 den av else inv_mod den av) = some r ∧ 0 ≤ r ∧
      r < av ∧ (den * r) % av = 1 := by
  by_cases h2 : p = 2
  · have hc : ¬ ((p : Int) ≠ 2) := by simp [h2]
    rw [if_neg hc]
    exact inv_mod_spec den av hden1 (by omega) hav2 havM hg
  · have hc : (p : Int) ≠ 2 := by exact_mod_cast h2
    rw [if_pos hc]
    obtain ⟨ho, hle⟩ := hodd h2
    exact inv_mod2_spec den av hden1 (by omega) (by omega) hle ho hg

theorem fold_term_spec (p : Nat) (av : Int) (hav2 : 2 ≤ av)
    (havM : av ≤ 2147483647) (hodd : p ≠ 2 → av % 2 = 1 ∧ av ≤ 1073741824)
    (vmax v s num den : Int) (k : Nat) (hnum0 : 0 ≤ num)
    (hden1 : 1 ≤ den) (hden2 : den < av) (hg : Int.gcd den av = 1) :
    ∃ r s1, 0 ≤ r ∧ r < av ∧ (den * r) % av = 1 ∧
      fold_term (p : Int) av vmax (k : Int) num den v s = some s1 ∧
      (1 ≤ k → 25 * k ≤ 2147483647 → 0 ≤ s → s < av → av ≤ 1073741824 →
        0 ≤ s1 ∧ s1 < av ∧
        s1 ≡ s + r * num * (p : Int) ^ (vmax - v).toNat * (25 * (k : Int) - 3) [ZMOD av]) := by
  obtain ⟨r, hr, r0, r1, hinv⟩ := inverse_exists p av den hav2 havM hodd hden1 hden2 hg
  have hav : 0 < av := by omega
  unfold fold_term
  rw [hr]
  simp only
  rw [mul_mod_nonneg r0 hnum0 hav]
  simp only
  obtain ⟨t2, e2, t20, t21, hc2⟩ := restore_loop_spec (p : Int) av (by omega) hav
    (vmax - v).toNat (r * num % av) (Int.emod_nonneg _ hav.ne') (Int.emod_lt_of_pos _ hav)
  rw [e2]
  simp only
  have hmm : mul_mod t2 (wrap32 (wrap32 (25 * (k : Int)) - 3)) av =
      some (Int.tmod (t2 * wrap32 (wrap32 (25 * (k : Int)) - 3)) av) := by
    unfold mul_mod
    rw [if_neg (by omega)]
  rw [hmm]
  simp only
  refine ⟨r, _, r0, r1, hinv, rfl, ?_⟩
  intro hk1 hk hs0 hs1 hav30
  rw [wrap32_of_inInt (x := 25 * (k : Int)) (by omega) (by omega),
    wrap32_of_inInt (x := 25 * (k : Int) - 3) (by omega) (by omega),
    Int.tmod_eq_emod (mul_nonneg t20 (by omega)) (by omega)]
  have h30 : 0 ≤ t2 * (25 * (k : Int) - 3) % av := Int.emod_nonneg _ hav.ne'
  have h31 : t2 * (25 * (k : Int) - 3) % av < av := Int.emod_lt_of_pos _ hav
  rw [wrap32_of_inInt (x := s + t2 * (25 * (k : Int) - 3) % av) (by omega) (by omega)]
  have hcong : s + t2 * (25 * (k : Int) - 3) % av ≡
      s + r * num * (p : Int) ^ (vmax - v).toNat * (25 * (k : Int) - 3) [ZMOD av] := by
    apply Int.ModEq.add_left
    calc t2 * (25 * (k : Int) - 3) % av ≡ t2 * (25 * (k : Int) - 3) [ZMOD av] :=
          Int.mod_modEq _ _
      _ ≡ (r * num % av * (p : Int) ^ (vmax - v).toNat) * (25 * (k : Int) - 3) [ZMOD av] :=
          hc2.mul_right _
      _ ≡ (r * num * (p : Int) ^ (vmax - v).toNat) * (25 * (k : Int) - 3) [ZMOD av] :=
          ((Int.mod_modEq _ _).mul_right _).mul_right _
  by_cases hge : s + t2 * (25 * (k : Int) - 3) % av ≥ av
  · rw [if_pos hge, wrap32_of_inInt (by omega) (by omega)]
    refine ⟨by omega, by omega, ?_⟩
    have : s + t2 * (25 * (k : Int) - 3) % av - av ≡ s + t2 * (25 * (k : Int) - 3) % av
        [ZMOD av] := by
      apply Int.modEq_iff_dvd.2
      exact ⟨1, by ring⟩
    exact this.trans hcong
  · rw [if_neg hge]
    exact ⟨by omega, by omega, hcong⟩

/-! ## Helper lemmas: the `k` loop -/

theorem pow_prime_bounds (p : Nat) (hp : p.Prime) (vmax : Nat) (hvmax : 1 ≤ vmax) :
    (2 : Int) ≤ (p : Int) ^ vmax ∧ (p : Int) ≤ (p : Int) ^ vmax ∧
      (p ≠ 2 → ((p : Int) ^ vmax) % 2 = 1) := by
  have hp2 : (2 : Int) ≤ p := by exact_mod_cast hp.two_le
  have h1 : (p : Int) ≤ (p : Int) ^ vmax := by
    calc (p : Int) = (p : Int) ^ 1 := by ring
      _ ≤ (p : Int) ^ vmax := pow_le_pow_right₀ (by omega) hvmax
  refine ⟨by omega, h1, fun h2 => ?_⟩
  have hodd : Odd p := hp.odd_of_ne_two h2
  have : Odd ((p : Int) ^ vmax) := Odd.pow (by exact_mod_cast hodd)
  exact Int.odd_iff.1 this

theorem inner_step_spec (p : Nat) (hp : p.Prime) (n : Int) (vmax k : Nat)
    (hvmax : 1 ≤ vmax) (havM : (p : Int) ^ vmax ≤ 2147483647)
    (hodd : p ≠ 2 → (p : Int) ^ vmax ≤ 1073741824)
    (hn : p = 2 → 0 ≤ n ∧ n ≤ 1000000000)
    (hk : 3 * (3 * (k + 1) - 1) ≤ 2147483647) (st : Inner) (I : InnerInv p n vmax k st) :
    ∃ st1 st2, strip_step (p : Int) ((p : Int) ^ vmax) ((k + 1 : Nat) : Int) st = some st1 ∧
      inner_step (p : Int) ((p : Int) ^ vmax) (vmax : Int) ((k + 1 : Nat) : Int) st = some st2 ∧
      InnerInv p n vmax (k + 1) st1 ∧ InnerInv p n vmax (k + 1) st2 ∧
      st2 = { st1 with s := st2.s } ∧ FoldRel p vmax (k + 1) st1 st.s st2.s := by
  obtain ⟨hav2, hpav, hoddav⟩ := pow_prime_bounds p hp vmax hvmax
  have hpM : p ≤ 2147483638 := by
    by_cases h2 : p = 2
    · omega
    · have := hodd h2
      have : (p : Int) ≤ 1073741824 := by omega
      omega
  obtain ⟨st1, e1, I1, hs⟩ := strip_step_inv p hp hpM n vmax k hn hk st I
  obtain ⟨d1, d2, dg⟩ := inner_den_coprime p hp n vmax (k + 1) hvmax st1 I1
  have hnum0 : 0 ≤ st1.num := by rw [I1.num]; exact Int.emod_nonneg _ (by omega)
  unfold inner_step
  rw [e1]
  simp only
  by_cases hv : st1.v > 0
  · rw [if_pos hv]
    obtain ⟨r, s1, r0, r1, rinv, ef, hfold⟩ := fold_term_spec p ((p : Int) ^ vmax) hav2 havM
      (fun h2 => ⟨hoddav h2, hodd h2⟩) (vmax : Int) st1.v st1.s st1.num st1.den (k + 1)
      hnum0 d1 d2 dg
    rw [ef]
    refine ⟨st1, _, rfl, rfl, I1, ?_, rfl, ?_⟩
    · exact ⟨I1.kq1, I1.kq2, I1.kq3, I1.kq4, I1.v, I1.num, I1.den⟩
    · refine ⟨fun h => by omega, fun _ => ⟨r, r0, r1, rinv, ?_⟩⟩
      intro hk25 hs0 hs1 hav30
      rw [← hs]
      exact hfold (by omega) hk25 (by rw [hs]; exact hs0) (by rw [hs]; exact hs1) hav30
  · rw [if_neg hv]
    refine ⟨st1, st1, rfl, rfl, I1, I1, rfl, ?_⟩
    exact ⟨fun _ => hs, fun h => by omega⟩

theorem inner_loop_spec (p : Nat) (hp : p.Prime) (n : Int) (vmax N : Nat)
    (hvmax : 1 ≤ vmax) (havM : (p : Int) ^ vmax ≤ 2147483647)
    (hodd : p ≠ 2 → (p : Int) ^ vmax ≤ 1073741824)
    (hn : p = 2 → 0 ≤ n ∧ n ≤ 1000000000)
    (hN : 3 * (3 * N - 1) ≤ 2147483647) (Q : Nat → Int → Prop)
    (hQ : ∀ (j : Nat) (st1 : Inner) (s s1 : Int), j < N → InnerInv p n vmax (j + 1) st1 →
      FoldRel p vmax (j + 1) st1 s s1 → Q j s → Q (j + 1) s1) :
    ∀ (m j fuel : Nat) (st : Inner), j + m = N → m < fuel → InnerInv p n vmax j st →
      Q j st.s →
      ∃ stN, inner_loop fuel (p : Int) ((p : Int) ^ vmax) (vmax : Int) (N : Int)
          ((j + 1 : Nat) : Int) st = some stN ∧ InnerInv p n vmax N stN ∧ Q N stN.s := by
  intro m
  induction m with
  | zero =>
    intro j fuel st hj hf I q
    obtain ⟨f, rfl⟩ : ∃ f, fuel = f + 1 := ⟨fuel - 1, by omega⟩
    have hjN : j = N := by omega
    subst hjN
    rw [inner_loop, if_neg (by push_cast; omega)]
    exact ⟨st, rfl, I, q⟩
  | succ m ih =>
    intro j fuel st hj hf I q
    obtain ⟨f, rfl⟩ : ∃ f, fuel = f + 1 := ⟨fuel - 1, by omega⟩
    rw [inner_loop, if_pos (by push_cast; omega)]
    obtain ⟨st1, st2, _, e2, I1, I2, hst, hfold⟩ := inner_step_spec p hp n vmax j hvmax havM hodd
      hn (by omega) st I
    rw [e2]
    simp only
    have hw : wrap32 (((j + 1 : Nat) : Int) + 1) = ((j + 1 + 1 : Nat) : Int) := by
      rw [wrap32_of_inInt (by omega) (by omega)]; push_cast; ring
    rw [hw]
    exact ih (j + 1) f st2 (by omega) (by omega) I2 (hQ j st1 st.s st2.s (by omega) I1 hfold q)

theorem pfree_one (p : Nat) : pfree p 1 = 1 := by
  simp [pfree]

theorem inner_init_spec (p : Nat) (hp : p.Prime) (n : Int) (vmax : Nat) (hvmax : 1 ≤ vmax)
    (hn1 : 1 ≤ n) (hnM : n ≤ 2147483647) :
    ∃ st0, inner_init n (p : Int) ((p : Int) ^ vmax) = some st0 ∧ InnerInv p n vmax 0 st0 ∧
      st0.s = 0 := by
  obtain ⟨hav2, _, _⟩ := pow_prime_bounds p hp vmax hvmax
  have h1 : (1 : Int) % (p : Int) ^ vmax = 1 := Int.emod_eq_of_lt (by omega) (by omega)
  unfold inner_init
  by_cases h2 : p = 2
  · have hc : (p : Int) = 2 := by exact_mod_cast h2
    rw [if_pos hc, wrap32_of_inInt (by omega) (by omega)]
    refine ⟨_, rfl, ⟨Or.inr ⟨rfl, by simp⟩, Or.inr ⟨rfl, by simp⟩, Or.inr ⟨rfl, by simp⟩,
      Or.inr ⟨rfl, by simp⟩, ?_, ?_, ?_⟩, rfl⟩
    · simp [h2]
    · simp only [if_pos h2, numProd, pfree_one, Nat.cast_one, mul_one, h1]
    · simp only [if_pos h2, denProd, pfree_one, Nat.cast_one, mul_one, h1]
  · have hc : ¬ ((p : Int) = 2) := by exact_mod_cast h2
    rw [if_neg hc, pow_mod_pos_exp 2 n _ (by omega) hn1 (by omega)]
    refine ⟨_, rfl, ⟨Or.inr ⟨rfl, by simp⟩, Or.inr ⟨rfl, by simp⟩, Or.inr ⟨rfl, by simp⟩,
      Or.inr ⟨rfl, by simp⟩, ?_, ?_, ?_⟩, rfl⟩
    · simp [h2]
    · simp only [if_neg h2, numProd, pfree_one, Nat.cast_one, mul_one]
    · simp only [if_neg h2, denProd, pfree_one, Nat.cast_one, mul_one, pow_zero, h1]

theorem av_loop_eq (p : Nat) (hp : 0 < p) : ∀ (cnt : Nat), (p : Int) ^ cnt ≤ 2147483647 →
    av_loop (p : Int) cnt = (p : Int) ^ cnt := by
  intro cnt
  induction cnt with
  | zero => intro _; rfl
  | succ cnt ih =>
    intro h
    have hp1 : (1 : Int) ≤ p := by exact_mod_cast hp
    have hpos : (0 : Int) < (p : Int) ^ cnt := by positivity
    have hle : (p : Int) ^ cnt ≤ (p : Int) ^ (cnt + 1) := by
      rw [pow_succ]; nlinarith
    rw [av_loop, ih (by omega), ← pow_succ, wrap32_of_inInt (by omega) h]

theorem pow_mod_five (n av : Int) (hn : 1 ≤ n) (hnM : n ≤ 2147483647) (hav : 2 ≤ av) :
    pow_mod 5 (wrap32 (n - 1)) av = some (5 ^ (n - 1).toNat % av) := by
  rw [wrap32_of_inInt (by omega) (by omega)]
  by_cases h : n = 1
  · subst h
    rw [show (1 : Int) - 1 = 0 by norm_num, pow_mod_zero_exp]
    simp
    rw [Int.emod_eq_of_lt (by omega) (by omega)]
  · exact pow_mod_pos_exp 5 (n - 1) av (by omega) (by omega) (by omega)

theorem prime_sum_spec (p : Nat) (hp : p.Prime) (n : Int) (vmax N : Nat)
    (hvmax : 1 ≤ vmax) (havM : (p : Int) ^ vmax ≤ 2147483647)
    (hodd : p ≠ 2 → (p : Int) ^ vmax ≤ 1073741824)
    (hn1 : 1 ≤ n) (hnM : n ≤ 2147483647) (hn : p = 2 → n ≤ 1000000000)
    (hN : 3 * (3 * N - 1) ≤ 2147483647) (Q : Nat → Int → Prop) (hQ0 : Q 0 0)
    (hQ : ∀ (j : Nat) (st1 : Inner) (s s1 : Int), j < N → InnerInv p n vmax (j + 1) st1 →
      FoldRel p vmax (j + 1) st1 s s1 → Q j s → Q (j + 1) s1) :
    ∃ stN, inner_init n (p : Int) ((p : Int) ^ vmax) >>=
        (fun st0 => inner_loop (N + 1) (p : Int) ((p : Int) ^ vmax) (vmax : Int) (N : Int) 1 st0)
          = some stN ∧
      InnerInv p n vmax N stN ∧ Q N stN.s ∧
      prime_sum n (N : Int) (p : Int) ((p : Int) ^ vmax) (vmax : Int) =
        some (Int.tmod (stN.s * (5 ^ (n - 1).toNat % (p : Int) ^ vmax)) ((p : Int) ^ vmax)) := by
  obtain ⟨hav2, _, _⟩ := pow_prime_bounds p hp vmax hvmax
  obtain ⟨st0, e0, I0, hs0⟩ := inner_init_spec p hp n vmax hvmax hn1 hnM
  obtain ⟨stN, eN, IN, qN⟩ := inner_loop_spec p hp n vmax N hvmax havM hodd
    (fun h => ⟨by omega, hn h⟩) hN Q hQ N 0 (N + 1) st0 (by omega) (by omega) I0
    (by rw [hs0]; exact hQ0)
  have e1 : ((0 + 1 : Nat) : Int) = 1 := rfl
  rw [e1] at eN
  refine ⟨stN, ?_, IN, qN, ?_⟩
  · rw [e0]; exact eN
  · unfold prime_sum
    rw [e0]
    simp only [Int.toNat_ofNat]
    rw [eN]
    simp only
    rw [pow_mod_five n _ hn1 hnM hav2]
    simp only
    unfold mul_mod
    rw [if_neg (by omega)]

theorem exact_logRatio (p x : Nat) (hp : 2 ≤ p) (hx : 1 ≤ x) :
    exactOps.logRatio (x : Int) (p : Int) = (Nat.log p x : Int) := by
  unfold exactOps
  simp only [Int.toNat_ofNat]
  congr 1
  apply le_antisymm
  · apply (Nat.pow_le_iff_le_log (by omega) (by omega)).1
    exact Nat.findGreatest_spec (P := fun e => p ^ e ≤ x) (Nat.zero_le x) (by simpa using hx)
  · apply Nat.le_findGreatest
    · exact (Nat.log_le_self p x)
    · exact Nat.pow_log_le_self p (by omega)

theorem vmax_of_exact (p N : Nat) (n : Int) (hp : 2 ≤ p) (hN : 1 ≤ N)
    (hNM : 3 * N ≤ 2147483647) (hn1 : 1 ≤ n) (hnM : n ≤ 2147483647) :
    vmax_of exactOps n (N : Int) (p : Int) =
      if p = 2 then (Nat.log 2 (3 * N) : Int) + ((N : Int) - n) else (Nat.log p (3 * N) : Int) := by
  have hw : wrap32 (3 * (N : Int)) = ((3 * N : Nat) : Int) := by
    rw [wrap32_of_inInt (by omega) (by omega)]; push_cast; ring
  have hlog : Nat.log 2 (3 * N) < 31 := by
    apply Nat.log_lt_of_lt_pow (by omega)
    norm_num; omega
  unfold vmax_of
  rw [hw, exact_logRatio p (3 * N) hp (by omega)]
  by_cases h2 : p = 2
  · have hc : (p : Int) = 2 := by exact_mod_cast h2
    rw [if_pos hc, if_pos h2, h2, wrap32_of_inInt (x := (N : Int) - n) (by omega) (by omega),
      wrap32_of_inInt (by omega) (by omega)]
  · have hc : ¬ ((p : Int) = 2) := by exact_mod_cast h2
    rw [if_neg hc, if_neg h2]

theorem vmax_facts (p N : Nat) (n : Int) (hp : p.Prime) (hple : p ≤ 3 * N)
    (hNM : 3 * N ≤ 1073741824) (hn1 : 1 ≤ n) (hnM : n ≤ 2147483647)
    (h2 : 3 * N * 2 ^ N < 2 ^ (n.toNat + 31))
    (hrun : ¬ ((p : Int) = 2 ∧ vmax_of exactOps n (N : Int) (p : Int) ≤ 0)) :
    ∃ vm : Nat, vmax_of exactOps n (N : Int) (p : Int) = (vm : Int) ∧ 1 ≤ vm ∧
      (p : Int) ^ vm ≤ 1073741824 ∧ (p = 2 → n ≤ 1000000000) ∧
      (p ≠ 2 → vm = Nat.log p (3 * N)) ∧
      (p = 2 → (vm : Int) = (Nat.log 2 (3 * N) : Int) + ((N : Int) - n)) := by
  have hp2 := hp.two_le
  have hN : 1 ≤ N := by omega
  have hv := vmax_of_exact p N n hp2 hN (by omega) hn1 hnM
  by_cases h : p = 2
  · subst h
    rw [if_pos rfl] at hv
    have hc : ((2 : Nat) : Int) = 2 := rfl
    have hpos : 0 < vmax_of exactOps n (N : Int) ((2 : Nat) : Int) := by
      by_contra hcon
      exact hrun ⟨hc, by omega⟩
    have hlog : Nat.log 2 (3 * N) < 31 := by
      apply Nat.log_lt_of_lt_pow (by omega)
      norm_num; omega
    obtain ⟨m, hm⟩ : ∃ m : Nat, n = (m : Int) := ⟨n.toNat, by omega⟩
    subst hm
    simp only [Int.toNat_ofNat] at h2
    have hpow : 2 ^ (Nat.log 2 (3 * N) + N) < 2 ^ (m + 31) := by
      calc 2 ^ (Nat.log 2 (3 * N) + N) = 2 ^ Nat.log 2 (3 * N) * 2 ^ N := pow_add _ _ _
        _ ≤ 3 * N * 2 ^ N := Nat.mul_le_mul_right _ (Nat.pow_log_le_self 2 (by omega))
        _ < 2 ^ (m + 31) := h2
    have hlt : Nat.log 2 (3 * N) + N < m + 31 := (Nat.pow_lt_pow_iff_right (by omega)).1 hpow
    refine ⟨Nat.log 2 (3 * N) + N - m, ?_, ?_, ?_, ?_, ?_, ?_⟩
    · rw [hv]; omega
    · rw [hv] at hpos; omega
    · have : (((2 : Nat) : Int)) ^ (Nat.log 2 (3 * N) + N - m) ≤ 2 ^ 30 :=
        pow_le_pow_right₀ (by norm_num) (by omega)
      simpa using this
    · intro _; rw [hv] at hpos; omega
    · intro hne; exact absurd rfl hne
    · intro _; rw [hv] at hpos; omega
  · rw [if_neg h] at hv
    refine ⟨Nat.log p (3 * N), hv, ?_, ?_, ?_, ?_, ?_⟩
    · exact (Nat.pow_le_iff_le_log (by omega) (by omega)).1 (by simpa using hple)
    · have : p ^ Nat.log p (3 * N) ≤ 3 * N := Nat.pow_log_le_self p (by omega)
      have h3 : ((p ^ Nat.log p (3 * N) : Nat) : Int) ≤ 1073741824 := by exact_mod_cast (by omega : p ^ Nat.log p (3 * N) ≤ 1073741824)
      simpa using h3
    · intro h'; exact absurd h' h
    · intro _; rfl
    · intro h'; exact absurd h' h

theorem prime_pass_skip (ops : FloatOps) (n N a : Int) (sum : Frac)
    (h : a = 2 ∧ vmax_of ops n N a ≤ 0) : prime_pass ops n N a sum = some sum := by
  unfold prime_pass
  rw [if_pos h]

theorem prime_pass_run (p N : Nat) (n : Int) (vm : Nat) (hp : p.Prime)
    (hNM : 3 * (3 * N - 1) ≤ 2147483647) (hn1 : 1 ≤ n) (hnM : n ≤ 2147483647)
    (hrun : ¬ ((p : Int) = 2 ∧ vmax_of exactOps n (N : Int) (p : Int) ≤ 0))
    (hvm : vmax_of exactOps n (N : Int) (p : Int) = (vm : Int)) (hvm1 : 1 ≤ vm)
    (hav : (p : Int) ^ vm ≤ 1073741824) (hn : p = 2 → n ≤ 1000000000)
    (sum : Frac) (Q : Nat → Int → Prop) (hQ0 : Q 0 0)
    (hQ : ∀ (j : Nat) (st1 : Inner) (s s1 : Int), j < N → InnerInv p n vm (j + 1) st1 →
      FoldRel p vm (j + 1) st1 s s1 → Q j s → Q (j + 1) s1) :
    ∃ stN, inner_init n (p : Int) ((p : Int) ^ vm) >>=
        (fun st0 => inner_loop (N + 1) (p : Int) ((p : Int) ^ vm) (vm : Int) (N : Int) 1 st0)
          = some stN ∧
      InnerInv p n vm N stN ∧ Q N stN.s ∧
      prime_pass exactOps n (N : Int) (p : Int) sum =
        some (fmod1 (sum.addQuot
          (Int.tmod (stN.s * (5 ^ (n - 1).toNat % (p : Int) ^ vm)) ((p : Int) ^ vm))
          ((p : Int) ^ vm))) := by
  obtain ⟨stN, e, I, q, es⟩ := prime_sum_spec p hp n vm N hvm1 (by omega) (fun _ => hav)
    hn1 hnM hn hNM Q hQ0 hQ
  refine ⟨stN, e, I, q, ?_⟩
  unfold prime_pass
  rw [if_neg hrun, hvm]
  simp only [Int.toNat_ofNat]
  rw [av_loop_eq p hp.pos vm (by omega), es]

/-! ## Helper lemmas: the prime loop -/

theorem sweep_zero (ops : FloatOps) (n N a : Int) (sum : Frac) :
    sweep ops n N 0 a sum = none := rfl

theorem sweep_succ (ops : FloatOps) (n N a : Int) (fuel : Nat) (sum : Frac) :
    sweep ops n N (fuel + 1) a sum =
      if a ≤ wrap32 (3 * N) then
        match prime_pass ops n N a sum with
        | none => none
        | some sum1 =>
          match next_prime a with
          | none => none
          | some a1 => sweep ops n N fuel a1 sum1
      else some (sum, a) := rfl

theorem sweep_final (ops : FloatOps) (n N : Int) (hlo : -2147483648 ≤ 3 * N)
    (hhi : 3 * N ≤ 2147483647) :
    ∀ (fuel a : Nat) (sum : Frac) (r : Frac × Int),
      sweep ops n N fuel (a : Int) sum = some r → a.Prime →
      (∀ q : Nat, q.Prime → 3 * N < (q : Int) → a ≤ q) →
      ∃ pF : Nat, r.2 = (pF : Int) ∧ pF.Prime ∧ 3 * N < (pF : Int) ∧
        ∀ q : Nat, q.Prime → 3 * N < (q : Int) → pF ≤ q := by
  intro fuel
  induction fuel with
  | zero => intro a sum r h; rw [sweep_zero] at h; cases h
  | succ fuel ih =>
    intro a sum r h ha hleast
    rw [sweep_succ, wrap32_of_inInt hlo hhi] at h
    by_cases hle : (a : Int) ≤ 3 * N
    · rw [if_pos hle] at h
      cases hpp : prime_pass ops n N (a : Int) sum with
      | none => rw [hpp] at h; exact absurd h (by simp)
      | some sum1 =>
        rw [hpp] at h
        have ha2 := ha.two_le
        obtain ⟨p1, e1, hp1, hlt, hmin⟩ := next_prime_spec_int (a : Int) (by omega) (by omega)
        rw [e1] at h
        refine ih p1 sum1 r h hp1 ?_
        intro q hq h3
        exact hmin q hq (by omega)
    · rw [if_neg hle] at h
      have h1 := Option.some.inj h
      subst h1
      exact ⟨a, rfl, ha, by omega, hleast⟩

theorem sweep_total (ops : FloatOps) (n N : Int) (hlo : -2147483648 ≤ 3 * N)
    (hhi : 3 * N ≤ 2147483647) (R : Nat → Frac → Prop)
    (hstep : ∀ (p : Nat) (sum : Frac), p.Prime → (p : Int) ≤ 3 * N → R p sum →
      ∃ sum1, prime_pass ops n N (p : Int) sum = some sum1 ∧
        ∀ p1 : Nat, p1.Prime → p < p1 → (∀ q : Nat, q.Prime → p < q → p1 ≤ q) → R p1 sum1) :
    ∀ (fuel a : Nat) (sum : Frac), a.Prime → 1 ≤ fuel →
      ((a : Int) ≤ 3 * N → 3 * N + 3 ≤ (a : Int) + (fuel : Int)) → R a sum →
      ∃ (sumF : Frac) (pF : Nat), sweep ops n N fuel (a : Int) sum = some (sumF, (pF : Int)) ∧ R pF sumF ∧
        pF.Prime ∧ 3 * N < (pF : Int) := by
  intro fuel
  induction fuel with
  | zero => intro a sum _ h; omega
  | succ fuel ih =>
    intro a sum ha _ hfuel hR
    rw [sweep_succ, wrap32_of_inInt hlo hhi]
    by_cases hle : (a : Int) ≤ 3 * N
    · rw [if_pos hle]
      obtain ⟨sum1, e, hnext⟩ := hstep a sum ha hle hR
      rw [e]
      have ha2 := ha.two_le
      obtain ⟨p1, e1, hp1, hlt, hmin⟩ := next_prime_spec_int (a : Int) (by omega) (by omega)
      rw [e1]
      have hlt' : a < p1 := by exact_mod_cast hlt
      have := hfuel hle
      exact ih p1 sum1 hp1 (by push_cast at this; omega) (fun _ => by push_cast at this ⊢; omega)
        (hnext p1 hp1 hlt' (fun q hq h => hmin q hq (by exact_mod_cast h)))
    · rw [if_neg hle]
      exact ⟨sum, a, rfl, hR, ha, by omega⟩

theorem strip_brute_spec (p : Nat) (hp : p.Prime) :
    ∀ (fuel t : Nat), 1 ≤ t → t ≤ fuel →
      strip_brute p fuel t = (t / p ^ t.factorization p, t.factorization p) := by
  intro fuel
  induction fuel with
  | zero => intro t h1 h2; omega
  | succ fuel ih =>
    intro t h1 h2
    rw [strip_brute]
    by_cases hd : p ∣ t
    · rw [if_pos hd]
      obtain ⟨t1, rfl⟩ := hd
      have hp2 := hp.two_le
      have ht1 : 1 ≤ t1 := by
        rcases Nat.eq_zero_or_pos t1 with h | h
        · subst h; simp at h1
        · exact h
      have hdiv : p * t1 / p = t1 := Nat.mul_div_cancel_left t1 hp.pos
      have hle : t1 ≤ fuel := by nlinarith
      rw [hdiv, ih t1 ht1 hle, factorization_mul_prime p t1 hp ht1]
      simp only [Prod.mk.injEq, and_true]
      rw [pow_succ, mul_comm (p ^ _) p, ← Nat.div_div_eq_div_mul, hdiv]
    · rw [if_neg hd, Nat.factorization_eq_zero_of_not_dvd hd]
      simp

theorem sweep_values_zero (ops : FloatOps) (n N a : Int) (sum : Frac) :
    sweep_values ops n N 0 a sum = none := rfl

theorem sweep_values_succ (ops : FloatOps) (n N a : Int) (fuel : Nat) (sum : Frac) :
    sweep_values ops n N (fuel + 1) a sum =
      if a ≤ wrap32 (3 * N) then
        match prime_pass ops n N a sum with
        | none => none
        | some sum1 =>
          match next_prime a with
          | none => none
          | some a1 =>
            match sweep_values ops n N fuel a1 sum1 with
            | none => none
            | some l => some (a :: l)
      else some [] := rfl

/-- The record of `sweep_values` is taken on the run of `sweep` itself: the one returns
exactly when the other does. -/
theorem sweep_values_isSome_iff (ops : FloatOps) (n N : Int) :
    ∀ (fuel : Nat) (a : Int) (sum : Frac),
      (∃ r, sweep ops n N fuel a sum = some r) ↔
        (∃ l, sweep_values ops n N fuel a sum = some l) := by
  intro fuel
  induction fuel with
  | zero =>
    intro a sum
    rw [sweep_zero, sweep_values_zero]
    constructor
    · rintro ⟨r, h⟩; cases h
    · rintro ⟨l, h⟩; cases h
  | succ fuel ih =>
    intro a sum
    rw [sweep_succ, sweep_values_succ]
    by_cases hle : a ≤ wrap32 (3 * N)
    · rw [if_pos hle, if_pos hle]
      cases hpp : prime_pass ops n N a sum with
      | none =>
        constructor
        · rintro ⟨r, h⟩; cases h
        · rintro ⟨l, h⟩; cases h
      | some sum1 =>
        cases hnp : next_prime a with
        | none =>
          constructor
          · rintro ⟨r, h⟩; cases h
          · rintro ⟨l, h⟩; cases h
        | some a1 =>
          show (∃ r, sweep ops n N fuel a1 sum1 = some r) ↔
            ∃ l, (match sweep_values ops n N fuel a1 sum1 with
              | none => none
              | some l => some (a :: l)) = some l
          rw [ih a1 sum1]
          constructor
          · rintro ⟨l, h⟩
            rw [h]
            exact ⟨a :: l, rfl⟩
          · rintro ⟨l, h⟩
            cases hv : sweep_values ops n N fuel a1 sum1 with
            | none => rw [hv] at h; cases h
            | some l1 => exact ⟨l1, rfl⟩
    · rw [if_neg hle, if_neg hle]
      exact ⟨fun _ => ⟨[], rfl⟩, fun _ => ⟨(sum, a), rfl⟩⟩

theorem sweep_values_spec (ops : FloatOps) (n N : Int) (hlo : -2147483648 ≤ 3 * N)
    (hhi : 3 * N ≤ 2147483647)
    (hbody : ∀ (p : Nat) (sum : Frac), p.Prime → (p : Int) ≤ 3 * N →
      ∃ sum1, prime_pass ops n N (p : Int) sum = some sum1) :
    ∀ (fuel a : Nat) (sum : Frac), a.Prime → 1 ≤ fuel →
      ((a : Int) ≤ 3 * N → 3 * N + 3 ≤ (a : Int) + (fuel : Int)) →
      ∃ l : List Int, sweep_values ops n N fuel (a : Int) sum = some l ∧
        l.Pairwise (fun x y => x < y) ∧
        ∀ x : Int, x ∈ l ↔ ∃ q : Nat, x = (q : Int) ∧ q.Prime ∧ a ≤ q ∧ (q : Int) ≤ 3 * N := by
  intro fuel
  induction fuel with
  | zero => intro a _ _ h; omega
  | succ fuel ih =>
    intro a sum ha _ hfuel
    rw [sweep_values_succ, wrap32_of_inInt hlo hhi]
    by_cases hle : (a : Int) ≤ 3 * N
    · rw [if_pos hle]
      obtain ⟨sum1, eb⟩ := hbody a sum ha hle
      have ha2 := ha.two_le
      obtain ⟨p1, e1, hp1, hlt, hmin⟩ := next_prime_spec_int (a : Int) (by omega) (by omega)
      rw [eb, e1]
      have hlt' : a < p1 := by exact_mod_cast hlt
      have := hfuel hle
      obtain ⟨l, el, hsorted, hmem⟩ := ih p1 sum1 hp1 (by push_cast at this; omega)
        (fun _ => by push_cast at this ⊢; omega)
      have hres : (match some sum1 with
          | none => none
          | some sum1 =>
            match some (p1 : Int) with
            | none => none
            | some a1 =>
              match sweep_values ops n N fuel a1 sum1 with
              | none => none
              | some l => some ((a : Int) :: l)) = some ((a : Int) :: l) := by
        show (match sweep_values ops n N fuel (p1 : Int) sum1 with
          | none => none
          | some l => some ((a : Int) :: l)) = some ((a : Int) :: l)
        rw [el]
      refine ⟨(a : Int) :: l, hres, ?_, ?_⟩
      · rw [List.pairwise_cons]
        refine ⟨?_, hsorted⟩
        intro x hx
        obtain ⟨q, rfl, _, hq, _⟩ := (hmem x).1 hx
        omega
      · intro x
        rw [List.mem_cons, hmem x]
        constructor
        · rintro (rfl | ⟨q, rfl, hq, h1, h2⟩)
          · exact ⟨a, rfl, ha, le_refl a, hle⟩
          · exact ⟨q, rfl, hq, by omega, h2⟩
        · rintro ⟨q, rfl, hq, h1, h2⟩
          by_cases hqa : q = a
          · left; rw [hqa]
          · right
            exact ⟨q, rfl, hq, hmin q hq (by omega), h2⟩
    · rw [if_neg hle]
      refine ⟨[], rfl, List.Pairwise.nil, ?_⟩
      intro x
      simp only [List.not_mem_nil, false_iff]
      rintro ⟨q, rfl, _, h1, h2⟩
      omega

/-- The final `sum` of the prime loop is what the body gives when it is run in turn on the
recorded values of `a`. -/
theorem sweep_values_fold (ops : FloatOps) (n N : Int) :
    ∀ (fuel : Nat) (a : Int) (sum : Frac) (l : List Int) (r : Frac × Int),
      sweep_values ops n N fuel a sum = some l → sweep ops n N fuel a sum = some r →
      List.foldlM (fun s b => prime_pass ops n N b s) sum l = some r.1 := by
  intro fuel
  induction fuel with
  | zero =>
    intro a sum l r h
    rw [sweep_values_zero] at h
    cases h
  | succ fuel ih =>
    intro a sum l r h hs
    rw [sweep_values_succ] at h
    rw [sweep_succ] at hs
    by_cases hle : a ≤ wrap32 (3 * N)
    · rw [if_pos hle] at h hs
      cases hpp : prime_pass ops n N a sum with
      | none => rw [hpp] at h; cases h
      | some sum1 =>
        rw [hpp] at h hs
        cases hnp : next_prime a with
        | none => rw [hnp] at h; cases h
        | some a1 =>
          rw [hnp] at h hs
          cases hv : sweep_values ops n N fuel a1 sum1 with
          | none =>
            have h' : (match sweep_values ops n N fuel a1 sum1 with
              | none => none
              | some l => some (a :: l)) = some l := h
            rw [hv] at h'
            cases h'
          | some l1 =>
            have h' : (match sweep_values ops n N fuel a1 sum1 with
              | none => none
              | some l => some (a :: l)) = some l := h
            rw [hv] at h'
            have hl : a :: l1 = l := Option.some.inj h'
            subst hl
            have hs' : sweep ops n N fuel a1 sum1 = some r := hs
            rw [List.foldlM_cons, hpp]
            exact ih a1 sum1 l1 r hv hs'
    · rw [if_neg hle] at h hs
      have hl : [] = l := Option.some.inj h
      have hr : (sum, a) = r := Option.some.inj hs
      subst hl
      subst hr
      rfl

/-! ## Helper lemmas: the state at an iteration -/

theorem inner_loop_split (a av vmax : Int) (M N : Nat) (hMN : M ≤ N) (hN : N ≤ 2147483646) :
    ∀ (r j f1 f2 : Nat) (st stM : Inner), j + r = M + 1 →
      inner_loop f1 a av vmax (M : Int) (j : Int) st = some stM → r < f2 →
      inner_loop f2 a av vmax (N : Int) (j : Int) st =
        inner_loop (f2 - r) a av vmax (N : Int) ((M + 1 : Nat) : Int) stM := by
  intro r
  induction r with
  | zero =>
    intro j f1 f2 st stM hj h _
    have hjM : j = M + 1 := by omega
    subst hjM
    cases f1 with
    | zero => rw [inner_loop] at h; cases h
    | succ f1 =>
      rw [inner_loop, if_neg (by push_cast; omega)] at h
      have h1 := Option.some.inj h
      subst h1
      rfl
  | succ r ih =>
    intro j f1 f2 st stM hj h hf
    obtain ⟨g, rfl⟩ : ∃ g, f2 = g + 1 := ⟨f2 - 1, by omega⟩
    cases f1 with
    | zero => rw [inner_loop] at h; cases h
    | succ f1 =>
      rw [inner_loop, if_pos (by omega)] at h
      rw [inner_loop, if_pos (by omega)]
      cases hs : inner_step a av vmax (j : Int) st with
      | none => rw [hs] at h; cases h
      | some st1 =>
        rw [hs] at h
        have hw : wrap32 ((j : Int) + 1) = ((j + 1 : Nat) : Int) := by
          rw [wrap32_of_inInt (by omega) (by omega)]; push_cast; ring
        rw [hw] at h ⊢
        rw [Nat.add_sub_add_right]
        exact ih (j + 1) f1 g st1 stM (by omega) h (by omega)

/-- The loop of `main` over `k = 1..N` passes through the state `inner_state ... j` for
every `j <= N`: running the full loop is the same as running it from `k = j + 1` on that
state. -/
theorem inner_loop_through_state (n a av vmax : Int) (j N fuel : Nat) (hjN : j ≤ N)
    (hN : N ≤ 2147483646) (hf : j < fuel) (st0 stj : Inner) (h0 : inner_init n a av = some st0)
    (hj : inner_state n a av vmax j = some stj) :
    inner_loop fuel a av vmax (N : Int) 1 st0 =
      inner_loop (fuel - j) a av vmax (N : Int) ((j + 1 : Nat) : Int) stj := by
  unfold inner_state at hj
  rw [h0] at hj
  exact inner_loop_split a av vmax j N hjN hN j 1 (j + 1) fuel st0 stj (by omega) hj hf

theorem inner_state_spec (p : Nat) (hp : p.Prime) (n : Int) (vm j : Nat) (hvm1 : 1 ≤ vm)
    (hav : (p : Int) ^ vm ≤ 1073741824) (hn1 : 1 ≤ n) (hnM : n ≤ 2147483647)
    (hn : p = 2 → n ≤ 1000000000) (hj : 3 * (3 * j - 1) ≤ 2147483647) :
    ∃ st, inner_state n (p : Int) ((p : Int) ^ vm) (vm : Int) j = some st ∧
      InnerInv p n vm j st ∧ (25 * j ≤ 2147483647 → 0 ≤ st.s ∧ st.s < (p : Int) ^ vm) := by
  obtain ⟨st, e, I, q, _⟩ := prime_sum_spec p hp n vm j hvm1 (by omega) (fun _ => hav)
    hn1 hnM hn hj (fun i s => 25 * i ≤ 2147483647 → 0 ≤ s ∧ s < (p : Int) ^ vm)
    (fun _ => ⟨le_refl 0, by
      have := (pow_prime_bounds p hp vm hvm1).1
      omega⟩)
    (by
      intro i st1 s s1 _ _ hfold hq hi
      have hs := hq (by omega)
      by_cases hv : 0 < st1.v
      · obtain ⟨r, _, _, _, hr⟩ := hfold.2 hv
        have := hr hi hs.1 hs.2 hav
        exact ⟨this.1, this.2.1⟩
      · rw [hfold.1 (by omega)]
        exact hs)
  exact ⟨st, e, I, q⟩

theorem iteration_spec (p : Nat) (hp : p.Prime) (n : Int) (vm j : Nat) (hvm1 : 1 ≤ vm)
    (hav : (p : Int) ^ vm ≤ 1073741824) (hn1 : 1 ≤ n) (hnM : n ≤ 2147483647)
    (hn : p = 2 → n ≤ 1000000000) (hj : 3 * (3 * (j + 1) - 1) ≤ 2147483647) :
    ∃ st st1 st2, inner_state n (p : Int) ((p : Int) ^ vm) (vm : Int) j = some st ∧
      strip_step (p : Int) ((p : Int) ^ vm) ((j + 1 : Nat) : Int) st = some st1 ∧
      inner_step (p : Int) ((p : Int) ^ vm) (vm : Int) ((j + 1 : Nat) : Int) st = some st2 ∧
      inner_state n (p : Int) ((p : Int) ^ vm) (vm : Int) (j + 1) = some st2 ∧
      InnerInv p n vm j st ∧ InnerInv p n vm (j + 1) st1 ∧ InnerInv p n vm (j + 1) st2 ∧
      st2 = { st1 with s := st2.s } ∧ FoldRel p vm (j + 1) st1 st.s st2.s ∧
      (25 * j ≤ 2147483647 → 0 ≤ st.s ∧ st.s < (p : Int) ^ vm) := by
  obtain ⟨st, e, I, hs⟩ := inner_state_spec p hp n vm j hvm1 hav hn1 hnM hn (by omega)
  obtain ⟨st1, st2, e1, e2, I1, I2, h12, hfold⟩ := inner_step_spec p hp n vm j hvm1 (by omega)
    (fun _ => hav) (fun h => ⟨by omega, hn h⟩) hj st I
  refine ⟨st, st1, st2, e, e1, e2, ?_, I, I1, I2, h12, hfold, hs⟩
  obtain ⟨st0, e0, _, _⟩ := inner_init_spec p hp n vm hvm1 hn1 hnM
  have hthrough := inner_loop_through_state n (p : Int) ((p : Int) ^ vm) (vm : Int) j (j + 1)
    (j + 1 + 1) (by omega) (by omega) (by omega) st0 st e0 e
  have hfuel : j + 1 + 1 - j = 1 + 1 := by omega
  unfold inner_state
  rw [e0]
  show inner_loop (j + 1 + 1) (p : Int) ((p : Int) ^ vm) (vm : Int) ((j + 1 : Nat) : Int) 1 st0
    = some st2
  rw [hthrough, hfuel, inner_loop, if_pos (le_refl _), e2]
  show inner_loop 1 (p : Int) ((p : Int) ^ vm) (vm : Int) ((j + 1 : Nat) : Int)
    (wrap32 (((j + 1 : Nat) : Int) + 1)) st2 = some st2
  rw [inner_loop, if_neg]
  rw [wrap32_of_inInt (by omega) (by omega)]
  omega

theorem divn_calls (p : Nat) (hp : p.Prime) (hpM : p ≤ 2147483638) (j : Nat)
    (hk : 3 * (3 * (j + 1) - 1) ≤ 2147483647) (st : Inner)
    (h1 : PhaseInv p j st.kq1 (2 * (j : Int)))
    (h2 : PhaseInv p j st.kq2 (2 * (j : Int) - 1))
    (h3 : PhaseInv p j st.kq3 (3 * (3 * (j : Int) - 1)))
    (h4 : PhaseInv p j st.kq4 (3 * (j : Int) - 2))
    (hv1 : -1073741700 ≤ st.v) (hv2 : st.v ≤ 1073741700) :
    DIVN (wrap32 (2 * ((j + 1 : Nat) : Int))) (p : Int) st.v (-1) st.kq1 2 =
      some (((pfree p (2 * (j + 1)) : Nat) : Int),
        st.v + -1 * ((2 * (j + 1)).factorization p : Nat),
        ((2 * (j + 1) % p : Nat) : Int)) ∧
    DIVN (wrap32 (wrap32 (2 * ((j + 1 : Nat) : Int)) - 1)) (p : Int)
        (st.v + -1 * ((2 * (j + 1)).factorization p : Nat)) (-1) st.kq2 2 =
      some (((pfree p (2 * (j + 1) - 1) : Nat) : Int),
        st.v + -1 * ((2 * (j + 1)).factorization p : Nat)
          + -1 * ((2 * (j + 1) - 1).factorization p : Nat),
        (((2 * (j + 1) - 1) % p : Nat) : Int)) ∧
    DIVN (wrap32 (3 * wrap32 (wrap32 (3 * ((j + 1 : Nat) : Int)) - 1))) (p : Int)
        (st.v + -1 * ((2 * (j + 1)).factorization p : Nat)
          + -1 * ((2 * (j + 1) - 1).factorization p : Nat)) 1 st.kq3 9 =
      some (((pfree p (3 * (3 * (j + 1) - 1)) : Nat) : Int),
        st.v + -1 * ((2 * (j + 1)).factorization p : Nat)
          + -1 * ((2 * (j + 1) - 1).factorization p : Nat)
          + 1 * ((3 * (3 * (j + 1) - 1)).factorization p : Nat),
        (((3 * (3 * (j + 1) - 1)) % p : Nat) : Int)) ∧
    DIVN (wrap32 (wrap32 (3 * ((j + 1 : Nat) : Int)) - 2)) (p : Int)
        (st.v + -1 * ((2 * (j + 1)).factorization p : Nat)
          + -1 * ((2 * (j + 1) - 1).factorization p : Nat)
          + 1 * ((3 * (3 * (j + 1) - 1)).factorization p : Nat)) 1 st.kq4 3 =
      some (((pfree p (3 * (j + 1) - 2) : Nat) : Int),
        st.v + -1 * ((2 * (j + 1)).factorization p : Nat)
          + -1 * ((2 * (j + 1) - 1).factorization p : Nat)
          + 1 * ((3 * (3 * (j + 1) - 1)).factorization p : Nat)
          + 1 * ((3 * (j + 1) - 2).factorization p : Nat),
        (((3 * (j + 1) - 2) % p : Nat) : Int)) := by
  have hp2 := hp.two_le
  have e1 : wrap32 (2 * ((j + 1 : Nat) : Int)) = ((2 * (j + 1) : Nat) : Int) := by
    rw [wrap32_of_inInt (by omega) (by omega)]; push_cast; ring
  have e2 : wrap32 (((2 * (j + 1) : Nat) : Int) - 1) = ((2 * (j + 1) - 1 : Nat) : Int) := by
    rw [wrap32_of_inInt (by omega) (by omega)]; omega
  have e3a : wrap32 (3 * ((j + 1 : Nat) : Int)) = ((3 * (j + 1) : Nat) : Int) := by
    rw [wrap32_of_inInt (by omega) (by omega)]; push_cast; ring
  have e3b : wrap32 (((3 * (j + 1) : Nat) : Int) - 1) = ((3 * (j + 1) - 1 : Nat) : Int) := by
    rw [wrap32_of_inInt (by omega) (by omega)]; omega
  have e3 : wrap32 (3 * ((3 * (j + 1) - 1 : Nat) : Int)) =
      ((3 * (3 * (j + 1) - 1) : Nat) : Int) := by
    rw [wrap32_of_inInt (by omega) (by omega)]; push_cast; ring
  have e4 : wrap32 (((3 * (j + 1) : Nat) : Int) - 2) = ((3 * (j + 1) - 2 : Nat) : Int) := by
    rw [wrap32_of_inInt (by omega) (by omega)]; omega
  have b1 := phase_bounds p j hp2 _ _ 2 h1 (by omega) (by omega) (by intro h; omega)
  have b2 := phase_bounds p j hp2 _ _ 2 h2 (by omega) (by omega) (by intro h; omega)
  have b3 := phase_bounds p j hp2 _ _ 9 h3 (by omega) (by omega) (by intro h; omega)
  have b4 := phase_bounds p j hp2 _ _ 3 h4 (by omega) (by omega) (by intro h; omega)
  obtain ⟨d1, f1⟩ := DIVN_spec p hp (2 * (j + 1)) st.v (-1) st.kq1 2 (Or.inr rfl) (by omega)
    (by omega) b1.1 (by omega) (phase_sync p j _ _ 2 _ h1 (by push_cast; ring))
    (by omega) (by omega)
  obtain ⟨d2, f2⟩ := DIVN_spec p hp (2 * (j + 1) - 1)
    (st.v + -1 * ((2 * (j + 1)).factorization p : Nat)) (-1) st.kq2 2 (Or.inr rfl) (by omega)
    (by omega) b2.1 (by omega) (phase_sync p j _ _ 2 _ h2 (by omega))
    (by omega) (by omega)
  obtain ⟨d3, f3⟩ := DIVN_spec p hp (3 * (3 * (j + 1) - 1))
    (st.v + -1 * ((2 * (j + 1)).factorization p : Nat)
      + -1 * ((2 * (j + 1) - 1).factorization p : Nat)) 1 st.kq3 9 (Or.inl rfl) (by omega)
    (by omega) b3.1 (by omega) (phase_sync p j _ _ 9 _ h3 (by omega))
    (by omega) (by omega)
  obtain ⟨d4, f4⟩ := DIVN_spec p hp (3 * (j + 1) - 2)
    (st.v + -1 * ((2 * (j + 1)).factorization p : Nat)
      + -1 * ((2 * (j + 1) - 1).factorization p : Nat)
      + 1 * ((3 * (3 * (j + 1) - 1)).factorization p : Nat)) 1 st.kq4 3 (Or.inl rfl) (by omega)
    (by omega) b4.1 (by omega) (phase_sync p j _ _ 3 _ h4 (by omega))
    (by omega) (by omega)
  rw [e3a, e3b, e3, e4, e1, e2]
  exact ⟨d1, d2, d3, d4⟩

/-! ## Helper lemmas: the overflow of the third term -/

theorem tmod_neg_of_not_dvd (x av : Int) (hav : 0 < av) (hx : x < 0) (h3 : (3 : Int) ∣ av)
    (hnd : ¬ (3 : Int) ∣ x) : Int.tmod x av < 0 ∧ ¬ (3 : Int) ∣ Int.tmod x av := by
  have hnd2 : ¬ (3 : Int) ∣ Int.tmod x av := by
    intro h
    apply hnd
    have := Int.tmod_add_tdiv x av
    rw [← this]
    exact dvd_add h (Dvd.dvd.mul_right h3 _)
  refine ⟨?_, hnd2⟩
  have hb := (tmod_bounds x av hav).2.2.2 (by omega)
  rcases lt_or_eq_of_le hb with h | h
  · exact h
  · rw [h] at hnd2
    exact absurd (dvd_zero _) hnd2

set_option maxRecDepth 100000 in
theorem divn_overflow (v : Int) :
    DIVN (-2147483644) 3 v 1 0 9 = some (-715827881, wrap32 (v + 1), 0) := by
  unfold DIVN
  have hw : wrap32 (0 + 9) = 9 := by decide
  have hr : DIVN_reduce ((9 : Int).natAbs + 1) 3 9 = some 0 := by decide
  have hf : (-2147483644 : Int).natAbs + 1 = 2147483644 + 1 := by decide
  rw [hw, if_pos (by decide), hr]
  simp only
  rw [if_pos trivial, hf, DIVN_strip, if_neg (by decide), if_neg (by decide)]
  have ht : Int.tdiv (-2147483644) 3 = -715827881 := by decide
  rw [ht]

theorem three_dvd_choose_of (m k : Nat) (hm : m % 3 = 0) (hk : k % 3 = 2) :
    3 ∣ Nat.choose m k := by
  haveI : Fact (Nat.Prime 3) := ⟨Nat.prime_three⟩
  have h := Choose.choose_modEq_choose_mod_mul_choose_div_nat (n := m) (k := k) (p := 3)
  rw [hm, hk] at h
  have h3 : Nat.choose 0 2 = 0 := by decide
  rw [h3, zero_mul] at h
  exact (Nat.modEq_zero_iff_dvd).1 h

theorem three_dvd_choose : 3 ∣ Nat.choose (3 * 238609295) 238609295 :=
  three_dvd_choose_of _ _ (by norm_num) (by norm_num)

set_option maxRecDepth 100000 in
theorem overflow_iteration (n : Int) (hn1 : 1 ≤ n) (hnM : n ≤ 2147483647) :
    ∃ st st1, inner_state n 3 387420489 18 238609294 = some st ∧ st.kq3 = 0 ∧
      strip_step 3 387420489 238609295 st = some st1 ∧ 0 < st1.v ∧ st1.den < 0 := by
  have hp3 : Nat.Prime 3 := Nat.prime_three
  obtain ⟨st, e, I, _⟩ := inner_state_spec 3 hp3 n 18 238609294 (by norm_num) (by norm_num)
    hn1 hnM (by intro h; exact absurd h (by decide)) (by norm_num)
  have hav : ((3 : Nat) : Int) ^ 18 = 387420489 := by norm_num
  rw [hav] at e
  have hvb := inner_v_bounds 3 hp3 n 18 238609294 st (by intro h; exact absurd h (by decide))
    (by norm_num) I
  obtain ⟨hden1, hden2, hg⟩ := inner_den_coprime 3 hp3 n 18 238609294 (by norm_num) st I
  rw [hav] at hden2 hg
  have hnum0 : 0 ≤ st.num := by
    rw [I.num]; exact Int.emod_nonneg _ (by norm_num)
  have k1 : st.kq1 = 2 := by
    rcases I.kq1 with h | ⟨h0, _⟩
    · rw [h]; norm_num
    · exact absurd h0 (by decide)
  have k2 : st.kq2 = 1 := by
    rcases I.kq2 with h | ⟨h0, _⟩
    · rw [h]; norm_num
    · exact absurd h0 (by decide)
  have k3 : st.kq3 = 0 := by
    rcases I.kq3 with h | ⟨h0, _⟩
    · rw [h]; norm_num
    · exact absurd h0 (by decide)
  have k4 : st.kq4 = 1 := by
    rcases I.kq4 with h | ⟨h0, _⟩
    · rw [h]; norm_num
    · exact absurd h0 (by decide)
  obtain ⟨d1, f1⟩ := DIVN_spec 3 hp3 477218590 st.v (-1) 2 2 (Or.inr rfl) (by norm_num)
    (by norm_num) (by norm_num) (by norm_num) (by norm_num) (by omega) (by omega)
  obtain ⟨d2, f2⟩ := DIVN_spec 3 hp3 477218589
    (st.v + -1 * ((477218590 : Nat).factorization 3 : Nat)) (-1) 1 2 (Or.inr rfl) (by norm_num)
    (by norm_num) (by norm_num) (by norm_num) (by norm_num) (by omega) (by omega)
  obtain ⟨d4, f4⟩ := DIVN_spec 3 hp3 715827883
    (wrap32 (st.v + -1 * ((477218590 : Nat).factorization 3 : Nat)
      + -1 * ((477218589 : Nat).factorization 3 : Nat) + 1)) 1 1 3 (Or.inl rfl) (by norm_num)
    (by norm_num) (by norm_num) (by norm_num) (by norm_num)
    (by rw [wrap32_of_inInt (by omega) (by omega)]; omega)
    (by rw [wrap32_of_inInt (by omega) (by omega)]; omega)
  have w1 : wrap32 (2 * 238609295) = ((477218590 : Nat) : Int) := by decide
  have w2 : wrap32 (((477218590 : Nat) : Int) - 1) = ((477218589 : Nat) : Int) := by decide
  have w3 : wrap32 (3 * wrap32 (wrap32 (3 * 238609295) - 1)) = -2147483644 := by decide
  have w4 : wrap32 (wrap32 (3 * 238609295) - 2) = ((715827883 : Nat) : Int) := by decide
  have c3 : ((3 : Nat) : Int) = 3 := rfl
  rw [c3] at d1 d2 d4
  have hstep : ∃ st1, strip_step 3 387420489 238609295 st = some st1 ∧
      st1.v = wrap32 (st.v + -1 * ((477218590 : Nat).factorization 3 : Nat)
        + -1 * ((477218589 : Nat).factorization 3 : Nat) + 1)
        + 1 * ((715827883 : Nat).factorization 3 : Nat) ∧
      st1.den = Int.tmod (Int.tmod (st.den * -715827881) 387420489
        * wrap32 (((715827883 / 3 ^ (715827883 : Nat).factorization 3 : Nat) : Int) * 2))
        387420489 := by
    have mm : ∀ a b : Int, mul_mod a b 387420489 = some (Int.tmod (a * b) 387420489) := by
      intro a b
      unfold mul_mod
      rw [if_neg (by norm_num)]
    have h32 : (3 : Int) ≠ 2 := by norm_num
    unfold strip_step
    rw [w1, k1, d1]
    simp only
    rw [mm]
    simp only
    rw [w2, k2, d2]
    simp only
    rw [mm]
    simp only
    rw [w3, k3, divn_overflow]
    simp only
    rw [mm]
    simp only
    rw [w4, k4, d4]
    simp only
    rw [mm]
    simp only
    rw [if_pos h32, if_pos h32]
    exact ⟨_, rfl, rfl, rfl⟩
  obtain ⟨st1, es, hv, hd⟩ := hstep
  refine ⟨st, st1, e, k3, es, ?_, ?_⟩
  · -- the exponent is the valuation of the binomial coefficient, which 3 divides
    have hsucc := choose_factorization_succ 3 238609294
    have hf3 : (3 * (3 * (238609294 + 1) - 1)).factorization 3 = 1 := by
      have := factorization_mul_prime 3 715827884 hp3 (by norm_num)
      rw [show 3 * (3 * (238609294 + 1) - 1) = 3 * 715827884 by norm_num, this,
        Nat.factorization_eq_zero_of_not_dvd (by norm_num)]
    rw [hf3] at hsucc
    have hpos : 0 < (Nat.choose (3 * 238609295) 238609295).factorization 3 :=
      hp3.factorization_pos_of_dvd (Nat.choose_pos (by norm_num)).ne' three_dvd_choose
    have hIv := I.v
    rw [if_neg (by decide)] at hIv
    have ha : 3 * (238609294 + 1) = 3 * 238609295 := by norm_num
    have hb : 2 * (238609294 + 1) = 477218590 := by norm_num
    have hc : 2 * (238609294 + 1) - 1 = 477218589 := by norm_num
    have hd' : 3 * (238609294 + 1) - 2 = 715827883 := by norm_num
    have he : 238609294 + 1 = 238609295 := by norm_num
    rw [ha, hb, hc, hd', he] at hsucc
    rw [hv, wrap32_of_inInt (by omega) (by omega)]
    omega
  · rw [hd]
    have hfree4 := pfree_not_dvd 3 715827883 hp3 (by norm_num)
    have hpos4 := pfree_pos 3 715827883 (by norm_num)
    have hle4 : pfree 3 715827883 ≤ 715827883 := Nat.div_le_self _ _
    unfold pfree at hfree4 hpos4 hle4
    generalize 715827883 / 3 ^ (715827883 : Nat).factorization 3 = q4 at hfree4 hpos4 hle4 ⊢
    rw [wrap32_of_inInt (by omega) (by omega)]
    have hden3 : ¬ (3 : Int) ∣ st.den := by
      intro h
      have hcop : IsCoprime st.den ((3 : Int) ^ 18) := by
        rw [← Int.gcd_eq_one_iff_coprime]; norm_num; exact hg
      have := (IsCoprime.pow_right_iff (by norm_num : 0 < 18)).1 hcop
      exact absurd (this.isUnit_of_dvd' h (dvd_refl _)) (by decide)
    have hq4 : ¬ (3 : Int) ∣ ((q4 : Int) * 2) := by
      intro h
      have h3 : Prime (3 : Int) := Int.prime_three
      rcases h3.dvd_or_dvd h with h' | h'
      · exact hfree4 (by exact_mod_cast h')
      · exact absurd h' (by decide)
    have hprod1 : ¬ (3 : Int) ∣ st.den * -715827881 := by
      intro h
      rcases Int.prime_three.dvd_or_dvd h with h' | h'
      · exact hden3 h'
      · exact absurd h' (by decide)
    have hlt1 : st.den * -715827881 < 0 := by nlinarith
    obtain ⟨hneg1, hnd1⟩ := tmod_neg_of_not_dvd _ 387420489 (by norm_num) hlt1 (by decide) hprod1
    have hprod2 : ¬ (3 : Int) ∣ Int.tmod (st.den * -715827881) 387420489 * ((q4 : Int) * 2) := by
      intro h
      rcases Int.prime_three.dvd_or_dvd h with h' | h'
      · exact hnd1 h'
      · exact hq4 h'
    have hlt2 : Int.tmod (st.den * -715827881) 387420489 * ((q4 : Int) * 2) < 0 := by
      have : (0 : Int) < (q4 : Int) * 2 := by omega
      exact mul_neg_of_neg_of_pos hneg1 this
    exact (tmod_neg_of_not_dvd _ 387420489 (by norm_num) hlt2 (by decide) hprod2).1

/-! ## Helper lemmas: the return of the whole run -/

theorem prime_pass_total (p N : Nat) (n : Int) (hp : p.Prime) (hple : p ≤ 3 * N)
    (hNM : 3 * (3 * N - 1) ≤ 2147483647) (hn1 : 1 ≤ n) (hnM : n ≤ 2147483647)
    (h2 : 3 * N * 2 ^ N < 2 ^ (n.toNat + 31)) (sum : Frac) :
    ∃ sum1, prime_pass exactOps n (N : Int) (p : Int) sum = some sum1 := by
  by_cases hrun : (p : Int) = 2 ∧ vmax_of exactOps n (N : Int) (p : Int) ≤ 0
  · exact ⟨sum, prime_pass_skip _ _ _ _ _ hrun⟩
  · obtain ⟨vm, hvm, hvm1, hav, hn, _, _⟩ := vmax_facts p N n hp hple (by omega) hn1 hnM h2 hrun
    obtain ⟨stN, _, _, _, e⟩ := prime_pass_run p N n vm hp hNM hn1 hnM hrun hvm hvm1 hav hn sum
      (fun _ _ => True) trivial (fun _ _ _ _ _ _ _ _ => trivial)
    exact ⟨_, e⟩

theorem sweep_exact_total (N : Nat) (n : Int) (hN : 1 ≤ N)
    (hNM : 3 * (3 * N - 1) ≤ 2147483647) (hn1 : 1 ≤ n) (hnM : n ≤ 2147483647)
    (h2 : 3 * N * 2 ^ N < 2 ^ (n.toNat + 31)) (sum : Frac) :
    ∃ (sumF : Frac) (pF : Nat), sweep exactOps n (N : Int) ((wrap32 (3 * (N : Int))).toNat + 1) 2
      sum = some (sumF, (pF : Int)) := by
  have hw : wrap32 (3 * (N : Int)) = 3 * (N : Int) := wrap32_of_inInt (by omega) (by omega)
  obtain ⟨sumF, pF, e, _⟩ := sweep_total exactOps n (N : Int) (by omega) (by omega)
    (fun _ _ => True)
    (fun p sum hp hple _ => by
      obtain ⟨sum1, e⟩ := prime_pass_total p N n hp (by omega) hNM hn1 hnM h2 sum
      exact ⟨sum1, e, fun _ _ _ _ => trivial⟩)
    ((wrap32 (3 * (N : Int))).toNat + 1) 2 sum Nat.prime_two (by omega)
    (fun _ => by rw [hw]; push_cast; omega) trivial
  exact ⟨sumF, pF, e⟩

/-! ## Helper lemmas: integrality at a prime -/

theorem pint_int (p : Nat) (hp : p.Prime) (z : Int) : PInt p (z : Rat) :=
  ⟨1, z, hp.not_dvd_one, by simp⟩

theorem pint_zero (p : Nat) (hp : p.Prime) : PInt p 0 :=
  ⟨1, 0, hp.not_dvd_one, by simp⟩

theorem pint_add (p : Nat) (hp : p.Prime) (x y : Rat) (hx : PInt p x) (hy : PInt p y) :
    PInt p (x + y) := by
  obtain ⟨b1, a1, h1, e1⟩ := hx
  obtain ⟨b2, a2, h2, e2⟩ := hy
  refine ⟨b1 * b2, a1 * b2 + a2 * b1, ?_, ?_⟩
  · intro h
    rcases (Nat.Prime.dvd_mul hp).1 h with h | h
    · exact h1 h
    · exact h2 h
  · push_cast
    rw [← e1, ← e2]
    ring

theorem pint_neg (p : Nat) (x : Rat) (hx : PInt p x) : PInt p (-x) := by
  obtain ⟨b1, a1, h1, e1⟩ := hx
  refine ⟨b1, -a1, h1, ?_⟩
  push_cast
  rw [← e1]
  ring

theorem pint_sub (p : Nat) (hp : p.Prime) (x y : Rat) (hx : PInt p x) (hy : PInt p y) :
    PInt p (x - y) := by
  rw [sub_eq_add_neg]
  exact pint_add p hp _ _ hx (pint_neg p y hy)

theorem pint_mul (p : Nat) (hp : p.Prime) (x y : Rat) (hx : PInt p x) (hy : PInt p y) :
    PInt p (x * y) := by
  obtain ⟨b1, a1, h1, e1⟩ := hx
  obtain ⟨b2, a2, h2, e2⟩ := hy
  refine ⟨b1 * b2, a1 * a2, ?_, ?_⟩
  · intro h
    rcases (Nat.Prime.dvd_mul hp).1 h with h | h
    · exact h1 h
    · exact h2 h
  · push_cast
    rw [← e1, ← e2]
    ring

/-- A rational that is integral at every prime is an integer. -/
theorem int_of_pint (x : Rat) (h : ∀ p : Nat, p.Prime → PInt p x) : ∃ z : Int, x = (z : Rat) := by
  have hden : x.den = 1 := by
    by_contra hne
    obtain ⟨p, hp, hpd⟩ := Nat.exists_prime_and_dvd hne
    obtain ⟨b, a, hb, e⟩ := h p hp
    apply hb
    -- x.num * b = a * x.den
    have hx : (x.num : Rat) / (x.den : Rat) = x := Rat.num_div_den x
    have hd0 : (x.den : Rat) ≠ 0 := by exact_mod_cast x.den_nz
    have e1 : (x.num : Rat) / (x.den : Rat) * (b : Rat) = (a : Rat) := by
      rw [hx]; exact e
    have e2 : (x.num : Rat) * (b : Rat) = (a : Rat) * (x.den : Rat) := by
      field_simp at e1
      exact e1
    have e3 : x.num * (b : Int) = a * (x.den : Int) := by exact_mod_cast e2
    have hdvd : (x.den : Int) ∣ x.num * (b : Int) := ⟨a, by rw [e3]; ring⟩
    have hcop : IsCoprime (x.den : Int) x.num := by
      have := x.reduced
      rw [Nat.Coprime] at this
      have h2 : Int.gcd x.num (x.den : Int) = 1 := by
        show Nat.gcd x.num.natAbs (x.den : Int).natAbs = 1
        rw [Int.natAbs_ofNat]
        exact this
      exact (Int.gcd_eq_one_iff_coprime.1 h2).symm
    have hdb : (x.den : Int) ∣ (b : Int) := hcop.dvd_of_dvd_mul_left hdvd
    have hdb2 : x.den ∣ b := by exact_mod_cast hdb
    exact dvd_trans hpd hdb2
  refine ⟨x.num, ?_⟩
  have hx : (x.num : Rat) / (x.den : Rat) = x := Rat.num_div_den x
  rw [hden] at hx
  simpa using hx.symm

theorem pint_div_pow (p q : Nat) (hp : p.Prime) (hq : q.Prime) (hne : p ≠ q) (s : Int)
    (e : Nat) : PInt p ((s : Rat) / ((q : Rat) ^ e)) := by
  refine ⟨q ^ e, s, ?_, ?_⟩
  · intro h
    have := hp.dvd_of_dvd_pow h
    exact hne ((Nat.prime_dvd_prime_iff_eq hp hq).1 this)
  · have hq0 : (q : Rat) ≠ 0 := by exact_mod_cast hq.pos.ne'
    push_cast
    field_simp

/-! ## Helper lemmas: the terms of the series -/

theorem choose_mul_pfree (p k : Nat) :
    Nat.choose (3 * k) k * pfree p (numProd k) =
      pfree p (denProd k) * p ^ (Nat.choose (3 * k) k).factorization p := by
  have h1 : pfree p (denProd k) = pfree p (Nat.choose (3 * k) k) * pfree p (numProd k) := by
    rw [denProd_eq_choose_mul, pfree_mul]
  have h2 : p ^ (Nat.choose (3 * k) k).factorization p * pfree p (Nat.choose (3 * k) k)
      = Nat.choose (3 * k) k := Nat.ordProj_mul_ordCompl_eq_self _ p
  rw [h1]
  nth_rewrite 1 [← h2]
  ring

theorem term_mul (p k : Nat) (n : Int) :
    scaledTerm n k * ((pfree p (denProd k) : Rat)
        * (p : Rat) ^ (Nat.choose (3 * k) k).factorization p * 2 ^ k) =
      (2 : Rat) ^ n.toNat * (25 * (k : Rat) - 3) * (pfree p (numProd k) : Rat) := by
  have hC : (Nat.choose (3 * k) k : Rat) ≠ 0 := by
    have : 0 < Nat.choose (3 * k) k := Nat.choose_pos (by omega)
    exact_mod_cast this.ne'
  have h := choose_mul_pfree p k
  have hq : (Nat.choose (3 * k) k : Rat) * (pfree p (numProd k) : Rat) =
      (pfree p (denProd k) : Rat) * (p : Rat) ^ (Nat.choose (3 * k) k).factorization p := by
    exact_mod_cast h
  unfold scaledTerm
  rw [← hq]
  field_simp
  ring

theorem term_pos_exp (p k : Nat) (n : Int) (hn : 0 ≤ n) (hv : 0 < termExp p n k) :
    scaledTerm n k * (termDen p k : Rat) * (p : Rat) ^ (termExp p n k).toNat =
      (termNum p n k : Rat) * (25 * (k : Rat) - 3) := by
  have key := term_mul p k n
  unfold termExp at hv ⊢
  unfold termDen termNum
  by_cases h2 : p = 2
  · subst h2
    simp only [if_true] at hv ⊢
    obtain ⟨nn, rfl⟩ : ∃ nn : Nat, n = (nn : Int) := ⟨n.toNat, by omega⟩
    simp only [Int.toNat_ofNat] at key
    obtain ⟨m, hm⟩ : ∃ m : Nat, (k : Int) - nn + ((Nat.choose (3 * k) k).factorization 2 : Nat)
        = (m : Int) := ⟨_, (Int.toNat_of_nonneg (by omega)).symm⟩
    rw [hm]
    simp only [Int.toNat_ofNat]
    have hsum : m + nn = (Nat.choose (3 * k) k).factorization 2 + k := by omega
    have hpow : (2 : Rat) ^ m * 2 ^ nn = 2 ^ (Nat.choose (3 * k) k).factorization 2 * 2 ^ k := by
      rw [← pow_add, ← pow_add, hsum]
    have h0 : (2 : Rat) ^ nn ≠ 0 := by positivity
    apply mul_right_cancel₀ h0
    push_cast at key ⊢
    linear_combination key + (scaledTerm (nn : Int) k * (pfree 2 (denProd k) : Rat)) * hpow
  · simp only [if_neg h2] at hv ⊢
    rw [zero_add] at hv ⊢
    simp only [Int.toNat_ofNat]
    push_cast
    linear_combination key

theorem term_nonpos_exp (p k : Nat) (n : Int) (hn : 0 ≤ n) (hv : termExp p n k ≤ 0) :
    scaledTerm n k * (termDen p k : Rat) =
      (termNum p n k : Rat) * (25 * (k : Rat) - 3) * (p : Rat) ^ (-termExp p n k).toNat := by
  have key := term_mul p k n
  unfold termExp at hv ⊢
  unfold termDen termNum
  by_cases h2 : p = 2
  · subst h2
    simp only [if_true] at hv ⊢
    obtain ⟨nn, rfl⟩ : ∃ nn : Nat, n = (nn : Int) := ⟨n.toNat, by omega⟩
    simp only [Int.toNat_ofNat] at key
    obtain ⟨m, hm⟩ : ∃ m : Nat, -((k : Int) - nn + ((Nat.choose (3 * k) k).factorization 2 : Nat))
        = (m : Int) := ⟨_, (Int.toNat_of_nonneg (by omega)).symm⟩
    rw [hm]
    simp only [Int.toNat_ofNat]
    have hsum : nn = (Nat.choose (3 * k) k).factorization 2 + k + m := by omega
    have hpow : (2 : Rat) ^ nn = 2 ^ (Nat.choose (3 * k) k).factorization 2 * 2 ^ k * 2 ^ m := by
      rw [← pow_add, ← pow_add, ← hsum]
    have h0 : (2 : Rat) ^ (Nat.choose (3 * k) k).factorization 2 * 2 ^ k ≠ 0 := by positivity
    apply mul_right_cancel₀ h0
    push_cast at key ⊢
    linear_combination key + ((25 * (k : Rat) - 3) * (pfree 2 (numProd k) : Rat)) * hpow
  · simp only [if_neg h2] at hv ⊢
    rw [zero_add] at hv ⊢
    have he : (Nat.choose (3 * k) k).factorization p = 0 := by omega
    rw [he] at key ⊢
    simp only [Nat.cast_zero, neg_zero, Int.toNat_zero, pow_zero, mul_one] at key ⊢
    push_cast
    linear_combination key

theorem termDen_not_dvd (p k : Nat) (hp : p.Prime) : ¬ p ∣ termDen p k := by
  unfold termDen
  intro h
  rcases (Nat.Prime.dvd_mul hp).1 h with h | h
  · exact pfree_not_dvd p _ hp (denProd_pos k) h
  · by_cases h2 : p = 2
    · rw [if_pos h2] at h
      exact hp.not_dvd_one h
    · rw [if_neg h2] at h
      have := hp.dvd_of_dvd_pow h
      exact h2 ((Nat.prime_dvd_prime_iff_eq hp Nat.prime_two).1 this)

/-- A term whose exponent is not positive is integral at `p`. -/
theorem term_pint_of_nonpos (p k : Nat) (n : Int) (hp : p.Prime) (hn : 0 ≤ n)
    (hv : termExp p n k ≤ 0) : PInt p (scaledTerm n k) := by
  refine ⟨termDen p k, termNum p n k * (25 * (k : Int) - 3)
    * (p : Int) ^ (-termExp p n k).toNat, termDen_not_dvd p k hp, ?_⟩
  rw [term_nonpos_exp p k n hn hv]
  push_cast
  ring

theorem pint_fold (p : Nat) (hp : p.Prime) (u vm : Nat) (hu : u ≤ vm) (G num den r w : Int)
    (H : Nat) (X : Rat) (hH : ¬ p ∣ H)
    (hX : X * (H : Rat) * (p : Rat) ^ u = (G : Rat) * (w : Rat))
    (hnum : num ≡ G [ZMOD (p : Int) ^ vm]) (hden : den ≡ (H : Int) [ZMOD (p : Int) ^ vm])
    (hr : (den * r) % (p : Int) ^ vm = 1) :
    PInt p (X - ((r * num * (p : Int) ^ (vm - u) * w : Int) : Rat) / (p : Rat) ^ vm) := by
  have hp0 : (p : Rat) ≠ 0 := by exact_mod_cast hp.pos.ne'
  have hav2 : (2 : Int) ≤ (p : Int) ^ vm := by
    by_contra hcon
    have h0 : (0 : Int) < (p : Int) ^ vm := by
      have := hp.pos
      positivity
    have h1 : (p : Int) ^ vm = 1 := by omega
    rw [h1] at hr
    simp at hr
  have hr1 : den * r ≡ 1 [ZMOD (p : Int) ^ vm] := by
    have : (1 : Int) % (p : Int) ^ vm = 1 := Int.emod_eq_of_lt (by omega) (by omega)
    unfold Int.ModEq
    rw [hr, this]
  have hcong : r * num * (H : Int) ≡ G [ZMOD (p : Int) ^ vm] := by
    calc r * num * (H : Int) ≡ r * G * den [ZMOD (p : Int) ^ vm] :=
          Int.ModEq.mul (Int.ModEq.mul (Int.ModEq.refl r) hnum) hden.symm
      _ = G * (den * r) := by ring
      _ ≡ G * 1 [ZMOD (p : Int) ^ vm] := Int.ModEq.mul (Int.ModEq.refl G) hr1
      _ = G := by ring
  have hdvd : (p : Int) ^ vm ∣ G - r * num * (H : Int) := hcong.dvd
  have hdvd2 : (p : Int) ^ u ∣ G - r * num * (H : Int) :=
    dvd_trans (pow_dvd_pow (p : Int) hu) hdvd
  obtain ⟨m, hm⟩ := hdvd2
  have hmq : (G : Rat) - r * num * (H : Rat) = (p : Rat) ^ u * m := by exact_mod_cast hm
  refine ⟨H, m * w, hH, ?_⟩
  have hpu : (p : Rat) ^ u ≠ 0 := pow_ne_zero _ hp0
  have hpe : (p : Rat) ^ (vm - u) ≠ 0 := pow_ne_zero _ hp0
  have hsplit : (p : Rat) ^ vm = (p : Rat) ^ (vm - u) * (p : Rat) ^ u := by
    rw [← pow_add, Nat.sub_add_cancel hu]
  apply mul_right_cancel₀ hpu
  rw [hsplit]
  push_cast
  have e1 : (X - (r : Rat) * num * (p : Rat) ^ (vm - u) * w
        / ((p : Rat) ^ (vm - u) * (p : Rat) ^ u)) * (H : Rat) * (p : Rat) ^ u
      = X * (H : Rat) * (p : Rat) ^ u - (r : Rat) * num * w * H := by
    field_simp
    ring
  rw [e1, hX]
  linear_combination (w : Rat) * hmq

/-- The invariant of `s` in the `k` loop for the prime `p`: `s` is reduced and the part of
the sum of the first `j` terms that is not integral at `p` is `s / av`. -/
theorem fold_step_pint (p : Nat) (hp : p.Prime) (n : Int) (vm N : Nat)
    (hav : (p : Int) ^ vm ≤ 1073741824) (hn : 0 ≤ n) (hN : 25 * N ≤ 2147483647)
    (hle : ∀ k : Nat, k ≤ N → termExp p n k ≤ (vm : Int))
    (j : Nat) (st1 : Inner) (s s1 : Int) (hj : j < N) (I : InnerInv p n vm (j + 1) st1)
    (hfold : FoldRel p vm (j + 1) st1 s s1)
    (hq : 0 ≤ s ∧ s < (p : Int) ^ vm ∧
      PInt p (scaledSum n j - (s : Rat) / ((p : Rat) ^ vm))) :
    0 ≤ s1 ∧ s1 < (p : Int) ^ vm ∧
      PInt p (scaledSum n (j + 1) - (s1 : Rat) / ((p : Rat) ^ vm)) := by
  obtain ⟨hs0, hs1, hpint⟩ := hq
  have hp0 : (p : Rat) ≠ 0 := by exact_mod_cast hp.pos.ne'
  have hpv : (p : Rat) ^ vm ≠ 0 := pow_ne_zero _ hp0
  have hv : st1.v = termExp p n (j + 1) := I.v
  by_cases hpos : 0 < st1.v
  · obtain ⟨r, _, _, hr, hrest⟩ := hfold.2 hpos
    obtain ⟨h1, h2, hcong⟩ := hrest (by omega) hs0 hs1 hav
    refine ⟨h1, h2, ?_⟩
    have hvle := hle (j + 1) (by omega)
    obtain ⟨u, hu⟩ : ∃ u : Nat, st1.v = (u : Int) := ⟨st1.v.toNat, by omega⟩
    have hexp : ((vm : Int) - st1.v).toNat = vm - u := by omega
    rw [hexp] at hcong
    have hX := term_pos_exp p (j + 1) n hn (by rw [← hv]; exact hpos)
    rw [← hv, hu] at hX
    simp only [Int.toNat_ofNat] at hX
    have hnum : st1.num ≡ termNum p n (j + 1) [ZMOD (p : Int) ^ vm] := by
      rw [I.num]
      exact Int.mod_modEq _ _
    have hden : st1.den ≡ ((termDen p (j + 1) : Nat) : Int) [ZMOD (p : Int) ^ vm] := by
      rw [I.den]
      have : ((termDen p (j + 1) : Nat) : Int) =
          ((pfree p (denProd (j + 1)) : Nat) : Int) * (if p = 2 then 1 else 2 ^ (j + 1) : Int) := by
        unfold termDen
        split_ifs <;> push_cast <;> ring
      rw [this]
      exact Int.mod_modEq _ _
    have hterm := pint_fold p hp u vm (by omega) (termNum p n (j + 1)) st1.num st1.den r
      (25 * ((j + 1 : Nat) : Int) - 3) (termDen p (j + 1)) (scaledTerm n (j + 1))
      (termDen_not_dvd p (j + 1) hp) (by rw [hX]; push_cast; ring) hnum hden hr
    obtain ⟨z, hz⟩ := hcong.dvd
    have hzq : ((s : Rat) + ((r * st1.num * (p : Int) ^ (vm - u)
        * (25 * ((j + 1 : Nat) : Int) - 3) : Int) : Rat)) - (s1 : Rat) = (p : Rat) ^ vm * z := by
      exact_mod_cast hz
    have hsum : scaledSum n (j + 1) - (s1 : Rat) / ((p : Rat) ^ vm) =
        (scaledSum n j - (s : Rat) / ((p : Rat) ^ vm))
        + (scaledTerm n (j + 1) - ((r * st1.num * (p : Int) ^ (vm - u)
            * (25 * ((j + 1 : Nat) : Int) - 3) : Int) : Rat) / (p : Rat) ^ vm)
        + (z : Rat) := by
      rw [scaledSum]
      generalize ((r * st1.num * (p : Int) ^ (vm - u)
        * (25 * ((j + 1 : Nat) : Int) - 3) : Int) : Rat) = c at hzq ⊢
      have hs1q : (s1 : Rat) = (s : Rat) + c - (p : Rat) ^ vm * z := by linarith
      rw [hs1q]
      field_simp
      ring
    rw [hsum]
    exact pint_add p hp _ _ (pint_add p hp _ _ hpint hterm) (pint_int p hp z)
  · have hs : s1 = s := hfold.1 (by omega)
    subst hs
    refine ⟨hs0, hs1, ?_⟩
    have hterm := term_pint_of_nonpos p (j + 1) n hp hn (by rw [← hv]; omega)
    have hsum : scaledSum n (j + 1) - (s1 : Rat) / ((p : Rat) ^ vm) =
        (scaledSum n j - (s1 : Rat) / ((p : Rat) ^ vm)) + scaledTerm n (j + 1) := by
      rw [scaledSum]
      ring
    rw [hsum]
    exact pint_add p hp _ _ hpint hterm

/-! ## Helper lemmas: the sum over the primes -/

theorem termExp_le_log (p : Nat) (n : Int) (k N : Nat) (hk : k ≤ N) :
    termExp p n k ≤ (if p = 2 then (N : Int) - n else 0) + (Nat.log p (3 * N) : Nat) := by
  have hle : (Nat.choose (3 * k) k).factorization p ≤ Nat.log p (3 * N) :=
    le_trans Nat.factorization_choose_le_log (Nat.log_mono_right (by omega))
  unfold termExp
  split_ifs <;> omega

theorem scaledSum_pint (p : Nat) (hp : p.Prime) (n : Int) (hn : 0 ≤ n) :
    ∀ N : Nat, (∀ k : Nat, k ≤ N → termExp p n k ≤ 0) → PInt p (scaledSum n N) := by
  intro N
  induction N with
  | zero => intro _; exact pint_zero p hp
  | succ N ih =>
    intro h
    rw [scaledSum]
    exact pint_add p hp _ _ (ih (fun k hk => h k (by omega)))
      (term_pint_of_nonpos p (N + 1) n hp hn (h (N + 1) (le_refl _)))

theorem frac_pass (sum : Frac) (s av : Int) (h0 : 0 ≤ sum.num) (hd : 0 < sum.den)
    (hs : 0 ≤ s) (hav : 0 < av) :
    0 ≤ (fmod1 (sum.addQuot s av)).num ∧
      (fmod1 (sum.addQuot s av)).num < (fmod1 (sum.addQuot s av)).den ∧
      ∃ z : Int, (fmod1 (sum.addQuot s av)).toRat = sum.toRat + (s : Rat) / (av : Rat) - z := by
  have hden : 0 < sum.den * av := mul_pos hd hav
  have hnum : 0 ≤ sum.num * av + s * sum.den :=
    add_nonneg (mul_nonneg h0 hav.le) (mul_nonneg hs hd.le)
  unfold fmod1 Frac.addQuot Frac.toRat
  simp only
  rw [Int.tmod_eq_emod hnum hden.le]
  refine ⟨Int.emod_nonneg _ hden.ne', Int.emod_lt_of_pos _ hden, (sum.num * av + s * sum.den) / (sum.den * av), ?_⟩
  have hdq : (sum.den : Rat) ≠ 0 := by exact_mod_cast hd.ne'
  have haq : (av : Rat) ≠ 0 := by exact_mod_cast hav.ne'
  have hmod : (sum.num * av + s * sum.den) % (sum.den * av) =
      (sum.num * av + s * sum.den)
        - (sum.den * av) * ((sum.num * av + s * sum.den) / (sum.den * av)) := by
    have := Int.emod_add_ediv (sum.num * av + s * sum.den) (sum.den * av)
    omega
  rw [hmod]
  push_cast
  field_simp

/-- One pass of the prime loop, for the prime `p`: the new `sum` is the old one plus some
`delta`, up to an integer, where `delta` is integral at every other prime and differs from
`5^(n-1)` times the sum of the scaled terms by a rational that is integral at `p`. -/
theorem prime_pass_pint (p N : Nat) (n : Int) (hp : p.Prime) (hple : p ≤ 3 * N)
    (hNM : 25 * N ≤ 2147483647) (hn1 : 1 ≤ n) (hnM : n ≤ 2147483647)
    (h2 : 3 * N * 2 ^ N < 2 ^ (n.toNat + 31)) (sum : Frac) (h0 : 0 ≤ sum.num)
    (hd : sum.num < sum.den) :
    ∃ (sum1 : Frac) (delta : Rat) (z : Int),
      prime_pass exactOps n (N : Int) (p : Int) sum = some sum1 ∧
      0 ≤ sum1.num ∧ sum1.num < sum1.den ∧ sum1.toRat = sum.toRat + delta - z ∧
      PInt p ((5 : Rat) ^ (n - 1).toNat * scaledSum n N - delta) ∧
      ∀ l : Nat, l.Prime → l ≠ p → PInt l delta := by
  by_cases hrun : (p : Int) = 2 ∧ vmax_of exactOps n (N : Int) (p : Int) ≤ 0
  · refine ⟨sum, 0, 0, prime_pass_skip _ _ _ _ _ hrun, h0, hd, by simp, ?_,
      fun l hl _ => pint_zero l hl⟩
    have hp2 : p = 2 := by exact_mod_cast hrun.1
    have hv := vmax_of_exact p N n hp.two_le (by omega) (by omega) hn1 hnM
    rw [if_pos hp2] at hv
    have hvm := hrun.2
    rw [hv] at hvm
    rw [sub_zero]
    have h5 : PInt p ((5 : Rat) ^ (n - 1).toNat) := by
      have := pint_int p hp ((5 : Int) ^ (n - 1).toNat)
      simpa using this
    refine pint_mul p hp _ _ h5 (scaledSum_pint p hp n (by omega) N (fun k hk => ?_))
    have := termExp_le_log p n k N hk
    rw [if_pos hp2] at this
    subst hp2
    omega
  · obtain ⟨vm, hvm, hvm1, hav, hn, hodd, htwo⟩ := vmax_facts p N n hp hple (by omega) hn1 hnM
      h2 hrun
    have hle : ∀ k : Nat, k ≤ N → termExp p n k ≤ (vm : Int) := by
      intro k hk
      have := termExp_le_log p n k N hk
      by_cases hp2 : p = 2
      · rw [if_pos hp2] at this
        have h3 := htwo hp2
        subst hp2
        omega
      · rw [if_neg hp2] at this
        have h3 := hodd hp2
        omega
    obtain ⟨stN, _, _, ⟨hs0, hs1, hpint⟩, e⟩ := prime_pass_run p N n vm hp (by omega) hn1 hnM hrun
      hvm hvm1 hav hn sum
      (fun j s => 0 ≤ s ∧ s < (p : Int) ^ vm ∧
        PInt p (scaledSum n j - (s : Rat) / ((p : Rat) ^ vm)))
      ⟨le_refl 0, by
        have := (pow_prime_bounds p hp vm hvm1).1
        omega, by
        simp only [scaledSum, Int.cast_zero, zero_div, sub_zero]
        exact pint_zero p hp⟩
      (fun j st1 s s1 hj I hfold hq =>
        fold_step_pint p hp n vm N hav (by omega) hNM hle j st1 s s1 hj I hfold hq)
    have hav2 := (pow_prime_bounds p hp vm hvm1).1
    have hpos : (0 : Int) < (p : Int) ^ vm := by omega
    have h5nn : (0 : Int) ≤ 5 ^ (n - 1).toNat % (p : Int) ^ vm := Int.emod_nonneg _ hpos.ne'
    have htm : Int.tmod (stN.s * (5 ^ (n - 1).toNat % (p : Int) ^ vm)) ((p : Int) ^ vm) =
        (stN.s * 5 ^ (n - 1).toNat) % (p : Int) ^ vm := by
      rw [Int.tmod_eq_emod (mul_nonneg hs0 h5nn) hpos.le, Int.mul_emod, Int.emod_emod_of_dvd _
        (dvd_refl _), ← Int.mul_emod]
    rw [htm] at e
    have hsn : (0 : Int) ≤ (stN.s * 5 ^ (n - 1).toNat) % (p : Int) ^ vm :=
      Int.emod_nonneg _ hpos.ne'
    obtain ⟨f1, f2, z, f3⟩ := frac_pass sum _ ((p : Int) ^ vm) h0 (by omega) hsn hpos
    refine ⟨_, ((((stN.s * 5 ^ (n - 1).toNat) % (p : Int) ^ vm : Int) : Rat))
      / (((p : Int) ^ vm : Int) : Rat), z, e, f1, f2, f3, ?_, ?_⟩
    · -- integrality at `p`
      have hp0 : (p : Rat) ≠ 0 := by exact_mod_cast hp.pos.ne'
      have hpv : (p : Rat) ^ vm ≠ 0 := pow_ne_zero _ hp0
      have hmod : (stN.s * 5 ^ (n - 1).toNat) % (p : Int) ^ vm =
          stN.s * 5 ^ (n - 1).toNat
            - (p : Int) ^ vm * ((stN.s * 5 ^ (n - 1).toNat) / (p : Int) ^ vm) := by
        have := Int.emod_add_ediv (stN.s * 5 ^ (n - 1).toNat) ((p : Int) ^ vm)
        omega
      rw [hmod]
      have h5 : PInt p ((5 : Rat) ^ (n - 1).toNat) := by
        have := pint_int p hp ((5 : Int) ^ (n - 1).toNat)
        simpa using this
      have hsum : (5 : Rat) ^ (n - 1).toNat * scaledSum n N
          - (((stN.s * 5 ^ (n - 1).toNat
            - (p : Int) ^ vm * ((stN.s * 5 ^ (n - 1).toNat) / (p : Int) ^ vm) : Int)) : Rat)
            / (((p : Int) ^ vm : Int) : Rat)
          = (5 : Rat) ^ (n - 1).toNat * (scaledSum n N - (stN.s : Rat) / ((p : Rat) ^ vm))
            + (((stN.s * 5 ^ (n - 1).toNat) / (p : Int) ^ vm : Int) : Rat) := by
        generalize (stN.s * 5 ^ (n - 1).toNat) / (p : Int) ^ vm = q
        push_cast
        field_simp
        ring
      rw [hsum]
      exact pint_add p hp _ _ (pint_mul p hp _ _ h5 hpint) (pint_int p hp _)
    · intro l hl hne
      have := pint_div_pow l p hl hp hne ((stN.s * 5 ^ (n - 1).toNat) % (p : Int) ^ vm) vm
      push_cast at this ⊢
      exact this

theorem scaledSum_eq (n : Int) (hn : 1 ≤ n) : ∀ N : Nat,
    (5 : Rat) ^ (n - 1).toNat * scaledSum n N =
      (10 : Rat) ^ (n - 1).toNat * Finset.sum (Finset.Icc 1 N)
        (fun k => (25 * (k : Rat) - 3) / ((Nat.choose (3 * k) k : Rat) * 2 ^ (k - 1))) := by
  intro N
  induction N with
  | zero => simp [scaledSum]
  | succ N ih =>
    rw [scaledSum, Finset.sum_Icc_succ_top (by omega), mul_add, mul_add, ih]
    congr 1
    obtain ⟨m, hm⟩ : ∃ m : Nat, n = (m : Int) + 1 := ⟨(n - 1).toNat, by omega⟩
    subst hm
    have h1 : ((m : Int) + 1 - 1).toNat = m := by omega
    have h2 : ((m : Int) + 1).toNat = m + 1 := by omega
    have hC : (Nat.choose (3 * (N + 1)) (N + 1) : Rat) ≠ 0 := by
      have : 0 < Nat.choose (3 * (N + 1)) (N + 1) := Nat.choose_pos (by omega)
      exact_mod_cast this.ne'
    have h10 : (10 : Rat) ^ m = 5 ^ m * 2 ^ m := by
      rw [← mul_pow]; norm_num
    unfold scaledTerm
    rw [h1, h2, h10, Nat.add_sub_cancel]
    field_simp
    ring

theorem frac_toRat_bounds (x : Frac) (h0 : 0 ≤ x.num) (h1 : x.num < x.den) :
    0 ≤ x.toRat ∧ x.toRat < 1 := by
  have hd : (0 : Rat) < (x.den : Rat) := by exact_mod_cast (by omega : 0 < x.den)
  have hn : (0 : Rat) ≤ (x.num : Rat) := by exact_mod_cast h0
  have hlt : (x.num : Rat) < (x.den : Rat) := by exact_mod_cast h1
  unfold Frac.toRat
  exact ⟨div_nonneg hn hd.le, (div_lt_one hd).2 hlt⟩

/-- The whole prime loop: it returns, and the final `sum` is the fractional part of
`5^(n-1)` times the sum of the scaled terms. -/
theorem sweep_pint (N : Nat) (n : Int) (hN : 1 ≤ N) (hNM : 25 * N ≤ 2147483647)
    (hn1 : 1 ≤ n) (hnM : n ≤ 2147483647) (h2 : 3 * N * 2 ^ N < 2 ^ (n.toNat + 31)) :
    ∃ (sumF : Frac) (pF : Nat),
      sweep exactOps n (N : Int) ((wrap32 (3 * (N : Int))).toNat + 1) 2 { num := 0, den := 1 }
        = some (sumF, (pF : Int)) ∧
      sumF.toRat = Int.fract ((5 : Rat) ^ (n - 1).toNat * scaledSum n N) := by
  have hw : wrap32 (3 * (N : Int)) = 3 * (N : Int) := wrap32_of_inInt (by omega) (by omega)
  obtain ⟨sumF, pF, e, ⟨hf0, hf1, hR⟩, hpF, hlt⟩ := sweep_total exactOps n (N : Int) (by omega)
    (by omega)
    (fun a sum => 0 ≤ sum.num ∧ sum.num < sum.den ∧ ∀ l : Nat, l.Prime →
      (l < a → PInt l ((5 : Rat) ^ (n - 1).toNat * scaledSum n N - sum.toRat)) ∧
      (a ≤ l → PInt l sum.toRat))
    (fun p sum hp hple ⟨h0, hd, hR⟩ => by
      obtain ⟨sum1, delta, z, e, g0, g1, hsum1, hpd, hother⟩ := prime_pass_pint p N n hp
        (by omega) hNM hn1 hnM h2 sum h0 hd
      refine ⟨sum1, e, fun p1 hp1 hlt hmin => ⟨g0, g1, fun l hl => ⟨fun hl1 => ?_, fun hl1 => ?_⟩⟩⟩
      · -- primes up to `p`
        have hlp : l ≤ p := by
          by_contra hcon
          have := hmin l hl (by omega)
          omega
        rw [hsum1]
        by_cases hlp2 : l = p
        · subst hlp2
          have : (5 : Rat) ^ (n - 1).toNat * scaledSum n N - (sum.toRat + delta - z) =
              ((5 : Rat) ^ (n - 1).toNat * scaledSum n N - delta) - sum.toRat + z := by ring
          rw [this]
          exact pint_add l hl _ _ (pint_sub l hl _ _ hpd ((hR l hl).2 (le_refl l)))
            (pint_int l hl z)
        · have : (5 : Rat) ^ (n - 1).toNat * scaledSum n N - (sum.toRat + delta - z) =
              ((5 : Rat) ^ (n - 1).toNat * scaledSum n N - sum.toRat) - delta + z := by ring
          rw [this]
          exact pint_add l hl _ _ (pint_sub l hl _ _ ((hR l hl).1 (by omega))
            (hother l hl hlp2)) (pint_int l hl z)
      · -- the primes still to come
        rw [hsum1]
        exact pint_sub l hl _ _ (pint_add l hl _ _ ((hR l hl).2 (by omega))
          (hother l hl (by omega))) (pint_int l hl z))
    ((wrap32 (3 * (N : Int))).toNat + 1) 2 { num := 0, den := 1 } Nat.prime_two (by omega)
    (fun _ => by rw [hw]; push_cast; omega)
    ⟨le_refl 0, by decide, fun l hl => ⟨fun h => by
      have := hl.two_le
      omega, fun _ => by
      have : Frac.toRat { num := 0, den := 1 } = 0 := by simp [Frac.toRat]
      rw [this]
      exact pint_zero l hl⟩⟩
  refine ⟨sumF, pF, e, ?_⟩
  have hall : ∀ l : Nat, l.Prime →
      PInt l ((5 : Rat) ^ (n - 1).toNat * scaledSum n N - sumF.toRat) := by
    intro l hl
    by_cases hlp : l < pF
    · exact (hR l hl).1 hlp
    · have h3N : 3 * N < l := by
        have : (3 * (N : Int)) < (pF : Int) := hlt
        omega
      have hl2 : l ≠ 2 := by omega
      have h5 : PInt l ((5 : Rat) ^ (n - 1).toNat) := by
        have := pint_int l hl ((5 : Int) ^ (n - 1).toNat)
        simpa using this
      have hS : PInt l (scaledSum n N) := by
        apply scaledSum_pint l hl n (by omega) N
        intro k hk
        have := termExp_le_log l n k N hk
        rw [if_neg hl2, Nat.log_of_lt h3N] at this
        simpa using this
      exact pint_sub l hl _ _ (pint_mul l hl _ _ h5 hS) ((hR l hl).2 (by omega))
  obtain ⟨z, hz⟩ := int_of_pint _ hall
  obtain ⟨hb0, hb1⟩ := frac_toRat_bounds sumF hf0 hf1
  exact (Int.fract_eq_iff.2 ⟨hb0, hb1, z, hz⟩).symm

/-! ## Helper lemmas: the computed quotient of logarithms -/

theorem vmax_of_ops (ops : FloatOps) (p N L : Nat) (n : Int) (hp2 : 2 ≤ p)
    (hNM : 3 * N ≤ 2147483647) (hn1 : 1 ≤ n) (hnM : n ≤ 2147483647)
    (hL : ops.logRatio (wrap32 (3 * (N : Int))) (p : Int) = (L : Int)) (hLlo : p ^ L ≤ 3 * N) :
    vmax_of ops n (N : Int) (p : Int) =
      if p = 2 then (L : Int) + ((N : Int) - n) else (L : Int) := by
  have hL31 : L < 31 := by
    by_contra hcon
    have h1 : 2 ^ 31 ≤ 2 ^ L := Nat.pow_le_pow_right (by omega) (by omega)
    have h2 : 2 ^ L ≤ p ^ L := Nat.pow_le_pow_left hp2 L
    omega
  unfold vmax_of
  rw [hL]
  by_cases h2 : p = 2
  · have hc : (p : Int) = 2 := by exact_mod_cast h2
    rw [if_pos hc, if_pos h2, wrap32_of_inInt (x := (N : Int) - n) (by omega) (by omega),
      wrap32_of_inInt (by omega) (by omega)]
  · have hc : ¬ ((p : Int) = 2) := by exact_mod_cast h2
    rw [if_neg hc, if_neg h2]

theorem vmax_facts_ops (ops : FloatOps) (p N L : Nat) (n : Int) (hp : p.Prime)
    (hNM : 3 * N ≤ 1073741824) (hn1 : 1 ≤ n) (hnM : n ≤ 2147483647)
    (h2 : 3 * N * 2 ^ N < 2 ^ (n.toNat + 31))
    (hL : ops.logRatio (wrap32 (3 * (N : Int))) (p : Int) = (L : Int)) (hL1 : 1 ≤ L)
    (hLlo : p ^ L ≤ 3 * N)
    (hrun : ¬ ((p : Int) = 2 ∧ vmax_of ops n (N : Int) (p : Int) ≤ 0)) :
    ∃ vm : Nat, vmax_of ops n (N : Int) (p : Int) = (vm : Int) ∧ 1 ≤ vm ∧
      (p : Int) ^ vm ≤ 1073741824 ∧ (p = 2 → n ≤ 1000000000) ∧
      (p ≠ 2 → vm = L) ∧ (p = 2 → (vm : Int) = (L : Int) + ((N : Int) - n)) := by
  have hp2 := hp.two_le
  have hv := vmax_of_ops ops p N L n hp2 (by omega) hn1 hnM hL hLlo
  by_cases h : p = 2
  · subst h
    rw [if_pos rfl] at hv
    have hc : ((2 : Nat) : Int) = 2 := rfl
    have hpos : 0 < vmax_of ops n (N : Int) ((2 : Nat) : Int) := by
      by_contra hcon
      exact hrun ⟨hc, by omega⟩
    have hL31 : L < 31 := by
      by_contra hcon
      have h1 : 2 ^ 31 ≤ 2 ^ L := Nat.pow_le_pow_right (by omega) (by omega)
      omega
    obtain ⟨m, hm⟩ : ∃ m : Nat, n = (m : Int) := ⟨n.toNat, by omega⟩
    subst hm
    simp only [Int.toNat_ofNat] at h2
    have hpow : 2 ^ (L + N) < 2 ^ (m + 31) := by
      calc 2 ^ (L + N) = 2 ^ L * 2 ^ N := pow_add _ _ _
        _ ≤ 3 * N * 2 ^ N := Nat.mul_le_mul_right _ hLlo
        _ < 2 ^ (m + 31) := h2
    have hlt : L + N < m + 31 := (Nat.pow_lt_pow_iff_right (by omega)).1 hpow
    refine ⟨L + N - m, ?_, ?_, ?_, ?_, ?_, ?_⟩
    · rw [hv]; omega
    · rw [hv] at hpos; omega
    · have : (((2 : Nat) : Int)) ^ (L + N - m) ≤ 2 ^ 30 :=
        pow_le_pow_right₀ (by norm_num) (by omega)
      simpa using this
    · intro _; rw [hv] at hpos; omega
    · intro hne; exact absurd rfl hne
    · intro _; rw [hv] at hpos; omega
  · rw [if_neg h] at hv
    refine ⟨L, hv, hL1, ?_, ?_, ?_, ?_⟩
    · have h3 : ((p ^ L : Nat) : Int) ≤ 1073741824 := by
        exact_mod_cast (by omega : p ^ L ≤ 1073741824)
      simpa using h3
    · intro h'; exact absurd h' h
    · intro _; rfl
    · intro h'; exact absurd h' h

theorem prime_pass_run_ops (ops : FloatOps) (p N : Nat) (n : Int) (vm : Nat) (hp : p.Prime)
    (hNM : 3 * (3 * N - 1) ≤ 2147483647) (hn1 : 1 ≤ n) (hnM : n ≤ 2147483647)
    (hrun : ¬ ((p : Int) = 2 ∧ vmax_of ops n (N : Int) (p : Int) ≤ 0))
    (hvm : vmax_of ops n (N : Int) (p : Int) = (vm : Int)) (hvm1 : 1 ≤ vm)
    (hav : (p : Int) ^ vm ≤ 1073741824) (hn : p = 2 → n ≤ 1000000000)
    (sum : Frac) :
    ∃ sum1, prime_pass ops n (N : Int) (p : Int) sum = some sum1 := by
  obtain ⟨stN, e, I, q, es⟩ := prime_sum_spec p hp n vm N hvm1 (by omega) (fun _ => hav)
    hn1 hnM hn hNM (fun _ _ => True) trivial (fun _ _ _ _ _ _ _ _ => trivial)
  unfold prime_pass
  rw [if_neg hrun, hvm]
  simp only [Int.toNat_ofNat]
  rw [av_loop_eq p hp.pos vm (by omega), es]
  exact ⟨_, rfl⟩

/-- The body of the prime loop returns for the prime `p <= 3 * N` when the terms of the `k`
loop fit in an `int` and the computed quotient `L = (int) (log(3 * N) / log(p))` is at least 1
with `p^L <= 3 * N`. -/
theorem prime_pass_total_ops (ops : FloatOps) (p N L : Nat) (n : Int) (hp : p.Prime)
    (hNM : 3 * (3 * N - 1) ≤ 2147483647) (hn1 : 1 ≤ n) (hnM : n ≤ 2147483647)
    (h2 : 3 * N * 2 ^ N < 2 ^ (n.toNat + 31))
    (hL : ops.logRatio (wrap32 (3 * (N : Int))) (p : Int) = (L : Int)) (hL1 : 1 ≤ L)
    (hLlo : p ^ L ≤ 3 * N) (sum : Frac) :
    ∃ sum1, prime_pass ops n (N : Int) (p : Int) sum = some sum1 := by
  by_cases hrun : (p : Int) = 2 ∧ vmax_of ops n (N : Int) (p : Int) ≤ 0
  · exact ⟨sum, prime_pass_skip _ _ _ _ _ hrun⟩
  · obtain ⟨vm, hvm, hvm1, hav, hn, _, _⟩ := vmax_facts_ops ops p N L n hp (by omega) hn1 hnM
      h2 hL hL1 hLlo hrun
    exact prime_pass_run_ops ops p N n vm hp hNM hn1 hnM hrun hvm hvm1 hav hn sum

theorem exactOps_logRatio_spec (p N : Nat) (hp2 : 2 ≤ p) (hple : p ≤ 3 * N)
    (hNM : 3 * N ≤ 2147483647) :
    exactOps.logRatio (wrap32 (3 * (N : Int))) (p : Int) = ((Nat.log p (3 * N) : Nat) : Int) ∧
      1 ≤ Nat.log p (3 * N) ∧ p ^ Nat.log p (3 * N) ≤ 3 * N ∧
      3 * N < p ^ (Nat.log p (3 * N) + 1) := by
  have hw : wrap32 (3 * (N : Int)) = ((3 * N : Nat) : Int) := by
    rw [wrap32_of_inInt (by omega) (by omega)]; push_cast; ring
  refine ⟨?_, ?_, Nat.pow_log_le_self p (by omega), Nat.lt_pow_succ_log_self (by omega) _⟩
  · rw [hw, exact_logRatio p (3 * N) hp2 (by omega)]
  · exact (Nat.pow_le_iff_le_log (by omega) (by omega)).1 (by simpa using hple)

theorem choose_prime_pow_factorization (p e k : Nat) (hp : p.Prime) (hk : k ≤ p ^ e)
    (hk0 : k ≠ 0) : (Nat.choose (p ^ e) k).factorization p = e - k.factorization p := by
  have h := hp.emultiplicity_choose_prime_pow hk hk0
  have hfin : multiplicity.Finite p (Nat.choose (p ^ e) k) :=
    Nat.multiplicity_finite_iff.2 ⟨hp.ne_one, Nat.choose_pos hk⟩
  rw [hfin.emultiplicity_eq_multiplicity] at h
  have h2 : multiplicity p (Nat.choose (p ^ e) k) = e - multiplicity p k := by
    exact_mod_cast h
  rw [Nat.multiplicity_eq_factorization hp (Nat.choose_pos hk).ne',
    Nat.multiplicity_eq_factorization hp hk0] at h2
  exact h2

/-- The exponent of `p` in `binomial(3k, k)` is at most `L` for `k <= N` as soon as
`3 * N <= p^(L+1)` and `L >= 1`: also when `3 * N` is the power `p^(L+1)` itself. -/
theorem choose_factorization_le (p N L k : Nat) (hp : p.Prime) (hL1 : 1 ≤ L)
    (hLhi : 3 * N ≤ p ^ (L + 1)) (hk1 : 1 ≤ k) (hkN : k ≤ N) :
    (Nat.choose (3 * k) k).factorization p ≤ L := by
  by_cases hlt : 3 * k < p ^ (L + 1)
  · have h1 : (Nat.choose (3 * k) k).factorization p ≤ Nat.log p (3 * k) :=
      Nat.factorization_choose_le_log
    have h2 : Nat.log p (3 * k) < L + 1 := Nat.log_lt_of_lt_pow (by omega) hlt
    omega
  · have heq : p ^ (L + 1) = 3 * k := by omega
    have hpk : p ∣ k := by
      by_contra hcon
      have hd : p ∣ 3 * k := by
        rw [← heq]
        exact dvd_pow_self p (by omega)
      rcases (Nat.Prime.dvd_mul hp).1 hd with h | h
      · have h3 : p = 3 := (Nat.prime_dvd_prime_iff_eq hp Nat.prime_three).1 h
        subst h3
        have hk3 : k = 3 ^ L := by
          rw [pow_succ, mul_comm] at heq
          exact (Nat.eq_of_mul_eq_mul_left (by norm_num) heq).symm
        apply hcon
        rw [hk3]
        exact dvd_pow_self 3 (by omega)
      · exact hcon h
    have hfk : 1 ≤ k.factorization p :=
      hp.factorization_pos_of_dvd (by omega) hpk
    have hc := choose_prime_pow_factorization p (L + 1) k hp (by omega) (by omega)
    rw [← heq, hc]
    omega

theorem inner_v_le_vmax_ops (p : Nat) (hp : p.Prime) (n : Int) (vm k N L : Nat) (st : Inner)
    (hL1 : 1 ≤ L) (hLhi : 3 * N ≤ p ^ (L + 1)) (hk1 : 1 ≤ k) (hkN : k ≤ N)
    (I : InnerInv p n vm k st) (hodd : p ≠ 2 → vm = L)
    (htwo : p = 2 → (vm : Int) = (L : Int) + ((N : Int) - n)) :
    st.v ≤ (vm : Int) := by
  have hle := choose_factorization_le p N L k hp hL1 hLhi hk1 hkN
  rw [I.v]
  by_cases h2 : p = 2
  · rw [if_pos h2]
    have := htwo h2
    subst h2
    omega
  · rw [if_neg h2]
    have := hodd h2
    omega

/-! ## The claims -/

set_option maxRecDepth 1000000

/-- Claim C1 (counterexample): the run for position 0 prints the usage text and no digits,
and the run for position 1 returns 1415926535, the window the table documents for position 0,
not 4159265358 (accumulator and logarithm quotients exact). -/
theorem main_table_counterexample :
    main exactOps 0 = some Outcome.usage ∧
      (¬ ∃ p, main exactOps 0 = some (Outcome.report 1415926535 p)) ∧
      main exactOps 1 = some (Outcome.report 1415926535 59) ∧
      (¬ ∃ p, main exactOps 1 = some (Outcome.report 4159265358 p)) := by
  have h0 : main exactOps 0 = some Outcome.usage := by decide
  have h1 : main exactOps 1 = some (Outcome.report 1415926535 59) := by decide
  refine ⟨h0, ?_, h1, ?_⟩
  · rintro ⟨p, hp⟩
    rw [h0] at hp
    cases hp
  · rintro ⟨p, hp⟩
    rw [h1] at hp
    cases hp

/-- Claim C1 (amended): with the accumulator kept as an exact fraction and the logarithm
quotients exact, the argument counts the decimal digits of pi from 1: `n = 1` returns the
window 1415926535, `n = 2` returns 4159265358 and `n = 3` returns 1592653589. -/
theorem main_table :
    main exactOps 1 = some (Outcome.report 1415926535 59) ∧
      main exactOps 2 = some (Outcome.report 4159265358 59) ∧
      main exactOps 3 = some (Outcome.report 1592653589 61) := by
  refine ⟨?_, ?_, ?_⟩ <;> decide

/-- Claim C2 (counterexample): the position `n = 0` is not accepted: the run prints the usage
text, starts no sweep and produces no digits. -/
theorem main_zero_rejected_counterexample :
    main exactOps 0 = some Outcome.usage ∧
      ¬ ∃ d p, main exactOps 0 = some (Outcome.report d p) := by
  have h0 : main exactOps 0 = some Outcome.usage := main_nonpos exactOps 0 (by decide)
  refine ⟨h0, ?_⟩
  rintro ⟨d, p, h⟩
  rw [h0] at h
  cases h

/-- Claim C2 (amended): `main` rejects its input, printing the usage text (exit status 1)
before any computation, exactly when `n <= 0`: the position `n = 0` is rejected like the
negative ones, and no `n >= 1` is rejected. -/
theorem main_usage_iff (ops : FloatOps) (n : Int) :
    main ops n = some Outcome.usage ↔ n ≤ 0 := by
  constructor
  · intro h
    by_contra hn
    exact main_pos_ne_usage ops n (by omega) h
  · exact main_nonpos ops n

/-- Claim C3 (counterexample): for `n = 900000000` the truncation length is `N = 796225013`
and `3 * N` is not an `int`; the run does not fail but ends with the digits 0000000000. -/
theorem overflow_not_reported :
    ¬ inInt (3 * 796225013) ∧
      main { truncLen := fun _ => 796225013, logRatio := exactOps.logRatio } 900000000 =
        some (Outcome.report 0 2) := by
  decide

/-- Claim C3 (amended): when `3 * N` has left the range of `int` and wraps to a value
below 2 (`2^31 <= 3 * N < 2^32 + 2`), `main` signals no overflow: no prime is processed and
the run ends normally with the digits 0000000000 and the prime 2. -/
theorem main_wrapped_bound (ops : FloatOps) (n : Int) (hn : 0 < n)
    (hlo : 2147483648 ≤ 3 * ops.truncLen n) (hhi : 3 * ops.truncLen n < 4294967298) :
    ¬ inInt (3 * ops.truncLen n) ∧ main ops n = some (Outcome.report 0 2) := by
  constructor
  · unfold inInt INT_MAX
    omega
  · have hw : wrap32 (3 * ops.truncLen n) < 2 := by
      unfold wrap32
      generalize 3 * ops.truncLen n = x at hlo hhi
      omega
    unfold main
    rw [if_neg (by omega), sweep_skipped ops n _ _ _ hw]
    rfl

theorem main_wrapped_bound_witness :
    ¬ inInt (3 * 796225013) ∧
      main { truncLen := fun _ => 796225013, logRatio := fun _ _ => 0 } 900000000 =
        some (Outcome.report 0 2) :=
  main_wrapped_bound { truncLen := fun _ => 796225013, logRatio := fun _ _ => 0 } 900000000
    (by decide) (by decide) (by decide)

/-- Claim C4 (counterexample): with modulus 1 and exponent 0, `pow_mod` returns 1, which is
not `base^exponent mod modulus = 0`. -/
theorem pow_mod_modulus_one_counterexample :
    pow_mod 5 0 1 = some 1 ∧ (5 : Int) ^ (0 : Nat) % 1 = 0 ∧
      pow_mod 5 0 1 ≠ some ((5 : Int) ^ (0 : Nat) % 1) := by
  decide

/-- Claim C4 (amended): for every base >= 0, exponent >= 0 and modulus >= 1, leaving out
the one case of exponent 0 with modulus 1, `pow_mod(base, exponent, modulus)` returns
`base^exponent mod modulus`. -/
theorem pow_mod_spec (a b m : Int) (ha : 0 ≤ a) (hb : 0 ≤ b) (hm : 1 ≤ m)
    (hcase : 2 ≤ m ∨ 1 ≤ b) : pow_mod a b m = some (a ^ b.toNat % m) := by
  by_cases hb0 : b = 0
  · subst hb0
    have hm2 : 2 ≤ m := by omega
    rw [pow_mod_zero_exp]
    simp
    rw [Int.emod_eq_of_lt (by omega) (by omega)]
  · exact pow_mod_pos_exp a b m ha (by omega) hm

theorem pow_mod_spec_witness :
    pow_mod 7 13 10 = some ((7 : Int) ^ (13 : Int).toNat % 10) :=
  pow_mod_spec 7 13 10 (by decide) (by decide) (by decide) (Or.inl (by decide))

/-- Claim C5: for every modulus m > 1, base b >= 0 and exponent e >= 0, `pow_mod(b, e, m)`
is the result of brute-force repeated multiplication by `b` reduced mod `m` after each
step, starting from 1; in particular `pow_mod(b, 0, m) = 1`. -/
theorem pow_mod_eq_brute (b e m : Int) (hm : 1 < m) (hb : 0 ≤ b) (he : 0 ≤ e) :
    pow_mod b e m = some (pow_brute b m e.toNat) ∧ pow_mod b 0 m = some 1 := by
  refine ⟨?_, pow_mod_zero_exp b m⟩
  rw [pow_brute_eq b m hm]
  by_cases he0 : e = 0
  · subst he0
    rw [pow_mod_zero_exp]
    simp
    rw [Int.emod_eq_of_lt (by omega) hm]
  · exact pow_mod_pos_exp b e m hb (by omega) (by omega)

theorem pow_mod_eq_brute_witness :
    pow_mod 3 5 7 = some (pow_brute 3 7 (5 : Int).toNat) ∧ pow_mod 3 0 7 = some 1 :=
  pow_mod_eq_brute 3 5 7 (by decide) (by decide) (by decide)

/-- Claim C6: for all `int`s x >= 1 and y >= 2 with gcd(x, y) = 1, `inv_mod(x, y)` returns
a value whose product with x is 1 modulo y, also when x > y. -/
theorem inv_mod_mul_eq_one (x y : Int) (hx : 1 ≤ x) (hxM : x ≤ INT_MAX) (hy : 2 ≤ y)
    (hyM : y ≤ INT_MAX) (hg : Int.gcd x y = 1) :
    ∃ r, inv_mod x y = some r ∧ (x * r) % y = 1 := by
  obtain ⟨r, hr, _, _, h⟩ := inv_mod_spec x y hx hxM hy hyM hg
  exact ⟨r, hr, h⟩

theorem inv_mod_mul_eq_one_witness : ∃ r, inv_mod 10 7 = some r ∧ (10 * r) % 7 = 1 :=
  inv_mod_mul_eq_one 10 7 (by decide) (by decide) (by decide) (by decide) (by decide)

/-- Claim C7 (counterexample): for the odd modulus `v = 2^30 + 1` and `u = 2^30`, coprime,
the sum `t1 + v` leaves the range of `int` and `inv_mod2` returns `-2^30`, whose product
with `u` is not 1 modulo `v`. -/
theorem inv_mod2_overflow_counterexample :
    Int.gcd 1073741824 1073741825 = 1 ∧
      inv_mod2 1073741824 1073741825 = some (-1073741824) ∧
      (1073741824 * (-1073741824 : Int)) % 1073741825 ≠ 1 := by
  decide

/-- Claim C7 (amended): for every `int` u >= 1 and every odd modulus v with
`3 <= v <= 2^30` and gcd(u, v) = 1, `inv_mod2` terminates and returns a value whose product
with u is 1 modulo v, for odd and for even u. -/
theorem inv_mod2_mul_eq_one (u v : Int) (hu : 1 ≤ u) (huM : u ≤ INT_MAX) (hv : 3 ≤ v)
    (hvle : v ≤ 1073741824) (hvodd : v % 2 = 1) (hg : Int.gcd u v = 1) :
    ∃ r, inv_mod2 u v = some r ∧ (u * r) % v = 1 := by
  obtain ⟨r, hr, _, _, h⟩ := inv_mod2_spec u v hu huM hv hvle hvodd hg
  exact ⟨r, hr, h⟩

theorem inv_mod2_mul_eq_one_witness : ∃ r, inv_mod2 4 7 = some r ∧ (4 * r) % 7 = 1 :=
  inv_mod2_mul_eq_one 4 7 (by decide) (by decide) (by decide) (by decide) (by decide)
    (by decide)

/-- Claim C8 (counterexample): for the odd modulus `y = 2^31 - 1` and `x = 2`, coprime,
`inv_mod2` returns `-2^30`, which is not in `[0, y)`. -/
theorem inv_mod2_not_normalized_counterexample :
    Int.gcd 2 2147483647 = 1 ∧ inv_mod2 2 2147483647 = some (-1073741824) ∧
      ¬ (0 ≤ (-1073741824 : Int)) := by
  decide

/-- Claim C8 (amended): for all `int`s x >= 1 and y >= 2 with gcd(x, y) = 1, the value
returned by `inv_mod(x, y)` lies in `[0, y)`, and so does the value returned by
`inv_mod2(x, y)` when y is odd and `y <= 2^30`. -/
theorem inv_normalized (x y : Int) (hx : 1 ≤ x) (hxM : x ≤ INT_MAX) (hy : 2 ≤ y)
    (hyM : y ≤ INT_MAX) (hg : Int.gcd x y = 1) :
    (∃ r, inv_mod x y = some r ∧ 0 ≤ r ∧ r < y) ∧
      (y % 2 = 1 → y ≤ 1073741824 → ∃ r, inv_mod2 x y = some r ∧ 0 ≤ r ∧ r < y) := by
  constructor
  · obtain ⟨r, hr, h0, h1, _⟩ := inv_mod_spec x y hx hxM hy hyM hg
    exact ⟨r, hr, h0, h1⟩
  · intro hodd hle
    obtain ⟨r, hr, h0, h1, _⟩ := inv_mod2_spec x y hx hxM (by omega) hle hodd hg
    exact ⟨r, hr, h0, h1⟩

theorem inv_normalized_witness :
    (∃ r, inv_mod 10 7 = some r ∧ 0 ≤ r ∧ r < 7) ∧
      (∃ r, inv_mod2 10 7 = some r ∧ 0 ≤ r ∧ r < 7) :=
  ⟨(inv_normalized 10 7 (by decide) (by decide) (by decide) (by decide) (by decide)).1,
    (inv_normalized 10 7 (by decide) (by decide) (by decide) (by decide) (by decide)).2
      (by decide) (by decide)⟩

/-- Claim C9 (the code at the failing input): `is_prime(2)` returns false although 2 is
prime, because every even number is rejected before the trial divisions. -/
theorem is_prime_two : is_prime 2 = some false ∧ Nat.Prime 2 := by
  refine ⟨by decide, Nat.prime_two⟩

/-- Claim C10 (the code at the failing inputs): `next_prime(0)` returns 1, which is not
prime, and `next_prime(1)` returns 3, which skips the prime 2. -/
theorem next_prime_zero_one :
    next_prime 0 = some 1 ∧ ¬ Nat.Prime 1 ∧ next_prime 1 = some 3 ∧ Nat.Prime 2 := by
  refine ⟨by decide, Nat.not_prime_one, by decide, Nat.prime_two⟩

/-- Claim C11 (counterexample): for `n = 1` the truncation length is `N = 18`, the sweep
processes the primes up to `3 * N = 54`, and the prime reported is 59, which is above 54 and
was never processed (the largest prime processed is 53). -/
theorem largest_prime_counterexample :
    main exactOps 1 = some (Outcome.report 1415926535 59) ∧ exactOps.truncLen 1 = 18 ∧
      ¬ ((59 : Int) ≤ 3 * exactOps.truncLen 1) := by
  refine ⟨by decide, by decide, by decide⟩

/-- Claim C11 (amended): for every accepted `n` whose truncation length `N` keeps the terms of
the inner loop and the modulus of the prime 2 within `int`, the run returns and the prime it
reports is the least prime greater than `3 * N`, that is the first prime the sweep did not
process (logarithm quotients exact). -/
theorem largest_prime_reported (n : Int) (N : Nat) (hN : exactOps.truncLen n = (N : Int))
    (hn1 : 1 ≤ n) (hnM : n ≤ 2147483647) (hN1 : 1 ≤ N) (hNM : 3 * (3 * N - 1) ≤ 2147483647)
    (h2 : 3 * N * 2 ^ N < 2 ^ (n.toNat + 31)) :
    ∃ (d : Int) (pF : Nat), main exactOps n = some (Outcome.report d (pF : Int)) ∧ pF.Prime ∧
      3 * N < pF ∧ ∀ r : Nat, r.Prime → 3 * N < r → pF ≤ r := by
  obtain ⟨sumF, pF, e⟩ := sweep_exact_total N n hN1 hNM hn1 hnM h2 { num := 0, den := 1 }
  obtain ⟨pF1, e1, hprime, hlt, hmin⟩ := sweep_final exactOps n (N : Int) (by omega) (by omega)
    _ 2 _ _ e Nat.prime_two (fun q hq _ => hq.two_le)
  have hpp : pF1 = pF := by
    have : (pF : Int) = (pF1 : Int) := e1
    exact_mod_cast this.symm
  subst hpp
  refine ⟨digits_of sumF, pF1, ?_, hprime, by exact_mod_cast hlt, fun r hr h => hmin r hr
    (by exact_mod_cast h)⟩
  unfold main
  rw [if_neg (by omega), hN]
  have e2 : sweep exactOps n (N : Int) ((wrap32 (3 * (N : Int))).toNat + 1) 2
      { num := 0, den := 1 } = some (sumF, (pF1 : Int)) := e
  rw [e2]

theorem largest_prime_reported_witness :
    ∃ (d : Int) (pF : Nat), main exactOps 1 = some (Outcome.report d (pF : Int)) ∧ pF.Prime ∧
      3 * 18 < pF ∧ ∀ r : Nat, r.Prime → 3 * 18 < r → pF ≤ r :=
  largest_prime_reported 1 18 (by decide) (by decide) (by decide) (by decide) (by decide)
    (by decide)

/-- Claim C12 (counterexample): with `t = 4`, `a = 2` and a phase counter that is not in step
with `t` (`kq = 0`, `kqinc = 1`), one `DIVN` step leaves `t = 4`, still divisible by 2, and
leaves `v = 0` although 2 divides 4 twice. -/
theorem divn_counterexample :
    DIVN 4 2 0 1 0 1 = some (4, 0, 1) ∧ (2 : Int) ∣ 4 ∧ Nat.Prime 2 := by
  refine ⟨by decide, by decide, Nat.prime_two⟩

/-- Claim C12 (amended): for every term `1 <= t <= INT_MAX`, every prime `a` and every phase
counter that is in step with the term (`kq + kqinc` is positive, within `int` and congruent to
`t` modulo `a`), with `vinc` one of 1 and -1 and `|v| <= 2^30`, one `DIVN` step returns the `t`
that brute-force extraction leaves, which `a` does not divide, changes `v` by `vinc` times the
number of brute-force divisions, which is the exponent of `a` in `t`, and leaves the counter
at `t mod a`. -/
theorem divn_strips_all (p : Nat) (hp : p.Prime) (T : Nat) (v vinc kq kqinc : Int)
    (hvinc : vinc = 1 ∨ vinc = -1) (hT : 1 ≤ T) (hTM : T ≤ 2147483647)
    (hk1 : 1 ≤ kq + kqinc) (hkM : kq + kqinc ≤ 2147483647)
    (hsync : (kq + kqinc) % (p : Int) = ((T % p : Nat) : Int))
    (hv1 : -1073741824 ≤ v) (hv2 : v ≤ 1073741824) :
    DIVN (T : Int) (p : Int) v vinc kq kqinc =
        some (((strip_brute p T T).1 : Int), v + vinc * ((strip_brute p T T).2 : Nat),
          ((T % p : Nat) : Int)) ∧
      ¬ p ∣ (strip_brute p T T).1 ∧ (strip_brute p T T).2 = T.factorization p ∧
      T = (strip_brute p T T).1 * p ^ (strip_brute p T T).2 := by
  have hb := strip_brute_spec p hp T T hT (le_refl T)
  have hd := (DIVN_spec p hp T v vinc kq kqinc hvinc hT hTM hk1 hkM hsync hv1 hv2).1
  rw [hb]
  refine ⟨hd, pfree_not_dvd p T hp (by omega), rfl, ?_⟩
  exact (Nat.div_mul_cancel (Nat.ordProj_dvd T p)).symm

theorem divn_strips_all_witness :
    DIVN ((18 : Nat) : Int) ((3 : Nat) : Int) 0 1 0 9 =
        some (((strip_brute 3 18 18).1 : Int), (0 : Int) + 1 * ((strip_brute 3 18 18).2 : Nat),
          ((18 % 3 : Nat) : Int)) ∧
      ¬ 3 ∣ (strip_brute 3 18 18).1 ∧ (strip_brute 3 18 18).2 = (18 : Nat).factorization 3 ∧
      18 = (strip_brute 3 18 18).1 * 3 ^ (strip_brute 3 18 18).2 :=
  divn_strips_all 3 Nat.prime_three 18 0 1 0 9 (Or.inl rfl) (by decide) (by decide) (by decide)
    (by decide) (by decide) (by decide) (by decide)

/-- Claim C13 (counterexample): for `N = 715827883` the product `3 * N` does not fit in an
`int`; the wrapped bound is negative and the body of the prime loop runs for no `a`, although
2 is a prime `<= 3 * N`. And `next_prime(2147483647)` is `-2147483647`, not a prime greater
than its argument. -/
theorem prime_sweep_counterexample :
    (∀ (ops : FloatOps) (n : Int) (sum : Frac),
      sweep_values ops n 715827883 ((wrap32 (3 * 715827883)).toNat + 1) 2 sum = some []) ∧
      (2 : Int) ≤ 3 * 715827883 ∧ Nat.Prime 2 ∧
      next_prime 2147483647 = some (-2147483647) := by
  refine ⟨fun ops n sum => ?_, by decide, Nat.prime_two, by decide⟩
  rw [sweep_values_succ, if_neg (by decide)]

/-- Claim C13 (amended): for every position `1 <= n <= INT_MAX` and truncation length
`N >= 1` for which the body of the prime loop returns (`3 * (3 * N - 1) <= INT_MAX`,
`3 * N * 2^N < 2^(n+31)`, and for every prime `a <= 3 * N` the computed quotient
`L = (int) (log(3 * N) / log(a))` has `L >= 1` and `a^L <= 3 * N`), the prime loop of `main`
returns, its final `sum` is what the body gives when run in turn on the recorded values of
`a`, and these values are exactly the primes `<= 3 * N`, each once, in strictly increasing
order; and for every `m` with `2 <= m < INT_MAX`, `next_prime(m)` is the least prime greater
than `m`. -/
theorem prime_sweep_values (ops : FloatOps) (n : Int) (N : Nat) (hn1 : 1 ≤ n)
    (hnM : n ≤ 2147483647) (hN : 1 ≤ N) (hNM : 3 * (3 * N - 1) ≤ 2147483647)
    (h2 : 3 * N * 2 ^ N < 2 ^ (n.toNat + 31))
    (hlog : ∀ p : Nat, p.Prime → p ≤ 3 * N →
      ∃ L : Nat, ops.logRatio (wrap32 (3 * (N : Int))) (p : Int) = (L : Int) ∧ 1 ≤ L ∧
        p ^ L ≤ 3 * N) :
    (∃ (l : List Int) (r : Frac × Int),
      sweep ops n (N : Int) ((wrap32 (3 * (N : Int))).toNat + 1) 2 { num := 0, den := 1 }
        = some r ∧
      sweep_values ops n (N : Int) ((wrap32 (3 * (N : Int))).toNat + 1) 2 { num := 0, den := 1 }
        = some l ∧
      List.foldlM (fun s b => prime_pass ops n (N : Int) b s) { num := 0, den := 1 } l
        = some r.1 ∧
      l.Pairwise (fun x y => x < y) ∧
      ∀ x : Int, x ∈ l ↔ ∃ q : Nat, x = (q : Int) ∧ q.Prime ∧ q ≤ 3 * N) ∧
    (∀ m : Int, 2 ≤ m → m < 2147483647 →
      ∃ p : Nat, next_prime m = some (p : Int) ∧ p.Prime ∧ m < (p : Int) ∧
        ∀ q : Nat, q.Prime → m < (q : Int) → p ≤ q) := by
  have hw : wrap32 (3 * (N : Int)) = 3 * (N : Int) := wrap32_of_inInt (by omega) (by omega)
  refine ⟨?_, fun m h1 h2 => next_prime_spec_int m h1 h2⟩
  obtain ⟨l, e, hs, hm⟩ := sweep_values_spec ops n (N : Int) (by omega) (by omega)
    (fun p sum hp hple => by
      obtain ⟨L, hL, hL1, hLlo⟩ := hlog p hp (by omega)
      exact prime_pass_total_ops ops p N L n hp hNM hn1 hnM h2 hL hL1 hLlo sum)
    ((wrap32 (3 * (N : Int))).toNat + 1) 2 { num := 0, den := 1 } Nat.prime_two (by omega)
    (fun _ => by rw [hw]; push_cast; omega)
  obtain ⟨r, er⟩ := (sweep_values_isSome_iff ops n (N : Int) _ _ _).2 ⟨l, e⟩
  refine ⟨l, r, er, e, sweep_values_fold ops n (N : Int) _ _ _ l r e er, hs, fun x => ?_⟩
  rw [hm x]
  constructor
  · rintro ⟨q, h1, h2, _, h3⟩
    exact ⟨q, h1, h2, by omega⟩
  · rintro ⟨q, h1, h2, h3⟩
    exact ⟨q, h1, h2, h2.two_le, by omega⟩

theorem prime_sweep_values_witness :
    (∃ (l : List Int) (r : Frac × Int),
      sweep exactOps 1 ((18 : Nat) : Int) ((wrap32 (3 * ((18 : Nat) : Int))).toNat + 1) 2
        { num := 0, den := 1 } = some r ∧
      sweep_values exactOps 1 ((18 : Nat) : Int) ((wrap32 (3 * ((18 : Nat) : Int))).toNat + 1) 2
        { num := 0, den := 1 } = some l ∧
      List.foldlM (fun s b => prime_pass exactOps 1 ((18 : Nat) : Int) b s)
        { num := 0, den := 1 } l = some r.1 ∧
      l.Pairwise (fun x y => x < y) ∧
      ∀ x : Int, x ∈ l ↔ ∃ q : Nat, x = (q : Int) ∧ q.Prime ∧ q ≤ 3 * 18) ∧
    (∀ m : Int, 2 ≤ m → m < 2147483647 →
      ∃ p : Nat, next_prime m = some (p : Int) ∧ p.Prime ∧ m < (p : Int) ∧
        ∀ q : Nat, q.Prime → m < (q : Int) → p ≤ q) :=
  prime_sweep_values exactOps 1 18 (by decide) (by decide) (by decide) (by decide) (by decide)
    (fun p hp hple =>
      ⟨Nat.log p (3 * 18), (exactOps_logRatio_spec p 18 hp.two_le hple (by decide)).1,
        (exactOps_logRatio_spec p 18 hp.two_le hple (by decide)).2.1,
        (exactOps_logRatio_spec p 18 hp.two_le hple (by decide)).2.2.1⟩)

/-- Claim C14 (counterexample): for the prime `a = 3` with modulus `3^18` (the one of the
sweep whenever `3^18 <= 3 * N < 3^19`) and `n = 300000000`, iteration `k = 238609295` is
entered with `kq3 = 0`, but its third term `3 * (3 * k - 1) = 2147483652` does not fit in an
`int`: `DIVN` is handed the wrapped value and returns `t = -715827881`, which is not the term
divided by 3 (that is 715827884). -/
theorem phase_counter_counterexample :
    ∃ st, inner_state 300000000 3 387420489 18 238609294 = some st ∧ st.kq3 = 0 ∧
      (∀ v : Int, DIVN (wrap32 (3 * wrap32 (wrap32 (3 * 238609295) - 1))) 3 v 1 st.kq3 9 =
        some (-715827881, wrap32 (v + 1), 0)) ∧
      (3 * (3 * 238609295 - 1) : Int) = 3 * 715827884 ∧ ¬ (3 : Int) ∣ 715827884 := by
  obtain ⟨st, _, e, k3, _⟩ := overflow_iteration 300000000 (by decide) (by decide)
  refine ⟨st, e, k3, fun v => ?_, by decide, by decide⟩
  have w3 : wrap32 (3 * wrap32 (wrap32 (3 * 238609295) - 1)) = -2147483644 := by decide
  rw [w3, k3, divn_overflow]

/-- Claim C14 (amended): for every prime `a` with modulus `av = a^vmax`, `2 <= av <= 2^30`,
every position `1 <= n <= INT_MAX` (at most `10^9` when `a = 2`) and every `k >= 1` whose
terms fit in an `int` (`3 * (3 * k - 1) <= INT_MAX`), iteration `k` of the inner loop is
reached, and each of its four `DIVN` steps returns the term divided by `a^e`, `e` the
exponent of `a` in the term, changes `v` by `vinc * e` and leaves the phase counter at the
term modulo `a`; the stripped terms are not divisible by `a`. -/
theorem phase_counters_spec (p : Nat) (n : Int) (vm k : Nat) (hp : p.Prime) (hvm1 : 1 ≤ vm)
    (hav : (p : Int) ^ vm ≤ 1073741824) (hn1 : 1 ≤ n) (hnM : n ≤ 2147483647)
    (hn : p = 2 → n ≤ 1000000000) (hk1 : 1 ≤ k) (hk : 3 * (3 * k - 1) ≤ 2147483647) :
    ∃ st, inner_state n (p : Int) ((p : Int) ^ vm) (vm : Int) (k - 1) = some st ∧
      DIVN (wrap32 (2 * (k : Int))) (p : Int) st.v (-1) st.kq1 2 =
        some (((pfree p (2 * k) : Nat) : Int),
          st.v + -1 * ((2 * k).factorization p : Nat),
          ((2 * k % p : Nat) : Int)) ∧
      DIVN (wrap32 (wrap32 (2 * (k : Int)) - 1)) (p : Int)
          (st.v + -1 * ((2 * k).factorization p : Nat)) (-1) st.kq2 2 =
        some (((pfree p (2 * k - 1) : Nat) : Int),
          st.v + -1 * ((2 * k).factorization p : Nat)
            + -1 * ((2 * k - 1).factorization p : Nat),
          (((2 * k - 1) % p : Nat) : Int)) ∧
      DIVN (wrap32 (3 * wrap32 (wrap32 (3 * (k : Int)) - 1))) (p : Int)
          (st.v + -1 * ((2 * k).factorization p : Nat)
            + -1 * ((2 * k - 1).factorization p : Nat)) 1 st.kq3 9 =
        some (((pfree p (3 * (3 * k - 1)) : Nat) : Int),
          st.v + -1 * ((2 * k).factorization p : Nat)
            + -1 * ((2 * k - 1).factorization p : Nat)
            + 1 * ((3 * (3 * k - 1)).factorization p : Nat),
          (((3 * (3 * k - 1)) % p : Nat) : Int)) ∧
      DIVN (wrap32 (wrap32 (3 * (k : Int)) - 2)) (p : Int)
          (st.v + -1 * ((2 * k).factorization p : Nat)
            + -1 * ((2 * k - 1).factorization p : Nat)
            + 1 * ((3 * (3 * k - 1)).factorization p : Nat)) 1 st.kq4 3 =
        some (((pfree p (3 * k - 2) : Nat) : Int),
          st.v + -1 * ((2 * k).factorization p : Nat)
            + -1 * ((2 * k - 1).factorization p : Nat)
            + 1 * ((3 * (3 * k - 1)).factorization p : Nat)
            + 1 * ((3 * k - 2).factorization p : Nat),
          (((3 * k - 2) % p : Nat) : Int)) ∧
      ¬ p ∣ pfree p (2 * k) ∧ ¬ p ∣ pfree p (2 * k - 1) ∧ ¬ p ∣ pfree p (3 * (3 * k - 1)) ∧
      ¬ p ∣ pfree p (3 * k - 2) := by
  obtain ⟨j, rfl⟩ : ∃ j, k = j + 1 := ⟨k - 1, by omega⟩
  rw [Nat.add_sub_cancel]
  obtain ⟨st, e, I, _⟩ := inner_state_spec p hp n vm j hvm1 hav hn1 hnM hn (by omega)
  have hvb := inner_v_bounds p hp n vm j st (fun h => ⟨by omega, hn h⟩) (by omega) I
  have hpM : p ≤ 2147483638 := by
    have h1 := (pow_prime_bounds p hp vm hvm1).2.1
    omega
  obtain ⟨d1, d2, d3, d4⟩ := divn_calls p hp hpM j hk st I.kq1 I.kq2 I.kq3 I.kq4 (by omega)
    (by omega)
  exact ⟨st, e, d1, d2, d3, d4, pfree_not_dvd p _ hp (by omega), pfree_not_dvd p _ hp (by omega),
    pfree_not_dvd p _ hp (by omega), pfree_not_dvd p _ hp (by omega)⟩

theorem phase_counters_spec_witness :
    ∃ st, inner_state 1 ((3 : Nat) : Int) (((3 : Nat) : Int) ^ 3) ((3 : Nat) : Int) (2 - 1)
        = some st ∧
      DIVN (wrap32 (2 * ((2 : Nat) : Int))) ((3 : Nat) : Int) st.v (-1) st.kq1 2 =
        some (((pfree 3 (2 * 2) : Nat) : Int),
          st.v + -1 * ((2 * 2).factorization 3 : Nat),
          ((2 * 2 % 3 : Nat) : Int)) := by
  obtain ⟨st, h1, h2, _⟩ := phase_counters_spec 3 1 3 2 Nat.prime_three (by decide) (by decide)
    (by decide) (by decide) (by decide) (by decide) (by decide)
  exact ⟨st, h1, h2⟩

/-- Claim C15 (counterexample): for the prime `a = 3` with modulus `av = 3^18` (which does
not overflow) and `n = 300000000`, the four `DIVN` steps of iteration `k = 238609295` leave
`v > 0`, so `inv_mod2(den, av)` is called, with `den < 0`: the term `3 * (3 * k - 1)`
overflowed `int`. -/
theorem inverse_argument_counterexample :
    ∃ st st1, inner_state 300000000 3 387420489 18 238609294 = some st ∧
      strip_step 3 387420489 238609295 st = some st1 ∧ 0 < st1.v ∧ ¬ (1 ≤ st1.den) := by
  obtain ⟨st, st1, e, _, es, hv, hd⟩ := overflow_iteration 300000000 (by decide) (by decide)
  exact ⟨st, st1, e, es, hv, by omega⟩

/-- Claim C15 (amended): for every prime `a` with modulus `av = a^vmax`, `2 <= av <= 2^30`,
every position `1 <= n <= INT_MAX` (at most `10^9` when `a = 2`) and every `k >= 1` whose
terms fit in an `int` (`3 * (3 * k - 1) <= INT_MAX`), after the four `DIVN` steps of
iteration `k` the value `den` satisfies `1 <= den < av` and `gcd(den, av) = 1`, and the call
of `inv_mod2` (odd `a`) or `inv_mod` (`a = 2`) on it returns an inverse of `den` modulo `av`
in `[0, av)`. -/
theorem inverse_argument_spec (p : Nat) (n : Int) (vm k : Nat) (hp : p.Prime) (hvm1 : 1 ≤ vm)
    (hav : (p : Int) ^ vm ≤ 1073741824) (hn1 : 1 ≤ n) (hnM : n ≤ 2147483647)
    (hn : p = 2 → n ≤ 1000000000) (hk1 : 1 ≤ k) (hk : 3 * (3 * k - 1) ≤ 2147483647) :
    ∃ st st1, inner_state n (p : Int) ((p : Int) ^ vm) (vm : Int) (k - 1) = some st ∧
      strip_step (p : Int) ((p : Int) ^ vm) (k : Int) st = some st1 ∧
      1 ≤ st1.den ∧ st1.den < (p : Int) ^ vm ∧ Int.gcd st1.den ((p : Int) ^ vm) = 1 ∧
      ∃ r, (if (p : Int) ≠ 2 then inv_mod2 st1.den ((p : Int) ^ vm)
          else inv_mod st1.den ((p : Int) ^ vm)) = some r ∧
        0 ≤ r ∧ r < (p : Int) ^ vm ∧ (st1.den * r) % (p : Int) ^ vm = 1 := by
  obtain ⟨j, rfl⟩ : ∃ j, k = j + 1 := ⟨k - 1, by omega⟩
  rw [Nat.add_sub_cancel]
  obtain ⟨st, st1, st2, e, e1, _, _, _, I1, _⟩ := iteration_spec p hp n vm j hvm1 hav hn1 hnM hn hk
  obtain ⟨hd1, hd2, hg⟩ := inner_den_coprime p hp n vm (j + 1) hvm1 st1 I1
  obtain ⟨hav2, _, hodd⟩ := pow_prime_bounds p hp vm hvm1
  exact ⟨st, st1, e, e1, hd1, hd2, hg, inverse_exists p _ _ hav2 (by omega)
    (fun h => ⟨hodd h, hav⟩) hd1 hd2 hg⟩

theorem inverse_argument_spec_witness :
    ∃ st st1, inner_state 1 ((3 : Nat) : Int) (((3 : Nat) : Int) ^ 3) ((3 : Nat) : Int) (2 - 1)
        = some st ∧
      strip_step ((3 : Nat) : Int) (((3 : Nat) : Int) ^ 3) ((2 : Nat) : Int) st = some st1 ∧
      1 ≤ st1.den ∧ st1.den < ((3 : Nat) : Int) ^ 3 ∧
      Int.gcd st1.den (((3 : Nat) : Int) ^ 3) = 1 := by
  obtain ⟨st, st1, h1, h2, h3, h4, h5, _⟩ := inverse_argument_spec 3 1 3 2 Nat.prime_three
    (by decide) (by decide) (by decide) (by decide) (by decide) (by decide) (by decide)
  exact ⟨st, st1, h1, h2, h3, h4, h5⟩

/-- Claim C16 (counterexample): in the run for `n = 72` the truncation length is `N = 81` and
`3 * N = 243 = 3^5`; the `double` quotient `log(243) / log(3)` is 4.999999999999999 and the
cast gives 4. With these values of the two floating-point expressions the prime 3 gets
`vmax = 4`, not `floor(log_3(243)) = 5`. -/
theorem vmax_not_floor_counterexample :
    exactOps.truncLen 72 = 81 ∧
      vmax_of { truncLen := fun _ => 81, logRatio := fun _ _ => 4 } 72 81 3 = 4 ∧
      3 ^ 5 ≤ 3 * 81 ∧ 3 * 81 < 3 ^ 6 := by
  refine ⟨by decide, by decide, by decide, by decide⟩

/-- Claim C16 (amended): for every `1 <= n <= INT_MAX`, every prime `a` of the sweep whose
`k` loop runs and every `k` in `1..N`, with the terms of the loop and the modulus within
`int` (`3 * (3 * N - 1) <= INT_MAX`, and `3 * N * 2^N < 2^(n+31)` for `a = 2`): if the
computed quotient `L = (int) (log(3 * N) / log(a))` satisfies `L >= 1` and
`a^L <= 3 * N <= a^(L+1)` (it is `floor(log_a(3 * N))`, or one less when `3 * N` is the
power `a^(L+1)`), then `vmax` is `L`, plus `N - n` when `a = 2`, and after the four `DIVN`
steps of iteration `k`, whenever `v > 0` also `v <= vmax`, so that the number of passes of
the restoring loop is `vmax - v >= 0`. -/
theorem fold_exponent_le_vmax (ops : FloatOps) (p N k L : Nat) (n : Int) (hp : p.Prime)
    (hNM : 3 * (3 * N - 1) ≤ 2147483647) (hn1 : 1 ≤ n) (hnM : n ≤ 2147483647)
    (h2 : 3 * N * 2 ^ N < 2 ^ (n.toNat + 31))
    (hL : ops.logRatio (wrap32 (3 * (N : Int))) (p : Int) = (L : Int)) (hL1 : 1 ≤ L)
    (hLlo : p ^ L ≤ 3 * N) (hLhi : 3 * N ≤ p ^ (L + 1))
    (hrun : ¬ ((p : Int) = 2 ∧ vmax_of ops n (N : Int) (p : Int) ≤ 0))
    (hk1 : 1 ≤ k) (hkN : k ≤ N) :
    (p ≠ 2 → vmax_of ops n (N : Int) (p : Int) = (L : Int)) ∧
    (p = 2 → vmax_of ops n (N : Int) (p : Int) = (L : Int) + ((N : Int) - n)) ∧
    ∃ st st1, inner_state n (p : Int)
          (av_loop (p : Int) (vmax_of ops n (N : Int) (p : Int)).toNat)
          (vmax_of ops n (N : Int) (p : Int)) (k - 1) = some st ∧
      strip_step (p : Int) (av_loop (p : Int) (vmax_of ops n (N : Int) (p : Int)).toNat)
          (k : Int) st = some st1 ∧
      (0 < st1.v → st1.v ≤ vmax_of ops n (N : Int) (p : Int) ∧
        (((vmax_of ops n (N : Int) (p : Int) - st1.v).toNat : Nat) : Int)
          = vmax_of ops n (N : Int) (p : Int) - st1.v) := by
  obtain ⟨vm, hvm, hvm1, hav, hn, hodd, htwo⟩ := vmax_facts_ops ops p N L n hp (by omega) hn1
    hnM h2 hL hL1 hLlo hrun
  obtain ⟨j, rfl⟩ : ∃ j, k = j + 1 := ⟨k - 1, by omega⟩
  rw [Nat.add_sub_cancel, hvm]
  simp only [Int.toNat_ofNat]
  rw [av_loop_eq p hp.pos vm (by omega)]
  obtain ⟨st, st1, st2, e, e1, _, _, _, I1, _⟩ := iteration_spec p hp n vm j hvm1 hav hn1 hnM hn
    (by omega)
  have hle := inner_v_le_vmax_ops p hp n vm (j + 1) N L st1 hL1 hLhi hk1 hkN I1 hodd htwo
  refine ⟨fun h => by rw [hodd h], fun h => htwo h, st, st1, e, e1, fun _ => ⟨hle, by omega⟩⟩

theorem fold_exponent_le_vmax_witness :
    ∃ st st1, inner_state 72 ((3 : Nat) : Int)
          (av_loop ((3 : Nat) : Int)
            (vmax_of { truncLen := fun _ => 81, logRatio := fun _ _ => 4 } 72 ((81 : Nat) : Int)
              ((3 : Nat) : Int)).toNat)
          (vmax_of { truncLen := fun _ => 81, logRatio := fun _ _ => 4 } 72 ((81 : Nat) : Int)
            ((3 : Nat) : Int)) (81 - 1) = some st ∧
      strip_step ((3 : Nat) : Int)
          (av_loop ((3 : Nat) : Int)
            (vmax_of { truncLen := fun _ => 81, logRatio := fun _ _ => 4 } 72 ((81 : Nat) : Int)
              ((3 : Nat) : Int)).toNat)
          ((81 : Nat) : Int) st = some st1 ∧
      (0 < st1.v → st1.v ≤ vmax_of { truncLen := fun _ => 81, logRatio := fun _ _ => 4 } 72
          ((81 : Nat) : Int) ((3 : Nat) : Int) ∧
        (((vmax_of { truncLen := fun _ => 81, logRatio := fun _ _ => 4 } 72 ((81 : Nat) : Int)
            ((3 : Nat) : Int) - st1.v).toNat : Nat) : Int)
          = vmax_of { truncLen := fun _ => 81, logRatio := fun _ _ => 4 } 72 ((81 : Nat) : Int)
            ((3 : Nat) : Int) - st1.v) :=
  (fold_exponent_le_vmax { truncLen := fun _ => 81, logRatio := fun _ _ => 4 } 3 81 81 4 72
    Nat.prime_three (by decide) (by decide) (by decide) (by decide) (by decide) (by decide)
    (by decide) (by decide) (by decide) (by decide) (by decide)).2.2

/-- Claim C17 (counterexample): for the prime `a = 3` with modulus `av = 3^18` (which is
`>= 2` and does not overflow) and `n = 300000000`, after the modular reductions of iteration
`k = 238609295` the value `den` is negative, hence not in `[0, av)`: the term
`3 * (3 * k - 1)` overflowed `int`. -/
theorem state_reduced_counterexample :
    ∃ st st1, inner_state 300000000 3 387420489 18 238609294 = some st ∧
      strip_step 3 387420489 238609295 st = some st1 ∧
      ¬ (0 ≤ st1.den ∧ st1.den < 387420489) := by
  obtain ⟨st, st1, e, _, es, _, hd⟩ := overflow_iteration 300000000 (by decide) (by decide)
  exact ⟨st, st1, e, es, by omega⟩

/-- Claim C17 (amended): for every prime `a` with modulus `av = a^vmax`, `2 <= av <= 2^30`,
every position `1 <= n <= INT_MAX` (at most `10^9` when `a = 2`) and every `k >= 1` with
`25 * k <= INT_MAX`, iteration `k` of the inner loop is reached and completes, and
`0 <= num < av` and `0 <= den < av` hold after its reductions and `0 <= s < av` after its
fold; every reduction `mul_mod(x, y, av)` of operands `>= 0` lies in `[0, av)`. -/
theorem state_reduced_spec (p : Nat) (n : Int) (vm k : Nat) (hp : p.Prime) (hvm1 : 1 ≤ vm)
    (hav : (p : Int) ^ vm ≤ 1073741824) (hn1 : 1 ≤ n) (hnM : n ≤ 2147483647)
    (hn : p = 2 → n ≤ 1000000000) (hk1 : 1 ≤ k) (hk : 25 * k ≤ 2147483647) :
    ∃ st st1 st2, inner_state n (p : Int) ((p : Int) ^ vm) (vm : Int) (k - 1) = some st ∧
      strip_step (p : Int) ((p : Int) ^ vm) (k : Int) st = some st1 ∧
      inner_step (p : Int) ((p : Int) ^ vm) (vm : Int) (k : Int) st = some st2 ∧
      inner_state n (p : Int) ((p : Int) ^ vm) (vm : Int) k = some st2 ∧
      (0 ≤ st1.num ∧ st1.num < (p : Int) ^ vm) ∧ (0 ≤ st1.den ∧ st1.den < (p : Int) ^ vm) ∧
      st2.num = st1.num ∧ st2.den = st1.den ∧
      (0 ≤ st.s ∧ st.s < (p : Int) ^ vm) ∧ (0 ≤ st2.s ∧ st2.s < (p : Int) ^ vm) ∧
      ∀ x y : Int, 0 ≤ x → 0 ≤ y →
        ∃ r, mul_mod x y ((p : Int) ^ vm) = some r ∧ 0 ≤ r ∧ r < (p : Int) ^ vm := by
  obtain ⟨j, rfl⟩ : ∃ j, k = j + 1 := ⟨k - 1, by omega⟩
  rw [Nat.add_sub_cancel]
  obtain ⟨st, st1, st2, e, e1, e2, e3, _, I1, I2, h12, _, hs⟩ := iteration_spec p hp n vm j hvm1
    hav hn1 hnM hn (by omega)
  obtain ⟨st3, e4, _, hs3⟩ := inner_state_spec p hp n vm (j + 1) hvm1 hav hn1 hnM hn (by omega)
  have h23 : st3 = st2 := by
    rw [e3] at e4
    exact (Option.some.inj e4).symm
  subst h23
  obtain ⟨hav2, _, _⟩ := pow_prime_bounds p hp vm hvm1
  have hpos : (0 : Int) < (p : Int) ^ vm := by omega
  refine ⟨st, st1, st3, e, e1, e2, e3, ?_, ?_, ?_, ?_, hs (by omega), hs3 hk, ?_⟩
  · rw [I1.num]
    exact ⟨Int.emod_nonneg _ hpos.ne', Int.emod_lt_of_pos _ hpos⟩
  · rw [I1.den]
    exact ⟨Int.emod_nonneg _ hpos.ne', Int.emod_lt_of_pos _ hpos⟩
  · rw [h12]
  · rw [h12]
  · intro x y hx hy
    rw [mul_mod_nonneg hx hy hpos]
    exact ⟨_, rfl, Int.emod_nonneg _ hpos.ne', Int.emod_lt_of_pos _ hpos⟩

theorem state_reduced_spec_witness :
    ∃ st st1 st2, inner_state 1 ((3 : Nat) : Int) (((3 : Nat) : Int) ^ 3) ((3 : Nat) : Int)
        (2 - 1) = some st ∧
      strip_step ((3 : Nat) : Int) (((3 : Nat) : Int) ^ 3) ((2 : Nat) : Int) st = some st1 ∧
      inner_step ((3 : Nat) : Int) (((3 : Nat) : Int) ^ 3) ((3 : Nat) : Int) ((2 : Nat) : Int) st
        = some st2 ∧
      inner_state 1 ((3 : Nat) : Int) (((3 : Nat) : Int) ^ 3) ((3 : Nat) : Int) 2 = some st2 ∧
      (0 ≤ st1.num ∧ st1.num < ((3 : Nat) : Int) ^ 3) ∧
      (0 ≤ st1.den ∧ st1.den < ((3 : Nat) : Int) ^ 3) := by
  obtain ⟨st, st1, st2, h1, h2, h3, h4, h5, h6, _⟩ := state_reduced_spec 3 1 3 2
    Nat.prime_three (by decide) (by decide) (by decide) (by decide) (by decide) (by decide)
    (by decide)
  exact ⟨st, st1, st2, h1, h2, h3, h4, h5, h6⟩

/-- Claim C18 (counterexample): for `n = 1` and the truncation length `N = 27` the prime 2
gets `vmax = floor(log_2(81)) + 27 - 1 = 32`, the modulus `av = 2^32` wraps to 0 in `int`
arithmetic, and the first `mul_mod` of the `k` loop takes a remainder by zero: the sweep
traps and leaves no value of `sum`. -/
theorem sweep_sum_counterexample :
    vmax_of exactOps 1 27 2 = 32 ∧ av_loop 2 32 = 0 ∧
      sweep exactOps 1 27 ((wrap32 (3 * 27)).toNat + 1) 2 { num := 0, den := 1 } = none := by
  refine ⟨by decide, by decide, by decide⟩

/-- Claim C18 (amended): with the accumulator `sum` kept as an exact rational and the
logarithm quotients exact, for every position `1 <= n <= INT_MAX` and every truncation
length `N >= 1` with `25 * N <= INT_MAX` and `3 * N * 2^N < 2^(n+31)` (the modulus of the
prime 2 fits in an `int`), the prime sweep returns and the final `sum` is the fractional
part of `10^(n-1) * Sum_{k=1..N} (25k - 3) / (binomial(3k, k) * 2^(k-1))`. -/
theorem sweep_sum_eq_fract (n : Int) (N : Nat) (hn1 : 1 ≤ n) (hnM : n ≤ 2147483647)
    (hN : 1 ≤ N) (hNM : 25 * N ≤ 2147483647) (h2 : 3 * N * 2 ^ N < 2 ^ (n.toNat + 31)) :
    ∃ (sum : Frac) (a : Int),
      sweep exactOps n (N : Int) ((wrap32 (3 * (N : Int))).toNat + 1) 2 { num := 0, den := 1 }
        = some (sum, a) ∧
      sum.toRat = Int.fract ((10 : Rat) ^ (n - 1).toNat * Finset.sum (Finset.Icc 1 N)
        (fun k : Nat => (25 * (k : Rat) - 3) / ((Nat.choose (3 * k) k : Rat) * 2 ^ (k - 1)))) := by
  obtain ⟨sumF, pF, e, h⟩ := sweep_pint N n hN hNM hn1 hnM h2
  rw [scaledSum_eq n hn1 N] at h
  exact ⟨sumF, pF, e, h⟩

theorem sweep_sum_eq_fract_witness :
    ∃ (sum : Frac) (a : Int),
      sweep exactOps 1 ((18 : Nat) : Int) ((wrap32 (3 * ((18 : Nat) : Int))).toNat + 1) 2
        { num := 0, den := 1 } = some (sum, a) ∧
      sum.toRat = Int.fract ((10 : Rat) ^ ((1 : Int) - 1).toNat * Finset.sum (Finset.Icc (1 : Nat) 18)
        (fun k : Nat => (25 * (k : Rat) - 3) / ((Nat.choose (3 * k) k : Rat) * 2 ^ (k - 1)))) :=
  sweep_sum_eq_fract 1 18 (by decide) (by decide) (by decide) (by decide) (by decide)

/-- Claim C20 (counterexample): for `N = 1162261467 = 3^19` and `a = 3`,
`floor(log_3(3 * N)) = 20`, and the modulus built by 20 multiplications by 3 in `int`
arithmetic is `-808182895`, not `3^20`, and not `>= a`. And in the run for `n = 72`
(`N = 81`, `3 * N = 243`) the `double` quotient `log(243) / log(3)` is cast to 4: with this
value the prime 3 gets `vmax = 4` and `av = 81`, and `3 * N < a^(vmax+1)` fails. -/
theorem modulus_overflow_counterexample :
    (3 ^ 20 ≤ 3 * 1162261467 ∧ 3 * 1162261467 < 3 ^ 21 ∧ av_loop 3 20 = -808182895 ∧
      ¬ ((3 : Int) ≤ av_loop 3 20)) ∧
    (vmax_of { truncLen := fun _ => 81, logRatio := fun _ _ => 4 } 72 81 3 = 4 ∧
      av_loop 3 (vmax_of { truncLen := fun _ => 81, logRatio := fun _ _ => 4 } 72 81 3).toNat
        = 81 ∧
      ¬ (3 * 81 < 3 ^ (4 + 1))) := by
  refine ⟨⟨by decide, by decide, by decide, by decide⟩, by decide, by decide, by decide⟩

/-- Claim C20 (amended): for every `N >= 1` with `3 * N <= INT_MAX` and every odd prime
`a <= 3 * N` whose computed `vmax` satisfies `a^vmax <= 3 * N`, the modulus built by
repeated multiplication is `av = a^vmax <= 3 * N`, and every product of two values in
`[0, av)` is below `(3 * N)^2`; when `vmax` is `floor(log_a(3 * N))`, that is when also
`3 * N < a^(vmax+1)`, then `a <= av <= 3 * N < a * av`. -/
theorem modulus_bounds (ops : FloatOps) (p N L : Nat) (n : Int) (hp : p.Prime) (hodd : p ≠ 2)
    (hple : p ≤ 3 * N) (hNM : 3 * N ≤ 2147483647)
    (hL : ops.logRatio (wrap32 (3 * (N : Int))) (p : Int) = (L : Int))
    (hLlo : p ^ L ≤ 3 * N) :
    vmax_of ops n (N : Int) (p : Int) = (L : Int) ∧
      av_loop (p : Int) (vmax_of ops n (N : Int) (p : Int)).toNat = (p : Int) ^ L ∧
      av_loop (p : Int) (vmax_of ops n (N : Int) (p : Int)).toNat ≤ 3 * (N : Int) ∧
      (∀ x y : Int, 0 ≤ x → x < av_loop (p : Int) (vmax_of ops n (N : Int) (p : Int)).toNat →
        0 ≤ y → y < av_loop (p : Int) (vmax_of ops n (N : Int) (p : Int)).toNat →
        x * y < (3 * (N : Int)) ^ 2) ∧
      (3 * N < p ^ (L + 1) →
        (p : Int) ≤ av_loop (p : Int) (vmax_of ops n (N : Int) (p : Int)).toNat ∧
        3 * (N : Int) < (p : Int) * av_loop (p : Int) (vmax_of ops n (N : Int) (p : Int)).toNat)
    := by
  have hp2 := hp.two_le
  have hc : ¬ ((p : Int) = 2) := by exact_mod_cast hodd
  have hv : vmax_of ops n (N : Int) (p : Int) = (L : Int) := by
    unfold vmax_of
    rw [if_neg hc, hL]
  have hle : (p : Int) ^ L ≤ 3 * (N : Int) := by exact_mod_cast hLlo
  have hav : av_loop (p : Int) (vmax_of ops n (N : Int) (p : Int)).toNat = (p : Int) ^ L := by
    rw [hv]
    simp only [Int.toNat_ofNat]
    exact av_loop_eq p hp.pos L (by omega)
  rw [hav]
  refine ⟨hv, rfl, hle, ?_, ?_⟩
  · intro x y hx0 hx hy0 hy
    nlinarith
  · intro hhi
    have hL1 : 1 ≤ L := by
      by_contra hcon
      have hL0 : L = 0 := by omega
      rw [hL0] at hhi
      simp at hhi
      omega
    constructor
    · have : p ≤ p ^ L := by
        calc p = p ^ 1 := (pow_one p).symm
          _ ≤ p ^ L := Nat.pow_le_pow_right hp.pos hL1
      exact_mod_cast this
    · have : 3 * N < p * p ^ L := by
        rw [pow_succ'] at hhi
        exact hhi
      exact_mod_cast this

theorem modulus_bounds_witness :
    vmax_of exactOps 1 ((18 : Nat) : Int) ((3 : Nat) : Int) = ((3 : Nat) : Int) ∧
      av_loop ((3 : Nat) : Int) (vmax_of exactOps 1 ((18 : Nat) : Int) ((3 : Nat) : Int)).toNat
        = ((3 : Nat) : Int) ^ 3 ∧
      av_loop ((3 : Nat) : Int) (vmax_of exactOps 1 ((18 : Nat) : Int) ((3 : Nat) : Int)).toNat
        ≤ 3 * ((18 : Nat) : Int) := by
  obtain ⟨h1, h2, h3, _⟩ := modulus_bounds exactOps 3 18 3 1 Nat.prime_three (by decide)
    (by decide) (by decide) (by decide) (by decide)
  exact ⟨h1, h2, h3⟩

end PiDigits
